import Mathlib

/-!
# parse-registry: a shallow embedding of `scripts/parse-registry.go`

Go strings are modelled by their sequence of runes (`List Char`): the text handled by the
program is valid UTF-8, for which Go's byte-wise string comparison coincides with the
lexicographic comparison of code points.  Library functions of the Go standard library
(`strings`, `regexp`, `sort`, `bufio`) are embedded by what they compute on such strings.
-/

namespace ParseRegistry

/-- A Go string, as the list of its runes. -/
abbrev Str := List Char

/-! ## `strings` helpers -/

/-- The character class `[a-z0-9]`. -/
def isLowerAlnum (c : Char) : Bool :=
  (decide (97 ≤ c.toNat) && decide (c.toNat ≤ 122)) || (decide (48 ≤ c.toNat) && decide (c.toNat ≤ 57))

/-- Go `unicode.ToLower`: ASCII runes are lowered arithmetically, every other rune goes
through the Unicode case tables, which are taken as the parameter `tbl`. -/
def unicodeToLower (tbl : Char → Char) (c : Char) : Char :=
  if c.toNat ≤ 127 then
    if 65 ≤ c.toNat ∧ c.toNat ≤ 90 then Char.ofNat (c.toNat + 32) else c
  else tbl c

/-- Go `strings.ToLower`: every rune is mapped with `unicode.ToLower`. -/
def stringsToLower (tbl : Char → Char) (s : Str) : Str :=
  s.map (unicodeToLower tbl)

/-- `regexp.MustCompile("[^a-z0-9]+").ReplaceAllString(s, "-")`: every maximal run of runes
outside `[a-z0-9]` is replaced by one `-`.  The flag says whether the scan is inside such a
run, whose `-` has been written already. -/
def replaceNonAlnumRuns : Bool → Str → Str
  | _, [] => []
  | inRun, c :: cs =>
    if isLowerAlnum c then c :: replaceNonAlnumRuns false cs
    else if inRun then replaceNonAlnumRuns true cs
    else '-' :: replaceNonAlnumRuns true cs

/-- Go `strings.Trim(s, "-")`: leading and trailing `-` are removed. -/
def trimDashes (s : Str) : Str :=
  ((s.dropWhile (fun c => c == '-')).reverse.dropWhile (fun c => c == '-')).reverse

/-- Source `generateID`: lower-case the name, collapse the runs outside `[a-z0-9]` to `-`,
trim `-` at both ends.  The `repo` argument is not used. -/
def generateID (tbl : Char → Char) (name _repo : Str) : Str :=
  trimDashes (replaceNonAlnumRuns false (stringsToLower tbl name))

/-- Go `unicode.IsSpace`, the white space trimmed by `strings.TrimSpace`. -/
def isSpace (c : Char) : Bool :=
  let n := c.toNat
  (decide (9 ≤ n) && decide (n ≤ 13)) || n == 32 || n == 133 || n == 160 || n == 5760 ||
    (decide (8192 ≤ n) && decide (n ≤ 8202)) || n == 8232 || n == 8233 || n == 8239 ||
    n == 8287 || n == 12288

/-- Go `strings.TrimSpace`. -/
def stringsTrimSpace (s : Str) : Str :=
  ((s.dropWhile isSpace).reverse.dropWhile isSpace).reverse

/-- Go `strings.HasPrefix(s, pre)`. -/
def stringsHasPrefix (s pre : Str) : Bool :=
  pre.isPrefixOf s

/-- Go `strings.TrimPrefix(s, pre)`. -/
def stringsTrimPrefix (s pre : Str) : Str :=
  if stringsHasPrefix s pre then s.drop pre.length else s

/-- Go `strings.TrimSuffix(s, suf)`. -/
def stringsTrimSuffix (s suf : Str) : Str :=
  if suf.isSuffixOf s then s.take (s.length - suf.length) else s

/-- Go `strings.Index(s, sub)`: position of the first occurrence of `sub` in `s`, `none`
for Go's `-1`.  Positions count runes; the text before the position is the same. -/
def stringsIndex (s sub : Str) : Option Nat :=
  if sub.isPrefixOf s then some 0
  else match s with
    | [] => none
    | _ :: t => (stringsIndex t sub).map (fun i => i + 1)

/-- Go `strings.Contains(s, sub)`. -/
def stringsContains (s sub : Str) : Bool :=
  (stringsIndex s sub).isSome

/-- Go `strings.Split(s, sep)` for a separator of one rune (the program only splits at
`/`): the pieces between the separators, `[""]` for the empty string. -/
def stringsSplit (sep : Char) : Str → List Str
  | [] => [[]]
  | c :: cs =>
    if c = sep then [] :: stringsSplit sep cs
    else match stringsSplit sep cs with
      | p :: ps => (c :: p) :: ps
      | [] => [[c]]

/-! ## Data model -/

/-- Go `time.Time`, as an offset from the zero time: `0` is the zero timestamp. -/
abbrev Time := Int

/-- Source `Plugin`. -/
structure Plugin where
  ID : Str
  Name : Str
  Description : Str
  Category : Str
  Tags : List Str
  License : Str
  Repository : Str
  Author : Str
  Stars : Int
  UpdatedAt : Time
  Language : Str
  InstallType : Str
  Package : Str
  Verified : Bool
  Official : Bool
  deriving DecidableEq, Repr, Inhabited

/-- Source `GitHubRepo`; the `License` pointer is an option. -/
structure GitHubRepo where
  StargazersCount : Int
  Language : Str
  License : Option Str
  PushedAt : Time
  deriving DecidableEq, Repr, Inhabited

/-- The zero value of `Plugin`, from which the example records are written. -/
def blankPlugin : Plugin :=
  { ID := [], Name := [], Description := [], Category := [], Tags := [], License := [],
    Repository := [], Author := [], Stars := 0, UpdatedAt := 0, Language := [],
    InstallType := [], Package := [], Verified := false, Official := false }

/-- Source `categoryMap`. -/
def categoryMap : List (Str × Str) :=
  [ ("productivity".toList, "productivity".toList),
    ("development".toList, "development".toList),
    ("ai".toList, "ai".toList),
    ("data".toList, "data".toList),
    ("finance".toList, "finance".toList),
    ("communication".toList, "communication".toList),
    ("security".toList, "security".toList),
    ("utility".toList, "utility".toList),
    ("integration".toList, "integration".toList),
    ("aggregators".toList, "utility".toList),
    ("aerospace-and-astrodynamics".toList, "productivity".toList),
    ("art-and-culture".toList, "productivity".toList),
    ("bio".toList, "data".toList),
    ("browser-automation".toList, "development".toList),
    ("cloud-platforms".toList, "integration".toList),
    ("code-execution".toList, "development".toList),
    ("coding-agents".toList, "development".toList),
    ("command-line".toList, "development".toList),
    ("customer-data-platforms".toList, "data".toList),
    ("databases".toList, "data".toList),
    ("data-platforms".toList, "data".toList),
    ("developer-tools".toList, "development".toList),
    ("delivery".toList, "integration".toList),
    ("data-science-tools".toList, "data".toList),
    ("embedded-system".toList, "development".toList),
    ("file-systems".toList, "utility".toList),
    ("finance--fintech".toList, "finance".toList),
    ("gaming".toList, "productivity".toList),
    ("knowledge--memory".toList, "ai".toList),
    ("location-services".toList, "integration".toList),
    ("marketing".toList, "productivity".toList),
    ("monitoring".toList, "development".toList),
    ("multimedia-process".toList, "productivity".toList),
    ("news--information".toList, "productivity".toList),
    ("productivity-and-organization".toList, "productivity".toList),
    ("project-management".toList, "productivity".toList),
    ("search".toList, "utility".toList),
    ("smart-home".toList, "integration".toList),
    ("security-and-privacy".toList, "security".toList),
    ("social-media".toList, "communication".toList),
    ("sports".toList, "productivity".toList),
    ("testing".toList, "development".toList),
    ("travel".toList, "productivity".toList),
    ("version-control".toList, "development".toList),
    ("web-automation".toList, "development".toList),
    ("web3--blockchain".toList, "integration".toList) ]

/-- The hosting-domain prefix `https://github.com/`. -/
def githubPrefix : Str := "https://github.com/".toList

/-! ## The two regular expressions of `parseMarkdown`

Go's `regexp` returns the leftmost match that a backtracking search finds first.  The two
patterns are embedded as the matchers that search performs, piece by piece. -/

/-- The regexp class `\s`, which is `[\t\n\f\r ]`. -/
def isRegexSpace (c : Char) : Bool :=
  c == '\t' || c == '\n' || c == '\x0c' || c == '\r' || c == ' '

/-- A literal rune `c` of a pattern: the rest of the text after it. -/
def expectRune (c : Char) : Str → Option Str
  | [] => none
  | d :: rest => if d = c then some rest else none

/-- The pattern `([^c]+)c`: the group is the non-empty text before the first `c`; returns the
group and the text after that `c`. -/
def captureUntil (c : Char) (s : Str) : Option (Str × Str) :=
  match s.dropWhile (fun d => d != c) with
  | [] => none
  | _ :: rest =>
    if (s.takeWhile (fun d => d != c)).isEmpty then none
    else some (s.takeWhile (fun d => d != c), rest)

/-- The pattern `\s*(.+)`: the greedy `\s*` takes white space and gives it back until a rune
other than a newline follows; the group runs to the next newline or the end of the text. -/
def matchDescription : Str → Option Str
  | [] => none
  | c :: cs =>
    if isRegexSpace c then
      match matchDescription cs with
      | some d => some d
      | none => if c = '\n' then none else some (c :: cs.takeWhile (fun d => d != '\n'))
    else some (c :: cs.takeWhile (fun d => d != '\n'))

/-- The pattern `.*?-\s*(.+)`: the lazy `.*?` stops at the first `-` after which
`\s*(.+)` matches, and does not cross a newline. -/
def matchTail : Str → Option Str
  | [] => none
  | c :: cs =>
    if c = '-' then
      match matchDescription cs with
      | some d => some d
      | none => matchTail cs
    else if c = '\n' then none
    else matchTail cs

/-- Source `linkRegex.FindStringSubmatch(line)` for the pattern
`^\s*-\s*\[([^\]]+)\]\(([^)]+)\).*?-\s*(.+)`: the three groups, `none` for `nil`. -/
def linkRegex (line : Str) : Option (Str × Str × Str) :=
  match expectRune '-' (line.dropWhile isRegexSpace) with
  | none => none
  | some s1 =>
    match expectRune '[' (s1.dropWhile isRegexSpace) with
    | none => none
    | some s2 =>
      match captureUntil ']' s2 with
      | none => none
      | some (label, s3) =>
        match expectRune '(' s3 with
        | none => none
        | some s4 =>
          match captureUntil ')' s4 with
          | none => none
          | some (target, s5) =>
            match matchTail s5 with
            | none => none
            | some desc => some (label, target, desc)

/-- The pattern `<a name="([^"]+)"></a>` tried at the start of `s`. -/
def matchAnchorAt (s : Str) : Option Str :=
  if stringsHasPrefix s "<a name=\"".toList then
    match captureUntil '"' (s.drop 9) with
    | none => none
    | some (anchor, rest) => if stringsHasPrefix rest "></a>".toList then some anchor else none
  else none

/-- Source `categoryRegex.FindStringSubmatch(line)`: the group of the leftmost match. -/
def categoryRegex : Str → Option Str
  | [] => none
  | c :: cs =>
    match matchAnchorAt (c :: cs) with
    | some anchor => some anchor
    | none => categoryRegex cs

/-! ## Identity -/

/-- Source `extractAuthor`. -/
def extractAuthor (repo : Str) : Str :=
  match stringsSplit '/' (stringsTrimPrefix repo githubPrefix) with
  | p :: _ => p
  | [] => []

/-! ## Extraction -/

/-- The category context after a heading line (the body of the `### ` branch). -/
def headingCategory (current line : Str) : Str :=
  match categoryRegex line with
  | none => current
  | some anchorName =>
    match categoryMap.lookup anchorName with
    | some mapped => mapped
    | none => current

/-- The record built for an accepted list item. -/
def mkPlugin (tbl : Char → Char) (currentCategory name repo desc : Str) : Plugin :=
  { ID := generateID tbl name repo
    Name := name
    Description := desc
    Category := currentCategory
    Tags := []
    License := []
    Repository := repo
    Author := extractAuthor repo
    Stars := 0
    UpdatedAt := 0
    Language := []
    InstallType := []
    Package := []
    Verified := false
    Official :=
      stringsContains (stringsToLower tbl (extractAuthor repo)) "anthropic".toList ||
      stringsContains (stringsToLower tbl (extractAuthor repo)) "modelcontextprotocol".toList }

/-- The scanning loop of `parseMarkdown` over the lines the scanner delivers, with the
current category as loop state. -/
def parseLines (tbl : Char → Char) : Str → List Str → List Plugin
  | _, [] => []
  | currentCategory, line :: rest =>
    if stringsHasPrefix line "### ".toList then
      parseLines tbl (headingCategory currentCategory line) rest
    else
      match linkRegex line with
      | none => parseLines tbl currentCategory rest
      | some (m1, m2, m3) =>
        if !stringsHasPrefix (stringsTrimSpace m2) githubPrefix then
          parseLines tbl currentCategory rest
        else
          mkPlugin tbl currentCategory (stringsTrimSpace m1) (stringsTrimSpace m2)
            (stringsTrimSpace m3) :: parseLines tbl currentCategory rest

/-- The loop of `parseMarkdown` from the initial category `utility`, over the lines the
scanner delivers. -/
def parseScanned (tbl : Char → Char) (lines : List Str) : List Plugin :=
  parseLines tbl "utility".toList lines

/-! ## The scanner -/

/-- `bufio.MaxScanTokenSize`, the size of the scanner's buffer. -/
def maxScanTokenSize : Nat := 65536

/-- The number of bytes of a string in UTF-8. -/
def utf8Length (s : Str) : Nat :=
  (s.map Char.utf8Size).sum

/-- The raw tokens of `bufio.ScanLines`, before `dropCR`: the pieces of the text that end at
a newline, and the unterminated rest when it is not empty. -/
def rawLines : Str → List Str
  | [] => []
  | c :: cs =>
    if c = '\n' then [] :: rawLines cs
    else match rawLines cs with
      | [] => [[c]]
      | l :: ls => (c :: l) :: ls

/-- `dropCR` of `bufio.ScanLines`: one trailing carriage return is removed. -/
def dropCR (s : Str) : Str :=
  if s.getLast? = some '\r' then s.dropLast else s

/-- The scanner of `parseMarkdown` on the content of the catalog file: the lines it
delivers, none when `scanner.Err()` is `bufio.ErrTooLong`.  A raw line must fit the buffer
together with its newline, so the scanner fails when a raw line has `maxScanTokenSize`
bytes or more.  Faults of the file system are outside the embedding. -/
def scanLines (text : Str) : Option (List Str) :=
  if (rawLines text).all (fun l => decide (utf8Length l < maxScanTokenSize)) then
    some ((rawLines text).map dropCR)
  else none

/-- Source `parseMarkdown`, on the content of the catalog file: none for the error
return.  The loop runs over the lines as they are scanned, and its records are dropped when
the scanner ends in an error. -/
def parseMarkdown (tbl : Char → Char) (text : Str) : Option (List Plugin) :=
  match scanLines text with
  | none => none
  | some lines => some (parseScanned tbl lines)

/-! ## Enrichment -/

/-- Source `cleanRepoPath`. -/
def cleanRepoPath (repoURL : Str) : Str :=
  let path := stringsTrimPrefix repoURL githubPrefix
  let path := stringsTrimSuffix path "/".toList
  let path :=
    match stringsIndex path "/tree/".toList with
    | some idx => path.take idx
    | none => path
  let path :=
    match stringsIndex path "/blob/".toList with
    | some idx => path.take idx
    | none => path
  path

/-- Source `detectInstallType`: the install type and the package. -/
def detectInstallType (tbl : Char → Char) (language repoPath : Str) : Str × Str :=
  let lowerLang := stringsToLower tbl language
  let packageName : Str :=
    match stringsSplit '/' repoPath with
    | _ :: p1 :: _ => p1
    | _ => []
  if lowerLang = "python".toList then ("pip".toList, packageName)
  else if lowerLang = "typescript".toList ∨ lowerLang = "javascript".toList then
    ("npm".toList, repoPath)
  else if lowerLang = "go".toList then
    ("go".toList, "github.com/".toList ++ repoPath ++ "@latest".toList)
  else ("manual".toList, [])

/-- The body of the loop of `enrichPlugins` for one record, given the outcome of
`fetchGitHubData` for its path (`none` when the fetch returns an error). -/
def enrichOne (tbl : Char → Char) (outcome : Option GitHubRepo) (p : Plugin) : Plugin :=
  let repoPath := cleanRepoPath p.Repository
  match outcome with
  | none => { p with InstallType := "manual".toList, Package := [] }
  | some ghData =>
    let p1 : Plugin :=
      { p with
        Stars := ghData.StargazersCount
        Language := ghData.Language
        License := (match ghData.License with
          | some spdx => spdx
          | none => p.License)
        UpdatedAt := ghData.PushedAt }
    let p2 : Plugin :=
      { p1 with
        InstallType := (detectInstallType tbl ghData.Language repoPath).1
        Package := (detectInstallType tbl ghData.Language repoPath).2 }
    if stringsContains repoPath "modelcontextprotocol/servers".toList then
      { p2 with
        InstallType := "manual".toList
        Package := if p2.Package = [] then "modelcontextprotocol/servers".toList else p2.Package }
    else p2

/-- The loop of `enrichPlugins` from index `i` on.  The metadata source is the oracle
`fetch`: the outcome of the call made for the record at index `i`, asked for a path. -/
def enrichFrom (tbl : Char → Char) (fetch : Nat → Str → Option GitHubRepo) :
    Nat → List Plugin → List Plugin
  | _, [] => []
  | i, p :: ps =>
    enrichOne tbl (fetch i (cleanRepoPath p.Repository)) p :: enrichFrom tbl fetch (i + 1) ps

/-- Source `enrichPlugins`: the slice after the in-place update. -/
def enrichPlugins (tbl : Char → Char) (fetch : Nat → Str → Option GitHubRepo)
    (plugins : List Plugin) : List Plugin :=
  enrichFrom tbl fetch 0 plugins

/-! ## Overrides and merge -/

/-- Source `loadCustomPlugins`, on the records decoded from the override document: an empty
`ID` and an empty `Author` are filled in. -/
def loadCustomPlugins (tbl : Char → Char) (decoded : List Plugin) : List Plugin :=
  decoded.map fun p =>
    let p1 : Plugin := if p.ID = [] then { p with ID := generateID tbl p.Name p.Repository } else p
    if p1.Author = [] then { p1 with Author := extractAuthor p1.Repository } else p1

/-- The Go map assignment `m[k] = v`, on a map kept as a list of entries with distinct keys. -/
def mapSet (m : List (Str × Plugin)) (k : Str) (v : Plugin) : List (Str × Plugin) :=
  match m with
  | [] => [(k, v)]
  | (k1, v1) :: rest => if k1 = k then (k, v) :: rest else (k1, v1) :: mapSet rest k v

/-- The `pluginMap` that `mergePlugins` builds: the extracted records are assigned first,
then the override records. -/
def pluginMap (awesomePlugins customPlugins : List Plugin) : List (Str × Plugin) :=
  customPlugins.foldl (fun m p => mapSet m p.Repository p)
    (awesomePlugins.foldl (fun m p => mapSet m p.Repository p) [])

/-- Source `mergePlugins`.  Go ranges over a map in an order it does not specify: `iter`
is the order in which the runtime visits the entries. -/
def mergePlugins (iter : List (Str × Plugin) → List (Str × Plugin))
    (awesomePlugins customPlugins : List Plugin) : List Plugin :=
  (iter (pluginMap awesomePlugins customPlugins)).map Prod.snd

/-- What the Go runtime guarantees of a `range` over a map: every entry is visited once. -/
def IsMapIteration (iter : List (Str × Plugin) → List (Str × Plugin)) : Prop :=
  ∀ m, (iter m).Perm m

/-! ## Ranking -/

/-- Go `<` on strings: lexicographic order of the runes. -/
def stringLess : Str → Str → Bool
  | [], [] => false
  | [], _ :: _ => true
  | _ :: _, [] => false
  | a :: as, b :: bs =>
    if a.toNat < b.toNat then true
    else if b.toNat < a.toNat then false
    else stringLess as bs

/-- The comparator handed to `sort.Slice` in `generateJSONFile`. -/
def pluginLess (a b : Plugin) : Bool :=
  if a.Official != b.Official then a.Official
  else if a.Stars != b.Stars then decide (a.Stars > b.Stars)
  else stringLess a.Name b.Name

/-- One pass of the inner loop of Go's insertion sort: `x` moves down the sorted part, kept
last element first, while it is less than its neighbour. -/
def insertDown {α : Type} (less : α → α → Bool) (x : α) : List α → List α
  | [] => [x]
  | y :: ys => if less x y then y :: insertDown less x ys else x :: y :: ys

/-- Go `insertionSortLessFunc`, the algorithm `sort.Slice` runs on slices of at most 12
elements. -/
def insertionSortLessFunc {α : Type} (less : α → α → Bool) (xs : List α) : List α :=
  (xs.foldl (fun sorted x => insertDown less x sorted) []).reverse

/-- The contract of `sort.Slice` for a comparator that is a strict weak ordering: the slice
is permuted so that no element is less than an element placed before it. -/
def IsSliceSort (srt : (Plugin → Plugin → Bool) → List Plugin → List Plugin) : Prop :=
  ∀ less : Plugin → Plugin → Bool,
    (∀ a, less a a = false) →
    (∀ a b c, less a b = true → less b c = true → less a c = true) →
    (∀ a b c, less a b = false → less b c = false → less a c = false) →
    ∀ xs, (srt less xs).Perm xs ∧ (srt less xs).Pairwise (fun a b => less b a = false)

/-- Source `generateJSONFile`: the order in which the records are emitted, `srt` being the
library's `sort.Slice`. -/
def generateJSONFile (srt : (Plugin → Plugin → Bool) → List Plugin → List Plugin)
    (plugins : List Plugin) : List Plugin :=
  srt pluginLess plugins

/-! ## Notions used in the statements -/

/-- The map invariant: distinct keys, and every record is stored under its repository. -/
def MapInv (m : List (Str × Plugin)) : Prop :=
  (m.map Prod.fst).Nodup ∧ ∀ e ∈ m, e.2.Repository = e.1

/-- An extracted record and an override record for the same repository. -/
def sampleExtracted : Plugin :=
  { blankPlugin with
    ID := "foo".toList, Name := "Foo".toList, Repository := "https://github.com/o/foo".toList, Stars := 3 }

/-- The override record for the repository of `sampleExtracted`. -/
def sampleOverride : Plugin :=
  { blankPlugin with
    Name := "Foo override".toList, Repository := "https://github.com/o/foo".toList,
    Verified := true }

/-- The first record of the ranking example: official, 5 stars. -/
def rankedFirst : Plugin :=
  { blankPlugin with Name := "b".toList, Repository := "r1".toList, Official := true, Stars := 5 }

/-- The second record of the ranking example: not official, 100 stars. -/
def rankedSecond : Plugin :=
  { blankPlugin with Name := "a".toList, Repository := "r2".toList, Official := false, Stars := 100 }

/-- The third record of the ranking example: official, 1 star. -/
def rankedThird : Plugin :=
  { blankPlugin with Name := "a".toList, Repository := "r3".toList, Official := true, Stars := 1 }

/-- Two records that agree on official flag, stars and name and differ in the repository. -/
def tiedFirst : Plugin :=
  { blankPlugin with Name := "GitHub".toList, Repository := "https://github.com/a/github".toList }

/-- The second record of the tie: as `tiedFirst`, from another repository. -/
def tiedSecond : Plugin :=
  { blankPlugin with Name := "GitHub".toList, Repository := "https://github.com/b/github".toList }

/-! ## The extraction contract, as the specification words it -/

/-- The list-item pattern, read as a grammar: optional white space, a dash, optional white
space, `[label]` with a non-empty label free of `]`, `(target)` with a non-empty target free
of `)`, then on the same line a later dash, optional white space and a non-empty trailing
text `desc`. -/
def IsListItemMatch (line label target desc : Str) : Prop :=
  ∃ ws1 ws2 mid ws3 rest : Str,
    line = ws1 ++ ('-' :: (ws2 ++ ('[' :: (label ++ (']' :: '(' :: (target ++
      (')' :: (mid ++ ('-' :: (ws3 ++ (desc ++ rest))))))))))) ∧
    (∀ c ∈ ws1, isRegexSpace c = true) ∧ (∀ c ∈ ws2, isRegexSpace c = true) ∧
    label ≠ [] ∧ ']' ∉ label ∧ target ≠ [] ∧ ')' ∉ target ∧
    '\n' ∉ mid ∧ (∀ c ∈ ws3, isRegexSpace c = true) ∧ desc ≠ [] ∧ '\n' ∉ desc

/-- The item a line contributes: none for a heading line, a line that does not match
the list-item pattern, or a target outside the hosting domain; otherwise the trimmed label,
target and trailing text. -/
def acceptedItem (line : Str) : Option (Str × Str × Str) :=
  if stringsHasPrefix line "### ".toList then none
  else
    match linkRegex line with
    | none => none
    | some (label, target, desc) =>
      if stringsHasPrefix (stringsTrimSpace target) githubPrefix then
        some (stringsTrimSpace label, stringsTrimSpace target, stringsTrimSpace desc)
      else none

/-- A catalogue line that is accepted. -/
def sampleLine : Str := "- [Foo Bar](https://github.com/acme/foo) - A thing".toList

/-- The nine canonical category tags. -/
def canonicalTags : List Str :=
  [ "productivity".toList, "development".toList, "ai".toList, "data".toList,
    "finance".toList, "communication".toList, "security".toList, "utility".toList,
    "integration".toList ]

/-- The category a heading line announces when its anchor identifier is a key of
`categoryMap`; none for a line that is not a heading, has no anchor, or has an anchor
outside the map. -/
def recognizedHeading (line : Str) : Option Str :=
  if stringsHasPrefix line "### ".toList then
    match categoryRegex line with
    | some anchorName => categoryMap.lookup anchorName
    | none => none
  else none

/-- The category in force after the lines `before`, starting from `start`: that of the
nearest recognized heading among them, `start` when there is none. -/
def categoryFrom (start : Str) (before : List Str) : Str :=
  ((before.filterMap recognizedHeading).getLast?).getD start

/-- The category in force after the lines `before` of a catalog: `utility` when no
recognized heading precedes. -/
def categoryAfter (before : List Str) : Str :=
  categoryFrom "utility".toList before

/-- The positions, counted from `k`, of the lines that contribute an item. -/
def acceptedFrom : Nat → List Str → List Nat
  | _, [] => []
  | k, line :: rest =>
    if (acceptedItem line).isSome then k :: acceptedFrom (k + 1) rest
    else acceptedFrom (k + 1) rest

/-- The positions of the accepted lines of a catalog. -/
def acceptedIndices (lines : List Str) : List Nat :=
  acceptedFrom 0 lines

/-- A recognized heading. -/
def sampleHeading : Str := "### <a name=\"databases\"></a>Databases".toList

/-- A heading whose anchor is not a key of `categoryMap`. -/
def sampleUnknownHeading : Str := "### <a name=\"other-tools\"></a>Other".toList

/-- An override record as decoded from the override document, with enrichment fields set. -/
def starredOverride : Plugin :=
  { blankPlugin with
    ID := "local-tool".toList, Name := "Local Tool".toList, Repository := "https://github.com/acme/local-tool".toList,
    Stars := 7, Language := "Go".toList, License := "MIT".toList, UpdatedAt := 42,
    InstallType := "go".toList, Package := "github.com/acme/local-tool@latest".toList }

/-- A record of the designated monorepo, listed by a sub-directory URL. -/
def monorepoPlugin : Plugin :=
  { blankPlugin with
    Name := "Fetch".toList
    Repository := "https://github.com/modelcontextprotocol/servers/tree/main/src/fetch".toList }

/-- A record of another repository whose path contains the monorepo identifier. -/
def archivedPlugin : Plugin :=
  { blankPlugin with
    Name := "Archived".toList
    Repository := "https://github.com/modelcontextprotocol/servers-archived".toList }

/-- A successful metadata answer for a Python repository. -/
def pythonRepo : GitHubRepo :=
  { StargazersCount := 12, Language := "Python".toList, License := some "MIT".toList,
    PushedAt := 99 }

/-- A catalogue line of the organization `anthropics`. -/
def anthropicsLine : Str := "- [Claude Tool](https://github.com/anthropics/tool) - A tool".toList

/-- A catalogue line whose link label is a single blank. -/
def blankLabelLine : Str := "- [ ](https://github.com/acme/foo) - A thing".toList

/-! ## The run of `main` -/

/-- The record sequence `main` hands to the emitter once the catalog is scanned into
`lines` and the override file, if any, is decoded: enrichment, merge with the enriched
override records, ranking.  The two oracles answer the fetches made for the catalog records
and for the override records. -/
def mainSequence (tbl : Char → Char) (fetchCatalog fetchCustom : Nat → Str → Option GitHubRepo)
    (iter : List (Str × Plugin) → List (Str × Plugin))
    (srt : (Plugin → Plugin → Bool) → List Plugin → List Plugin)
    (lines : List Str) (custom : Option (List Plugin)) : List Plugin :=
  let plugins := enrichPlugins tbl fetchCatalog (parseScanned tbl lines)
  let plugins :=
    match custom with
    | none => plugins
    | some decoded =>
      mergePlugins iter plugins (enrichPlugins tbl fetchCustom (loadCustomPlugins tbl decoded))
  generateJSONFile srt plugins

/-- What the third command-line argument gives `main`: no argument or an empty one, a file
that `loadCustomPlugins` cannot read or decode, or the decoded records. -/
inductive CustomPluginsFile where
  | absent
  | unreadable
  | decoded (records : List Plugin)

/-- Source `main`, on the content of the catalog file: the record sequence handed to the
emitter, none when the run exits before emitting (the catalog cannot be parsed, or the
override file cannot be loaded).  Writing the output file is outside the embedding. -/
def main (tbl : Char → Char) (fetchCatalog fetchCustom : Nat → Str → Option GitHubRepo)
    (iter : List (Str × Plugin) → List (Str × Plugin))
    (srt : (Plugin → Plugin → Bool) → List Plugin → List Plugin)
    (text : Str) (custom : CustomPluginsFile) : Option (List Plugin) :=
  match parseMarkdown tbl text with
  | none => none
  | some parsed =>
    match custom with
    | CustomPluginsFile.absent =>
      some (generateJSONFile srt (enrichPlugins tbl fetchCatalog parsed))
    | CustomPluginsFile.unreadable => none
    | CustomPluginsFile.decoded records =>
      some (generateJSONFile srt
        (mergePlugins iter (enrichPlugins tbl fetchCatalog parsed)
          (enrichPlugins tbl fetchCustom (loadCustomPlugins tbl records))))

/-- Two catalogue lines with the same label and different repositories. -/
def sameNameLines : List Str :=
  [ "- [GitHub](https://github.com/a/github) - First".toList,
    "- [GitHub](https://github.com/b/github) - Second".toList ]

/-! ## The normalization of repository URLs, as the specification words it -/

/-- The earliest position at which either `/tree/` or `/blob/` occurs in `p`, whichever
marker comes first, none when neither occurs. -/
def earliestMarker (p : Str) : Option Nat :=
  match stringsIndex p "/tree/".toList, stringsIndex p "/blob/".toList with
  | some t, some b => some (min t b)
  | some t, none => some t
  | none, some b => some b
  | none, none => none

/-- The path cut just before the earliest marker: the URL without a leading
`https://github.com/` and without one trailing `/`, truncated at `earliestMarker`. -/
def cutAtEarliestMarker (u : Str) : Str :=
  let p := stringsTrimSuffix (stringsTrimPrefix u githubPrefix) "/".toList
  match earliestMarker p with
  | some i => p.take i
  | none => p

/-- The URL of a file on a branch named `tree`. -/
def blobTreeURL : Str := "https://github.com/acme/foo/blob/tree/README.md".toList

/-! ## Catalog texts, as the specification words them -/

/-- The lines of a catalog text: the pieces that end at a newline and the unterminated rest
when it is not empty, each without the carriage return of a CRLF line end. -/
def catalogLines (text : Str) : List Str :=
  (rawLines text).map dropCR

/-- The list-item pattern on one line, read as a grammar: optional white space, a dash,
optional white space, `[label]` with a non-empty label free of `]`, `(target)` with a
non-empty target free of `)`, then the first later dash that is followed by at least one
character; `tail` is the trailing text after that dash. -/
def IsListItem (line label target tail : Str) : Prop :=
  ∃ ws1 ws2 mid : Str,
    line = ws1 ++ ('-' :: (ws2 ++ ('[' :: (label ++ (']' :: '(' :: (target ++
      (')' :: (mid ++ ('-' :: tail)))))))))  ∧
    (∀ c ∈ ws1, isRegexSpace c = true) ∧ (∀ c ∈ ws2, isRegexSpace c = true) ∧
    label ≠ [] ∧ ']' ∉ label ∧ target ≠ [] ∧ ')' ∉ target ∧ '-' ∉ mid ∧ tail ≠ []

/-- The text of a catalog with the given lines, each ended by a newline. -/
def catalogText : List Str → Str
  | [] => []
  | line :: rest => line ++ '\n' :: catalogText rest

/-- A catalogue line with two dashes after the link. -/
def twoDashLine : Str := "- [Foo Bar](https://github.com/acme/foo) - A thing - more".toList

/-- A line of `maxScanTokenSize` bytes. -/
def longLine : Str := List.replicate 65536 'x'

/-! # Theorems -/

/-! ## Trimming at both ends -/

theorem trim_eq_rdropWhile (p : Char → Bool) (s : Str) :
    ((s.dropWhile p).reverse.dropWhile p).reverse = (s.dropWhile p).rdropWhile p := rfl

theorem trim_isInfix (p : Char → Bool) (s : Str) :
    ((s.dropWhile p).reverse.dropWhile p).reverse <:+: s := by
  rw [trim_eq_rdropWhile]
  exact (List.rdropWhile_prefix p _).isInfix.trans (List.dropWhile_suffix p).isInfix

theorem trim_getLast?_not (p : Char → Bool) (s : Str) (c : Char)
    (h : (((s.dropWhile p).reverse.dropWhile p).reverse).getLast? = some c) : p c = false := by
  rw [List.getLast?_reverse] at h
  have h2 := List.head?_dropWhile_not p (s.dropWhile p).reverse
  rw [h] at h2
  simpa using h2

theorem trim_head?_not (p : Char → Bool) (s : Str) (c : Char)
    (h : (((s.dropWhile p).reverse.dropWhile p).reverse).head? = some c) : p c = false := by
  rw [trim_eq_rdropWhile] at h
  obtain ⟨t, ht⟩ := List.rdropWhile_prefix p (s.dropWhile p)
  cases hr : (s.dropWhile p).rdropWhile p with
  | nil => rw [hr] at h; simp at h
  | cons a r =>
    rw [hr] at h ht
    simp only [List.head?_cons, Option.some.injEq] at h
    have h2 := List.head?_dropWhile_not p s
    rw [← ht] at h2
    subst h
    simpa using h2

/-! ## `generateID` -/

theorem isLowerAlnum_iff (c : Char) :
    isLowerAlnum c = true ↔ ('a' ≤ c ∧ c ≤ 'z') ∨ ('0' ≤ c ∧ c ≤ '9') := by
  simp only [isLowerAlnum, Bool.or_eq_true, Bool.and_eq_true, decide_eq_true_eq, Char.le_def,
    Char.toNat, UInt32.le_def, Fin.le_def]
  rfl

theorem isLowerAlnum_dash : isLowerAlnum '-' = false := by decide

theorem replaceNonAlnumRuns_mem (inRun : Bool) (s : Str) :
    ∀ c ∈ replaceNonAlnumRuns inRun s, isLowerAlnum c = true ∨ c = '-' := by
  induction s generalizing inRun with
  | nil => simp [replaceNonAlnumRuns]
  | cons d ds ih =>
    intro c hc
    unfold replaceNonAlnumRuns at hc
    split at hc
    · rename_i hd
      rcases List.mem_cons.1 hc with rfl | h
      · exact Or.inl hd
      · exact ih _ c h
    · split at hc
      · exact ih _ c hc
      · rcases List.mem_cons.1 hc with rfl | h
        · exact Or.inr rfl
        · exact ih _ c h

theorem replaceNonAlnumRuns_chain (inRun : Bool) (s : Str) :
    (replaceNonAlnumRuns inRun s).Chain' (fun a b => ¬(a = '-' ∧ b = '-')) ∧
      (inRun = true → (replaceNonAlnumRuns inRun s).head? ≠ some '-') := by
  induction s generalizing inRun with
  | nil => simp [replaceNonAlnumRuns]
  | cons d ds ih =>
    unfold replaceNonAlnumRuns
    split
    · rename_i hd
      have hne : d ≠ '-' := by
        rintro rfl
        rw [isLowerAlnum_dash] at hd
        exact Bool.noConfusion hd
      refine ⟨?_, fun _ => by simpa using hne⟩
      rw [List.chain'_cons']
      exact ⟨fun y _ hy => hne hy.1, (ih false).1⟩
    · split
      · rename_i hrun
        exact ⟨(ih true).1, fun _ => (ih true).2 rfl⟩
      · rename_i hrun
        refine ⟨?_, fun h => absurd h hrun⟩
        rw [List.chain'_cons']
        refine ⟨fun y hy hyy => ?_, (ih true).1⟩
        have h2 := (ih true).2 rfl
        rw [hyy.2] at hy
        exact h2 (by simpa using hy)

/-- C1: for every name (and every repo argument, which is ignored), `generateID name repo`
contains only the characters a-z, 0-9 and `-`, does not begin or end with `-`, and never
contains two consecutive `-`. -/
theorem generateID_slug (tbl : Char → Char) (name repo : Str) :
    (∀ c ∈ generateID tbl name repo,
        ('a' ≤ c ∧ c ≤ 'z') ∨ ('0' ≤ c ∧ c ≤ '9') ∨ c = '-') ∧
      (generateID tbl name repo).head? ≠ some '-' ∧
      (generateID tbl name repo).getLast? ≠ some '-' ∧
      ¬ (['-', '-'] <:+: generateID tbl name repo) ∧
      generateID tbl name repo = generateID tbl name [] := by
  have hinf : generateID tbl name repo <:+: replaceNonAlnumRuns false (stringsToLower tbl name) :=
    trim_isInfix _ _
  refine ⟨fun c hc => ?_, fun h => ?_, fun h => ?_, fun h => ?_, rfl⟩
  · rcases replaceNonAlnumRuns_mem _ _ c (hinf.subset hc) with h | h
    · rcases (isLowerAlnum_iff c).1 h with h | h
      · exact Or.inl h
      · exact Or.inr (Or.inl h)
    · exact Or.inr (Or.inr h)
  · have := trim_head?_not _ _ _ h
    simp at this
  · have := trim_getLast?_not _ _ _ h
    simp at this
  · have hc1 := List.Chain'.infix (replaceNonAlnumRuns_chain false (stringsToLower tbl name)).1 hinf
    have hc := List.Chain'.infix hc1 h
    simp at hc

/-! ## `mergePlugins` -/

theorem lookup_mapSet (m : List (Str × Plugin)) (k r : Str) (v : Plugin) :
    (mapSet m k v).lookup r = if r = k then some v else m.lookup r := by
  induction m with
  | nil =>
    by_cases h : r = k
    · simp [mapSet, List.lookup, h]
    · have hb : (r == k) = false := beq_eq_false_iff_ne.2 h
      simp [mapSet, List.lookup, h, hb]
  | cons e rest ih =>
    obtain ⟨k1, v1⟩ := e
    simp only [mapSet]
    by_cases h1 : k1 = k
    · subst h1
      by_cases h : r = k1
      · simp [List.lookup, h]
      · have hb : (r == k1) = false := beq_eq_false_iff_ne.2 h
        simp [List.lookup, h, hb]
    · by_cases h : r = k
      · subst h
        have hb : (r == k1) = false := beq_eq_false_iff_ne.2 (fun h => h1 h.symm)
        simp [List.lookup, h1, hb, ih]
      · by_cases h2 : r = k1
        · simp [List.lookup, h1, h2, h]
        · have hb : (r == k1) = false := beq_eq_false_iff_ne.2 h2
          simp [List.lookup, h1, hb, h, ih]

theorem mem_keys_mapSet (m : List (Str × Plugin)) (k r : Str) (v : Plugin) :
    r ∈ (mapSet m k v).map Prod.fst ↔ r = k ∨ r ∈ m.map Prod.fst := by
  induction m with
  | nil => simp [mapSet]
  | cons e rest ih =>
    obtain ⟨k1, v1⟩ := e
    unfold mapSet
    by_cases h1 : k1 = k
    · subst h1
      simp
    · simp only [h1, if_false, List.map_cons, List.mem_cons, ih]
      tauto

theorem nodup_keys_mapSet (m : List (Str × Plugin)) (k : Str) (v : Plugin)
    (h : (m.map Prod.fst).Nodup) : ((mapSet m k v).map Prod.fst).Nodup := by
  induction m with
  | nil => simp [mapSet]
  | cons e rest ih =>
    obtain ⟨k1, v1⟩ := e
    unfold mapSet
    simp only [List.map_cons, List.nodup_cons] at h
    by_cases h1 : k1 = k
    · subst h1
      simpa using h
    · simp only [h1, if_false, List.map_cons, List.nodup_cons]
      refine ⟨fun hm => ?_, ih h.2⟩
      rcases (mem_keys_mapSet rest k k1 v).1 hm with h2 | h2
      · exact h1 h2
      · exact h.1 h2

theorem keyed_mapSet (m : List (Str × Plugin)) (k : Str) (v : Plugin)
    (h : ∀ e ∈ m, e.2.Repository = e.1) (hv : v.Repository = k) :
    ∀ e ∈ mapSet m k v, e.2.Repository = e.1 := by
  induction m with
  | nil =>
    intro e he
    simp only [mapSet, List.mem_singleton] at he
    subst he
    exact hv
  | cons e1 rest ih =>
    obtain ⟨k1, v1⟩ := e1
    intro e he
    unfold mapSet at he
    by_cases h1 : k1 = k
    · simp only [h1, if_true, List.mem_cons] at he
      rcases he with rfl | he
      · exact hv
      · exact h e (List.mem_cons_of_mem _ he)
    · simp only [h1, if_false, List.mem_cons] at he
      rcases he with rfl | he
      · exact h _ (List.mem_cons_self _ _)
      · exact ih (fun e he => h e (List.mem_cons_of_mem _ he)) e he

theorem mapInv_foldl (ps : List Plugin) (m : List (Str × Plugin)) (h : MapInv m) :
    MapInv (ps.foldl (fun m p => mapSet m p.Repository p) m) := by
  induction ps generalizing m with
  | nil => exact h
  | cons p ps ih =>
    exact ih _ ⟨nodup_keys_mapSet m _ p h.1, keyed_mapSet m _ p h.2 rfl⟩

theorem mapInv_pluginMap (E C : List Plugin) : MapInv (pluginMap E C) :=
  mapInv_foldl C _ (mapInv_foldl E [] ⟨by simp, by simp⟩)

theorem lookup_foldl_mapSet (r : Str) (ps : List Plugin) (m : List (Str × Plugin)) :
    (ps.foldl (fun m p => mapSet m p.Repository p) m).lookup r =
      ((ps.filter (fun p => decide (p.Repository = r))).getLast?).or (m.lookup r) := by
  induction ps generalizing m with
  | nil => simp
  | cons p ps ih =>
    rw [List.foldl_cons, ih, lookup_mapSet]
    by_cases h : p.Repository = r
    · have h2 : r = p.Repository := h.symm
      rw [List.filter_cons_of_pos (by simpa using h), List.getLast?_cons, if_pos h2]
      cases (ps.filter (fun p => decide (p.Repository = r))).getLast? <;> simp
    · have h2 : ¬ r = p.Repository := fun h3 => h h3.symm
      rw [List.filter_cons_of_neg (by simpa using h), if_neg h2]

theorem lookup_pluginMap (r : Str) (E C : List Plugin) :
    (pluginMap E C).lookup r =
      (((E ++ C).filter (fun p => decide (p.Repository = r))).getLast?) := by
  unfold pluginMap
  rw [lookup_foldl_mapSet, lookup_foldl_mapSet, List.filter_append, List.getLast?_append]
  simp

theorem mem_keys_foldl (r : Str) (ps : List Plugin) (m : List (Str × Plugin)) :
    r ∈ (ps.foldl (fun m p => mapSet m p.Repository p) m).map Prod.fst ↔
      r ∈ ps.map (fun p => p.Repository) ∨ r ∈ m.map Prod.fst := by
  induction ps generalizing m with
  | nil => simp
  | cons p ps ih =>
    rw [List.foldl_cons, ih, mem_keys_mapSet]
    simp only [List.map_cons, List.mem_cons]
    tauto

theorem filter_values_eq_lookup (r : Str) (m : List (Str × Plugin)) (h : MapInv m) :
    (m.map Prod.snd).filter (fun p => decide (p.Repository = r)) = (m.lookup r).toList := by
  induction m with
  | nil => simp
  | cons e rest ih =>
    obtain ⟨k1, v1⟩ := e
    have hk : v1.Repository = k1 := h.2 (k1, v1) (List.mem_cons_self _ _)
    have hnd := h.1
    simp only [List.map_cons, List.nodup_cons] at hnd
    have hrest : MapInv rest := ⟨hnd.2, fun e he => h.2 e (List.mem_cons_of_mem _ he)⟩
    by_cases hr : r = k1
    · subst hr
      have hnone : (rest.map Prod.snd).filter (fun p => decide (p.Repository = r)) = [] := by
        rw [List.filter_eq_nil_iff]
        intro p hp
        obtain ⟨e, he, rfl⟩ := List.mem_map.1 hp
        have := hrest.2 e he
        simp only [decide_eq_true_eq]
        intro h3
        exact hnd.1 (List.mem_map.2 ⟨e, he, by rw [← this, h3]⟩)
      simp [List.filter_cons, hk, hnone, List.lookup]
    · have h4 : ¬ v1.Repository = r := fun h5 => hr (by rw [← h5, hk])
      have h6 : (r == k1) = false := by simpa using hr
      simp [List.filter_cons, h4, List.lookup, h6, ih hrest]

theorem filter_mergePlugins (iter : List (Str × Plugin) → List (Str × Plugin))
    (hiter : IsMapIteration iter) (E C : List Plugin) (r : Str) :
    (mergePlugins iter E C).filter (fun p => decide (p.Repository = r)) =
      (((E ++ C).filter (fun p => decide (p.Repository = r))).getLast?).toList := by
  have hp : ((mergePlugins iter E C).filter (fun p => decide (p.Repository = r))).Perm
      (((pluginMap E C).map Prod.snd).filter (fun p => decide (p.Repository = r))) :=
    ((hiter (pluginMap E C)).map Prod.snd).filter _
  rw [filter_values_eq_lookup r _ (mapInv_pluginMap E C), lookup_pluginMap] at hp
  cases hx : ((E ++ C).filter (fun p => decide (p.Repository = r))).getLast? with
  | none =>
    rw [hx] at hp
    simpa using hp
  | some x =>
    rw [hx] at hp
    simpa using hp

theorem keys_pluginMap (E C : List Plugin) :
    ((pluginMap E C).map Prod.snd).map (fun p => p.Repository) = (pluginMap E C).map Prod.fst := by
  rw [List.map_map]
  exact List.map_congr_left (fun e he => (mapInv_pluginMap E C).2 e he)

theorem mem_keys_pluginMap (r : Str) (E C : List Plugin) :
    r ∈ (pluginMap E C).map Prod.fst ↔ r ∈ (E ++ C).map (fun p => p.Repository) := by
  unfold pluginMap
  rw [mem_keys_foldl, mem_keys_foldl, List.map_append, List.mem_append]
  simp only [List.map_nil, List.not_mem_nil, or_false]
  tauto

/-- C2: for every repository value `r` that occurs in the override list `C`, the merge
contains exactly one record whose repository is `r`, and it is the last record of `C` with
that repository, whatever `E` holds; for a repository that occurs only in `E`, the single
result record is the last record of `E` with that repository. -/
theorem mergePlugins_override_wins (iter : List (Str × Plugin) → List (Str × Plugin))
    (hiter : IsMapIteration iter) (E C : List Plugin) (r : Str) :
    ((∃ p ∈ C, p.Repository = r) →
      ∃ x, (C.filter (fun p => decide (p.Repository = r))).getLast? = some x ∧
        (mergePlugins iter E C).filter (fun p => decide (p.Repository = r)) = [x]) ∧
    ((∀ p ∈ C, p.Repository ≠ r) → (∃ p ∈ E, p.Repository = r) →
      ∃ x, (E.filter (fun p => decide (p.Repository = r))).getLast? = some x ∧
        (mergePlugins iter E C).filter (fun p => decide (p.Repository = r)) = [x]) := by
  have hsome : ∀ l : List Plugin, (∃ p ∈ l, p.Repository = r) →
      ∃ x, (l.filter (fun p => decide (p.Repository = r))).getLast? = some x := by
    intro l ⟨p, hp, hr⟩
    have hne : l.filter (fun p => decide (p.Repository = r)) ≠ [] := by
      intro h
      have hmem : p ∈ l.filter (fun p => decide (p.Repository = r)) :=
        List.mem_filter.2 ⟨hp, by simpa using hr⟩
      rw [h] at hmem
      exact List.not_mem_nil _ hmem
    exact ⟨_, List.getLast?_eq_getLast _ hne⟩
  constructor
  · intro hC
    obtain ⟨x, hx⟩ := hsome C hC
    refine ⟨x, hx, ?_⟩
    rw [filter_mergePlugins iter hiter, List.filter_append, List.getLast?_append, hx]
    rfl
  · intro hC hE
    obtain ⟨x, hx⟩ := hsome E hE
    refine ⟨x, hx, ?_⟩
    have hnil : C.filter (fun p => decide (p.Repository = r)) = [] := by
      rw [List.filter_eq_nil_iff]
      intro p hp
      simpa using hC p hp
    rw [filter_mergePlugins iter hiter, List.filter_append, hnil, List.append_nil, hx]
    rfl

theorem mergePlugins_override_wins_witness :
    IsMapIteration id ∧
      (∃ p ∈ [sampleOverride], p.Repository = "https://github.com/o/foo".toList) ∧
      (mergePlugins id [sampleExtracted] [sampleOverride]).filter
        (fun p => decide (p.Repository = "https://github.com/o/foo".toList)) =
        [sampleOverride] := by
  have hi : IsMapIteration id := fun m => List.Perm.refl m
  have hc : ∃ p ∈ [sampleOverride], p.Repository = "https://github.com/o/foo".toList :=
    ⟨sampleOverride, List.mem_singleton.2 rfl, rfl⟩
  obtain ⟨x, hx, hm⟩ :=
    (mergePlugins_override_wins id hi [sampleExtracted] [sampleOverride]
      "https://github.com/o/foo".toList).1 hc
  refine ⟨hi, hc, ?_⟩
  have hx2 : ([sampleOverride].filter
      (fun p => decide (p.Repository = "https://github.com/o/foo".toList))).getLast? =
      some sampleOverride := by decide
  rw [hx2] at hx
  rw [hm, ← Option.some.inj hx]

/-- C3: the records of a merge have pairwise distinct repositories, and their number is the
number of distinct repository values occurring in `E ++ C`. -/
theorem mergePlugins_distinct_repositories (iter : List (Str × Plugin) → List (Str × Plugin))
    (hiter : IsMapIteration iter) (E C : List Plugin) :
    ((mergePlugins iter E C).map (fun p => p.Repository)).Nodup ∧
      (mergePlugins iter E C).length =
        ((E ++ C).map (fun p => p.Repository)).toFinset.card := by
  have hp : (mergePlugins iter E C).Perm ((pluginMap E C).map Prod.snd) :=
    (hiter (pluginMap E C)).map Prod.snd
  have hnd : ((pluginMap E C).map Prod.fst).Nodup := (mapInv_pluginMap E C).1
  constructor
  · rw [(hp.map (fun p => p.Repository)).nodup_iff, keys_pluginMap]
    exact hnd
  · have hset : ((E ++ C).map (fun p => p.Repository)).toFinset =
        ((pluginMap E C).map Prod.fst).toFinset := by
      ext r
      rw [List.mem_toFinset, List.mem_toFinset, mem_keys_pluginMap]
    rw [hp.length_eq, hset, List.toFinset_card_of_nodup hnd]
    simp

theorem mergePlugins_distinct_repositories_witness :
    IsMapIteration List.reverse ∧
      ((mergePlugins List.reverse [sampleExtracted, blankPlugin] [sampleOverride]).map
        (fun p => p.Repository)).Nodup ∧
      (mergePlugins List.reverse [sampleExtracted, blankPlugin] [sampleOverride]).length =
        (([sampleExtracted, blankPlugin] ++ [sampleOverride]).map
          (fun p => p.Repository)).toFinset.card :=
  ⟨fun m => List.reverse_perm m,
    mergePlugins_distinct_repositories List.reverse (fun m => List.reverse_perm m)
      [sampleExtracted, blankPlugin] [sampleOverride]⟩

/-! ## The ranking comparator -/

theorem stringLess_irrefl (a : Str) : stringLess a a = false := by
  induction a with
  | nil => rfl
  | cons c cs ih => simp [stringLess, ih]

theorem stringLess_trans (a b c : Str) (hab : stringLess a b = true)
    (hbc : stringLess b c = true) : stringLess a c = true := by
  induction a generalizing b c with
  | nil =>
    cases b with
    | nil => simp [stringLess] at hab
    | cons y ys =>
      cases c with
      | nil => simp [stringLess] at hbc
      | cons z zs => rfl
  | cons x xs ih =>
    cases b with
    | nil => simp [stringLess] at hab
    | cons y ys =>
      cases c with
      | nil => simp [stringLess] at hbc
      | cons z zs =>
        simp only [stringLess] at hab hbc ⊢
        by_cases h1 : x.toNat < y.toNat
        · by_cases h2 : y.toNat < z.toNat
          · have : x.toNat < z.toNat := by omega
            simp [this]
          · by_cases h3 : z.toNat < y.toNat
            · simp [h2, h3] at hbc
            · have : x.toNat < z.toNat := by omega
              simp [this]
        · by_cases h1b : y.toNat < x.toNat
          · simp [h1, h1b] at hab
          · simp only [h1, h1b, if_false] at hab
            by_cases h2 : y.toNat < z.toNat
            · have : x.toNat < z.toNat := by omega
              simp [this]
            · by_cases h3 : z.toNat < y.toNat
              · simp [h2, h3] at hbc
              · simp only [h2, h3, if_false] at hbc
                have h4 : ¬ x.toNat < z.toNat := by omega
                have h5 : ¬ z.toNat < x.toNat := by omega
                simp only [h4, h5, if_false]
                exact ih ys zs hab hbc

theorem char_eq_of_toNat_eq (x y : Char) (h : x.toNat = y.toNat) : x = y := by
  apply Char.ext
  apply UInt32.ext
  exact h

theorem stringLess_total (a b : Str) (hab : stringLess a b = false)
    (hba : stringLess b a = false) : a = b := by
  induction a generalizing b with
  | nil =>
    cases b with
    | nil => rfl
    | cons y ys => simp [stringLess] at hab
  | cons x xs ih =>
    cases b with
    | nil => simp [stringLess] at hba
    | cons y ys =>
      simp only [stringLess] at hab hba
      by_cases h1 : x.toNat < y.toNat
      · simp [h1] at hab
      · by_cases h2 : y.toNat < x.toNat
        · simp [h2] at hba
        · simp only [h1, h2, if_false] at hab hba
          have hxy : x = y := char_eq_of_toNat_eq x y (by omega)
          rw [hxy, ih ys hab hba]

theorem stringLess_negTrans (a b c : Str) (hab : stringLess a b = false)
    (hbc : stringLess b c = false) : stringLess a c = false := by
  cases hac : stringLess a c with
  | false => rfl
  | true =>
    cases hba : stringLess b a with
    | false =>
      have := stringLess_total a b hab hba
      subst this
      rw [hac] at hbc
      exact hbc
    | true =>
      have := stringLess_trans b a c hba hac
      rw [this] at hbc
      exact hbc

theorem pluginLess_eq_true_iff (a b : Plugin) :
    pluginLess a b = true ↔
      (a.Official = true ∧ b.Official = false) ∨
      (a.Official = b.Official ∧ b.Stars < a.Stars) ∨
      (a.Official = b.Official ∧ a.Stars = b.Stars ∧ stringLess a.Name b.Name = true) := by
  unfold pluginLess
  by_cases ho : a.Official = b.Official
  · by_cases hs : a.Stars = b.Stars
    · simp [ho, hs]
    · simp [ho, hs]
  · have : (a.Official = true ∧ b.Official = false) ↔ a.Official = true := by
      cases ha : a.Official <;> cases hb : b.Official <;> simp_all
    simp [ho, this]

theorem pluginLess_irrefl (a : Plugin) : pluginLess a a = false := by
  cases h : pluginLess a a with
  | false => rfl
  | true =>
    rw [pluginLess_eq_true_iff] at h
    rcases h with ⟨h1, h2⟩ | ⟨_, h2⟩ | ⟨_, _, h2⟩
    · rw [h1] at h2; exact Bool.noConfusion h2
    · omega
    · rw [stringLess_irrefl] at h2; exact Bool.noConfusion h2

theorem pluginLess_eq_false_iff (a b : Plugin) :
    pluginLess b a = false ↔
      (a.Official = true ∨ b.Official = false) ∧
      (a.Official = b.Official → b.Stars ≤ a.Stars) ∧
      (a.Official = b.Official → a.Stars = b.Stars → stringLess b.Name a.Name = false) := by
  rw [← Bool.not_eq_true, pluginLess_eq_true_iff]
  constructor
  · intro h
    refine ⟨?_, fun ho => ?_, fun ho hs => ?_⟩
    · cases ha : a.Official <;> cases hb : b.Official <;> simp_all
    · by_contra hlt
      exact h (Or.inr (Or.inl ⟨ho.symm, by omega⟩))
    · cases hl : stringLess b.Name a.Name with
      | false => rfl
      | true => exact absurd (Or.inr (Or.inr ⟨ho.symm, hs.symm, hl⟩)) h
  · rintro ⟨h1, h2, h3⟩ (⟨hb, ha⟩ | ⟨ho, hs⟩ | ⟨ho, hs, hl⟩)
    · rcases h1 with h1 | h1
      · rw [ha] at h1; exact Bool.noConfusion h1
      · rw [hb] at h1; exact Bool.noConfusion h1
    · have := h2 ho.symm
      omega
    · rw [h3 ho.symm hs.symm] at hl
      exact Bool.noConfusion hl

theorem pluginLess_negTrans (a b c : Plugin) (hab : pluginLess a b = false)
    (hbc : pluginLess b c = false) : pluginLess a c = false := by
  rw [pluginLess_eq_false_iff] at hab hbc ⊢
  obtain ⟨h1, h2, h3⟩ := hab
  obtain ⟨g1, g2, g3⟩ := hbc
  have hoff : c.Official = a.Official → b.Official = a.Official := by
    intro h
    cases ha : a.Official <;> cases hb : b.Official <;> cases hc : c.Official <;> simp_all
  refine ⟨?_, fun ho => ?_, fun ho hs => ?_⟩
  · cases ha : a.Official <;> cases hb : b.Official <;> cases hc : c.Official <;> simp_all
  · have hb := hoff ho
    have e1 := h2 hb
    have e2 := g2 (ho.trans hb.symm)
    omega
  · have hb := hoff ho
    have e1 := h2 hb
    have e2 := g2 (ho.trans hb.symm)
    have s1 : b.Stars = a.Stars := by omega
    have s2 : c.Stars = b.Stars := by omega
    exact stringLess_negTrans _ _ _ (h3 hb s1) (g3 (ho.trans hb.symm) s2)

theorem pluginLess_trans (a b c : Plugin) (hab : pluginLess a b = true)
    (hbc : pluginLess b c = true) : pluginLess a c = true := by
  rw [pluginLess_eq_true_iff] at hab hbc ⊢
  rcases hab with ⟨h1, h2⟩ | ⟨h1, h2⟩ | ⟨h1, h2, h3⟩ <;>
    rcases hbc with ⟨g1, g2⟩ | ⟨g1, g2⟩ | ⟨g1, g2, g3⟩
  · rw [h2] at g1; exact Bool.noConfusion g1
  · exact Or.inl ⟨h1, by rw [← g1, h2]⟩
  · exact Or.inl ⟨h1, by rw [← g1, h2]⟩
  · exact Or.inl ⟨by rw [h1, g1], g2⟩
  · exact Or.inr (Or.inl ⟨h1.trans g1, by omega⟩)
  · exact Or.inr (Or.inl ⟨h1.trans g1, by omega⟩)
  · exact Or.inl ⟨by rw [h1, g1], g2⟩
  · exact Or.inr (Or.inl ⟨h1.trans g1, by omega⟩)
  · exact Or.inr (Or.inr ⟨h1.trans g1, h2.trans g2, stringLess_trans _ _ _ h3 g3⟩)

/-! ## Sorting -/

theorem insertDown_perm {α : Type} (less : α → α → Bool) (x : α) (l : List α) :
    (insertDown less x l).Perm (x :: l) := by
  induction l with
  | nil => exact List.Perm.refl _
  | cons y ys ih =>
    unfold insertDown
    split
    · exact (List.Perm.cons y ih).trans (List.Perm.swap x y ys)
    · exact List.Perm.refl _

theorem foldl_insertDown_perm {α : Type} (less : α → α → Bool) (xs acc : List α) :
    (xs.foldl (fun sorted x => insertDown less x sorted) acc).Perm (xs ++ acc) := by
  induction xs generalizing acc with
  | nil => exact List.Perm.refl _
  | cons x xs ih =>
    rw [List.foldl_cons]
    refine (ih _).trans ?_
    refine (List.Perm.append_left xs (insertDown_perm less x acc)).trans ?_
    exact List.perm_middle

theorem insertionSortLessFunc_perm {α : Type} (less : α → α → Bool) (xs : List α) :
    (insertionSortLessFunc less xs).Perm xs := by
  unfold insertionSortLessFunc
  refine (List.reverse_perm _).trans ?_
  simpa using foldl_insertDown_perm less xs []

theorem insertDown_pairwise {α : Type} (less : α → α → Bool)
    (hirr : ∀ a, less a a = false)
    (htr : ∀ a b c, less a b = true → less b c = true → less a c = true)
    (hneg : ∀ a b c, less a b = false → less b c = false → less a c = false)
    (x : α) (l : List α) (h : l.Pairwise (fun a b => less a b = false)) :
    (insertDown less x l).Pairwise (fun a b => less a b = false) := by
  induction l with
  | nil => simp [insertDown]
  | cons y ys ih =>
    rw [List.pairwise_cons] at h
    unfold insertDown
    split
    · rename_i hxy
      rw [List.pairwise_cons]
      refine ⟨fun z hz => ?_, ih h.2⟩
      rcases List.mem_cons.1 ((insertDown_perm less x ys).subset hz) with rfl | hz
      · cases hyz : less y z with
        | false => rfl
        | true =>
          have := htr z y z hxy hyz
          rw [hirr] at this
          exact Bool.noConfusion this
      · exact h.1 z hz
    · rename_i hxy
      have hxy2 : less x y = false := by simpa using hxy
      rw [List.pairwise_cons]
      refine ⟨fun z hz => ?_, List.pairwise_cons.2 h⟩
      rcases List.mem_cons.1 hz with rfl | hz
      · exact hxy2
      · exact hneg x y z hxy2 (h.1 z hz)

theorem foldl_insertDown_pairwise {α : Type} (less : α → α → Bool)
    (hirr : ∀ a, less a a = false)
    (htr : ∀ a b c, less a b = true → less b c = true → less a c = true)
    (hneg : ∀ a b c, less a b = false → less b c = false → less a c = false)
    (xs acc : List α) (h : acc.Pairwise (fun a b => less a b = false)) :
    (xs.foldl (fun sorted x => insertDown less x sorted) acc).Pairwise
      (fun a b => less a b = false) := by
  induction xs generalizing acc with
  | nil => exact h
  | cons x xs ih => exact ih _ (insertDown_pairwise less hirr htr hneg x acc h)

theorem insertionSortLessFunc_isSliceSort : IsSliceSort insertionSortLessFunc := by
  intro less hirr htr hneg xs
  refine ⟨insertionSortLessFunc_perm less xs, ?_⟩
  unfold insertionSortLessFunc
  rw [List.pairwise_reverse]
  exact foldl_insertDown_pairwise less hirr htr hneg xs [] List.Pairwise.nil

theorem sorted_perm_unique (less : Plugin → Plugin → Bool) (l1 l2 : List Plugin)
    (hp : l1.Perm l2)
    (h1 : l1.Pairwise (fun a b => less b a = false))
    (h2 : l2.Pairwise (fun a b => less b a = false))
    (htot : ∀ x ∈ l2, ∀ y ∈ l2, x ≠ y → less x y = true ∨ less y x = true) : l1 = l2 := by
  induction l1 generalizing l2 with
  | nil => exact (List.nil_perm.1 hp).symm
  | cons a t1 ih =>
    cases l2 with
    | nil => exact absurd hp.length_eq (by simp)
    | cons b t2 =>
      rw [List.pairwise_cons] at h1 h2
      have hab : a = b := by
        by_contra hne
        have ha : a ∈ t2 := by
          rcases List.mem_cons.1 (hp.subset (List.mem_cons_self a t1)) with h | h
          · exact absurd h hne
          · exact h
        have hb : b ∈ t1 := by
          rcases List.mem_cons.1 (hp.symm.subset (List.mem_cons_self b t2)) with h | h
          · exact absurd h.symm hne
          · exact h
        have e1 := h1.1 b hb
        have e2 := h2.1 a ha
        rcases htot a (List.mem_cons_of_mem _ ha) b (List.mem_cons_self _ _) hne with h | h
        · rw [h] at e2; exact Bool.noConfusion e2
        · rw [h] at e1; exact Bool.noConfusion e1
      subst hab
      rw [ih t2 (List.Perm.cons_inv hp) h1.2 h2.2
        (fun x hx y hy => htot x (List.mem_cons_of_mem _ hx) y (List.mem_cons_of_mem _ hy))]

/-- C4: the order emitted by `generateJSONFile` is a permutation of the input in which, for
every record `a` placed before a record `b`: `a` is official or `b` is not; with equal
official flags `a` has at least the stars of `b`; with equal flags and stars the name of `a`
is at most the name of `b`.  Records (true, 5), (false, 100), (true, 1) are emitted in the
order (true, 5), (true, 1), (false, 100). -/
theorem generateJSONFile_ranked (srt : (Plugin → Plugin → Bool) → List Plugin → List Plugin)
    (hsrt : IsSliceSort srt) (plugins : List Plugin) :
    (generateJSONFile srt plugins).Perm plugins ∧
      (generateJSONFile srt plugins).Pairwise (fun a b =>
        (a.Official = true ∨ b.Official = false) ∧
        (a.Official = b.Official → b.Stars ≤ a.Stars) ∧
        (a.Official = b.Official → a.Stars = b.Stars →
          a.Name = b.Name ∨ stringLess a.Name b.Name = true)) ∧
      (∀ a b c : Plugin, a.Official = true → a.Stars = 5 → b.Official = false →
        b.Stars = 100 → c.Official = true → c.Stars = 1 →
        generateJSONFile srt [a, b, c] = [a, c, b]) := by
  have hc := hsrt pluginLess pluginLess_irrefl pluginLess_trans pluginLess_negTrans
  refine ⟨(hc plugins).1, ?_, ?_⟩
  · refine List.Pairwise.imp ?_ (hc plugins).2
    intro a b hba
    rw [pluginLess_eq_false_iff] at hba
    refine ⟨hba.1, hba.2.1, fun ho hs => ?_⟩
    have hl := hba.2.2 ho hs
    cases hl2 : stringLess a.Name b.Name with
    | true => exact Or.inr rfl
    | false => exact Or.inl (stringLess_total _ _ hl2 hl)
  · intro a b c ha1 ha2 hb1 hb2 hc1 hc2
    have hac : pluginLess a c = true :=
      (pluginLess_eq_true_iff a c).2 (Or.inr (Or.inl ⟨ha1.trans hc1.symm, by omega⟩))
    have hcb : pluginLess c b = true := (pluginLess_eq_true_iff c b).2 (Or.inl ⟨hc1, hb1⟩)
    have hab : pluginLess a b = true := (pluginLess_eq_true_iff a b).2 (Or.inl ⟨ha1, hb1⟩)
    have hca : pluginLess c a = false := by
      rw [pluginLess_eq_false_iff]
      exact ⟨Or.inl ha1, fun _ => by omega, fun _ h => by omega⟩
    have hbc : pluginLess b c = false := by
      rw [pluginLess_eq_false_iff]
      refine ⟨Or.inl hc1, fun h => ?_, fun h => ?_⟩
      · rw [hc1, hb1] at h; exact Bool.noConfusion h
      · rw [hc1, hb1] at h; exact Bool.noConfusion h
    have hba : pluginLess b a = false := by
      rw [pluginLess_eq_false_iff]
      refine ⟨Or.inl ha1, fun h => ?_, fun h => ?_⟩
      · rw [ha1, hb1] at h; exact Bool.noConfusion h
      · rw [ha1, hb1] at h; exact Bool.noConfusion h
    refine sorted_perm_unique pluginLess _ _
      ((hc [a, b, c]).1.trans (List.Perm.cons a (List.Perm.swap c b []))) (hc [a, b, c]).2 ?_ ?_
    · simp [hca, hbc, hba]
    · intro x hx y hy hne
      simp only [List.mem_cons, List.mem_singleton, List.not_mem_nil, or_false] at hx hy
      rcases hx with rfl | rfl | rfl <;> rcases hy with rfl | rfl | rfl <;>
        first
        | exact absurd rfl hne
        | exact Or.inl hac
        | exact Or.inl hcb
        | exact Or.inl hab
        | exact Or.inr hac
        | exact Or.inr hcb
        | exact Or.inr hab

theorem generateJSONFile_ranked_witness :
    IsSliceSort insertionSortLessFunc ∧
      generateJSONFile insertionSortLessFunc [rankedFirst, rankedSecond, rankedThird] =
        [rankedFirst, rankedThird, rankedSecond] :=
  ⟨insertionSortLessFunc_isSliceSort,
    (generateJSONFile_ranked insertionSortLessFunc insertionSortLessFunc_isSliceSort []).2.2
      rankedFirst rankedSecond rankedThird rfl rfl rfl rfl rfl rfl⟩

theorem pluginLess_asymm (a b : Plugin) (hab : pluginLess a b = true) :
    pluginLess b a = false := by
  cases hba : pluginLess b a with
  | false => rfl
  | true =>
    have := pluginLess_trans a b a hab hba
    rw [pluginLess_irrefl] at this
    exact Bool.noConfusion this

theorem pluginLess_total_on_keys (a b : Plugin)
    (hk : a.Official ≠ b.Official ∨ a.Stars ≠ b.Stars ∨ a.Name ≠ b.Name) :
    pluginLess a b = true ∨ pluginLess b a = true := by
  cases hab : pluginLess a b with
  | true => exact Or.inl rfl
  | false =>
    cases hba : pluginLess b a with
    | true => exact Or.inr rfl
    | false =>
      exfalso
      rw [pluginLess_eq_false_iff] at hab hba
      obtain ⟨h1, h2, h3⟩ := hab
      obtain ⟨g1, g2, g3⟩ := hba
      have ho : a.Official = b.Official := by
        cases ha : a.Official <;> cases hb : b.Official <;> simp_all
      have e1 := h2 ho.symm
      have e2 := g2 ho
      have hs : a.Stars = b.Stars := by omega
      rcases hk with hk | hk | hk
      · exact hk ho
      · exact hk hs
      · exact hk (stringLess_total _ _ (h3 ho.symm hs.symm) (g3 ho hs))

/-- For every two records that differ in official flag, stars or name the
comparator places exactly one strictly before the other, and for two input lists that are
permutations of each other and hold no two different records with the same official flag,
stars and name, the emitted sequences are equal. -/
theorem generateJSONFile_deterministic_on_distinct_keys
    (srt : (Plugin → Plugin → Bool) → List Plugin → List Plugin) (hsrt : IsSliceSort srt) :
    (∀ a b : Plugin, (a.Official ≠ b.Official ∨ a.Stars ≠ b.Stars ∨ a.Name ≠ b.Name) →
      (pluginLess a b = true ∧ pluginLess b a = false) ∨
      (pluginLess a b = false ∧ pluginLess b a = true)) ∧
    (∀ l1 l2 : List Plugin, l1.Perm l2 →
      (∀ x ∈ l1, ∀ y ∈ l1, x ≠ y →
        x.Official ≠ y.Official ∨ x.Stars ≠ y.Stars ∨ x.Name ≠ y.Name) →
      generateJSONFile srt l1 = generateJSONFile srt l2) := by
  have hc := hsrt pluginLess pluginLess_irrefl pluginLess_trans pluginLess_negTrans
  constructor
  · intro a b hk
    rcases pluginLess_total_on_keys a b hk with h | h
    · exact Or.inl ⟨h, pluginLess_asymm a b h⟩
    · exact Or.inr ⟨pluginLess_asymm b a h, h⟩
  · intro l1 l2 hp hkeys
    refine sorted_perm_unique pluginLess _ _
      (((hc l1).1.trans hp).trans (hc l2).1.symm) (hc l1).2 (hc l2).2 ?_
    intro x hx y hy hne
    have hx1 : x ∈ l1 := hp.symm.subset ((hc l2).1.subset hx)
    have hy1 : y ∈ l1 := hp.symm.subset ((hc l2).1.subset hy)
    exact pluginLess_total_on_keys x y (hkeys x hx1 y hy1 hne)

theorem generateJSONFile_deterministic_on_distinct_keys_witness :
    IsSliceSort insertionSortLessFunc ∧
      [rankedFirst, rankedSecond, rankedThird].Perm [rankedThird, rankedSecond, rankedFirst] ∧
      generateJSONFile insertionSortLessFunc [rankedFirst, rankedSecond, rankedThird] =
        generateJSONFile insertionSortLessFunc [rankedThird, rankedSecond, rankedFirst] := by
  have hp : [rankedFirst, rankedSecond, rankedThird].Perm
      [rankedThird, rankedSecond, rankedFirst] := List.reverse_perm [rankedThird, rankedSecond, rankedFirst]
  refine ⟨insertionSortLessFunc_isSliceSort, hp, ?_⟩
  refine (generateJSONFile_deterministic_on_distinct_keys insertionSortLessFunc
    insertionSortLessFunc_isSliceSort).2 _ _ hp ?_
  decide

/-! ## The list-item pattern -/

theorem expectRune_eq_some (c : Char) (s r : Str) : expectRune c s = some r ↔ s = c :: r := by
  cases s with
  | nil => simp [expectRune]
  | cons d t =>
    by_cases h : d = c
    · simp [expectRune, h]
    · simp [expectRune, h]

theorem captureUntil_some (c : Char) (s cap rest : Str)
    (h : captureUntil c s = some (cap, rest)) : s = cap ++ c :: rest ∧ cap ≠ [] ∧ c ∉ cap := by
  unfold captureUntil at h
  have hsplit := List.takeWhile_append_dropWhile (fun d => d != c) s
  have hhead := List.head?_dropWhile_not (fun d => d != c) s
  cases hd : s.dropWhile (fun d => d != c) with
  | nil => rw [hd] at h; simp at h
  | cons d r =>
    rw [hd] at h hsplit hhead
    simp only [List.head?_cons, bne_eq_false_iff_eq] at hhead
    by_cases he : (s.takeWhile (fun d => d != c)).isEmpty = true
    · simp [he] at h
    · simp only [he, Bool.false_eq_true, if_false, Option.some.injEq, Prod.mk.injEq] at h
      obtain ⟨h1, h2⟩ := h
      subst h1 h2 hhead
      refine ⟨hsplit.symm, ?_, ?_⟩
      · intro h0
        rw [h0] at he
        exact he rfl
      · intro hm
        have := List.mem_takeWhile_imp hm
        simp at this

theorem captureUntil_complete (c : Char) (cap rest : Str) (hne : cap ≠ []) (hc : c ∉ cap) :
    captureUntil c (cap ++ c :: rest) = some (cap, rest) := by
  have hall : ∀ a ∈ cap, (fun d => d != c) a = true := by
    intro a ha
    have : a ≠ c := fun h => hc (h ▸ ha)
    simpa using this
  unfold captureUntil
  rw [List.dropWhile_append_of_pos hall, List.takeWhile_append_of_pos hall]
  simp [hne]

theorem matchDescription_some (s d : Str) (h : matchDescription s = some d) :
    ∃ ws rest : Str, s = ws ++ (d ++ rest) ∧ (∀ c ∈ ws, isRegexSpace c = true) ∧
      d ≠ [] ∧ '\n' ∉ d := by
  have hfinal : ∀ (c : Char) (cs : Str), c ≠ '\n' →
      c :: cs = [] ++ ((c :: cs.takeWhile (fun d => d != '\n')) ++
        cs.dropWhile (fun d => d != '\n')) ∧
      (∀ x ∈ ([] : Str), isRegexSpace x = true) ∧
      (c :: cs.takeWhile (fun d => d != '\n')) ≠ [] ∧
      '\n' ∉ (c :: cs.takeWhile (fun d => d != '\n')) := by
    intro c cs hc
    refine ⟨by simp [List.takeWhile_append_dropWhile], by simp, by simp, ?_⟩
    intro hm
    rcases List.mem_cons.1 hm with h1 | h1
    · exact hc h1.symm
    · have := List.mem_takeWhile_imp h1
      simp at this
  induction s generalizing d with
  | nil => simp [matchDescription] at h
  | cons c cs ih =>
    unfold matchDescription at h
    by_cases hsp : isRegexSpace c = true
    · simp only [hsp, if_true] at h
      cases hrec : matchDescription cs with
      | some d1 =>
        rw [hrec] at h
        simp only [Option.some.injEq] at h
        subst h
        obtain ⟨ws, rest, h1, h2, h3, h4⟩ := ih d1 hrec
        refine ⟨c :: ws, rest, by rw [h1]; rfl, ?_, h3, h4⟩
        intro x hx
        rcases List.mem_cons.1 hx with rfl | hx
        · exact hsp
        · exact h2 x hx
      | none =>
        rw [hrec] at h
        by_cases hn : c = '\n'
        · simp [hn] at h
        · simp only [hn, if_false, Option.some.injEq] at h
          subst h
          exact ⟨[], _, hfinal c cs hn⟩
    · simp only [hsp, Bool.false_eq_true, if_false, Option.some.injEq] at h
      subst h
      have hn : c ≠ '\n' := by
        rintro rfl
        exact hsp (by decide)
      exact ⟨[], _, hfinal c cs hn⟩

theorem matchDescription_complete (ws d rest : Str) (hws : ∀ c ∈ ws, isRegexSpace c = true)
    (hd : d ≠ []) (hn : '\n' ∉ d) : ∃ d1, matchDescription (ws ++ (d ++ rest)) = some d1 := by
  induction ws with
  | nil =>
    cases d with
    | nil => exact absurd rfl hd
    | cons c cs =>
      have hc : c ≠ '\n' := fun h => hn (h ▸ List.mem_cons_self _ _)
      simp only [List.nil_append, List.cons_append]
      unfold matchDescription
      by_cases hsp : isRegexSpace c = true
      · simp only [hsp, if_true]
        cases matchDescription (cs ++ rest) with
        | some d1 => exact ⟨d1, rfl⟩
        | none => simp [hc]
      · simp [hsp]
  | cons w ws ih =>
    obtain ⟨d1, h1⟩ := ih (fun c hc => hws c (List.mem_cons_of_mem _ hc))
    refine ⟨d1, ?_⟩
    simp only [List.cons_append]
    unfold matchDescription
    simp [hws w (List.mem_cons_self _ _), h1]

theorem matchTail_some (s d : Str) (h : matchTail s = some d) :
    ∃ mid ws rest : Str, s = mid ++ ('-' :: (ws ++ (d ++ rest))) ∧ '\n' ∉ mid ∧
      (∀ c ∈ ws, isRegexSpace c = true) ∧ d ≠ [] ∧ '\n' ∉ d := by
  induction s with
  | nil => simp [matchTail] at h
  | cons c cs ih =>
    unfold matchTail at h
    by_cases hdash : c = '-'
    · simp only [hdash, if_true] at h
      cases hrec : matchDescription cs with
      | some d1 =>
        rw [hrec] at h
        simp only [Option.some.injEq] at h
        subst h
        obtain ⟨ws, rest, h1, h2, h3, h4⟩ := matchDescription_some cs d1 hrec
        exact ⟨[], ws, rest, by rw [hdash, h1]; rfl, by simp, h2, h3, h4⟩
      | none =>
        rw [hrec] at h
        obtain ⟨mid, ws, rest, h1, h2, h3, h4, h5⟩ := ih h
        refine ⟨c :: mid, ws, rest, by rw [h1]; rfl, ?_, h3, h4, h5⟩
        intro hm
        rcases List.mem_cons.1 hm with h6 | h6
        · rw [hdash] at h6
          exact absurd h6 (by decide)
        · exact h2 h6
    · by_cases hn : c = '\n'
      · simp [hdash, hn] at h
      · simp only [hdash, hn, if_false] at h
        obtain ⟨mid, ws, rest, h1, h2, h3, h4, h5⟩ := ih h
        refine ⟨c :: mid, ws, rest, by rw [h1]; rfl, ?_, h3, h4, h5⟩
        intro hm
        rcases List.mem_cons.1 hm with h6 | h6
        · exact hn h6.symm
        · exact h2 h6

theorem matchTail_complete (mid tail : Str) (hmid : '\n' ∉ mid)
    (htail : ∃ d1, matchDescription tail = some d1) :
    ∃ d2, matchTail (mid ++ ('-' :: tail)) = some d2 := by
  induction mid with
  | nil =>
    obtain ⟨d1, h1⟩ := htail
    refine ⟨d1, ?_⟩
    simp only [List.nil_append]
    unfold matchTail
    simp [h1]
  | cons m mid ih =>
    obtain ⟨d2, h2⟩ := ih (fun h => hmid (List.mem_cons_of_mem _ h))
    have hm : m ≠ '\n' := fun h => hmid (h ▸ List.mem_cons_self _ _)
    simp only [List.cons_append]
    unfold matchTail
    by_cases hdash : m = '-'
    · simp only [hdash, if_true]
      cases matchDescription (mid ++ '-' :: tail) with
      | some d1 => exact ⟨d1, rfl⟩
      | none => exact ⟨d2, h2⟩
    · simp only [hdash, hm, if_false]
      exact ⟨d2, h2⟩

theorem dropWhile_space_append (ws : Str) (c : Char) (r : Str)
    (hws : ∀ x ∈ ws, isRegexSpace x = true) (hc : isRegexSpace c = false) :
    (ws ++ c :: r).dropWhile isRegexSpace = c :: r := by
  rw [List.dropWhile_append_of_pos hws, List.dropWhile_cons_of_neg (by simp [hc])]

theorem dropWhile_space_eq_cons (s : Str) (c : Char) (r : Str)
    (h : s.dropWhile isRegexSpace = c :: r) :
    ∃ ws : Str, s = ws ++ c :: r ∧ ∀ x ∈ ws, isRegexSpace x = true := by
  refine ⟨s.takeWhile isRegexSpace, ?_, fun x hx => List.mem_takeWhile_imp hx⟩
  rw [← h, List.takeWhile_append_dropWhile]

theorem linkRegex_sound (line label target desc : Str)
    (h : linkRegex line = some (label, target, desc)) :
    IsListItemMatch line label target desc := by
  unfold linkRegex at h
  cases h1 : expectRune '-' (line.dropWhile isRegexSpace) with
  | none => rw [h1] at h; simp at h
  | some s1 =>
    rw [h1] at h
    simp only at h
    cases h2 : expectRune '[' (s1.dropWhile isRegexSpace) with
    | none => rw [h2] at h; simp at h
    | some s2 =>
      rw [h2] at h
      simp only at h
      cases h3 : captureUntil ']' s2 with
      | none => rw [h3] at h; simp at h
      | some g3 =>
        obtain ⟨lab, s3⟩ := g3
        rw [h3] at h
        simp only at h
        cases h4 : expectRune '(' s3 with
        | none => rw [h4] at h; simp at h
        | some s4 =>
          rw [h4] at h
          simp only at h
          cases h5 : captureUntil ')' s4 with
          | none => rw [h5] at h; simp at h
          | some g5 =>
            obtain ⟨tgt, s5⟩ := g5
            rw [h5] at h
            simp only at h
            cases h6 : matchTail s5 with
            | none => rw [h6] at h; simp at h
            | some d =>
              rw [h6] at h
              simp only [Option.some.injEq, Prod.mk.injEq] at h
              obtain ⟨rfl, rfl, rfl⟩ := h
              rw [expectRune_eq_some] at h1 h2 h4
              obtain ⟨ws1, e1, hw1⟩ := dropWhile_space_eq_cons _ _ _ h1
              obtain ⟨ws2, e2, hw2⟩ := dropWhile_space_eq_cons _ _ _ h2
              obtain ⟨e3, hl1, hl2⟩ := captureUntil_some _ _ _ _ h3
              obtain ⟨e5, ht1, ht2⟩ := captureUntil_some _ _ _ _ h5
              obtain ⟨mid, ws3, rest, e6, hm, hw3, hd1, hd2⟩ := matchTail_some _ _ h6
              refine ⟨ws1, ws2, mid, ws3, rest, ?_, hw1, hw2, hl1, hl2, ht1, ht2, hm, hw3,
                hd1, hd2⟩
              rw [e1, e2, e3, h4, e5, e6]

theorem linkRegex_complete (line label target desc : Str)
    (h : IsListItemMatch line label target desc) :
    ∃ d, linkRegex line = some (label, target, d) := by
  obtain ⟨ws1, ws2, mid, ws3, rest, e, hw1, hw2, hl1, hl2, ht1, ht2, hm, hw3, hd1, hd2⟩ := h
  obtain ⟨d, hd⟩ := matchTail_complete mid (ws3 ++ (desc ++ rest)) hm
    (matchDescription_complete ws3 desc rest hw3 hd1 hd2)
  refine ⟨d, ?_⟩
  subst e
  unfold linkRegex
  rw [dropWhile_space_append ws1 '-' _ hw1 (by decide)]
  simp only [expectRune, if_true]
  rw [dropWhile_space_append ws2 '[' _ hw2 (by decide)]
  simp only [expectRune, if_true]
  rw [captureUntil_complete ']' label _ hl1 hl2]
  simp only [expectRune, if_true]
  rw [captureUntil_complete ')' target _ ht1 ht2]
  simp only [hd]

/-! ## `parseScanned` -/

theorem acceptedItem_heading (line : Str) (h : stringsHasPrefix line "### ".toList = true) :
    acceptedItem line = none := by
  unfold acceptedItem
  rw [if_pos h]

theorem parseLines_cons_heading (tbl : Char → Char) (cur line : Str) (rest : List Str)
    (h : stringsHasPrefix line "### ".toList = true) :
    parseLines tbl cur (line :: rest) = parseLines tbl (headingCategory cur line) rest := by
  rw [parseLines, if_pos h]

theorem parseLines_cons_skip (tbl : Char → Char) (cur line : Str) (rest : List Str)
    (h : stringsHasPrefix line "### ".toList = false) (hi : acceptedItem line = none) :
    parseLines tbl cur (line :: rest) = parseLines tbl cur rest := by
  have hn : ¬ (stringsHasPrefix line "### ".toList = true) := by
    rw [h]
    exact Bool.false_ne_true
  rw [parseLines, if_neg hn]
  unfold acceptedItem at hi
  rw [if_neg hn] at hi
  cases hr : linkRegex line with
  | none => rfl
  | some g =>
    obtain ⟨m1, m2, m3⟩ := g
    rw [hr] at hi
    simp only at hi
    by_cases hp : stringsHasPrefix (stringsTrimSpace m2) githubPrefix = true
    · simp [hp] at hi
    · simp [hp]

theorem parseLines_cons_item (tbl : Char → Char) (cur line : Str) (rest : List Str)
    (item : Str × Str × Str) (hi : acceptedItem line = some item) :
    parseLines tbl cur (line :: rest) =
      mkPlugin tbl cur item.1 item.2.1 item.2.2 :: parseLines tbl cur rest := by
  have h : stringsHasPrefix line "### ".toList = false := by
    cases hp : stringsHasPrefix line "### ".toList with
    | false => rfl
    | true => rw [acceptedItem_heading line hp] at hi; exact Option.noConfusion hi
  have hn : ¬ (stringsHasPrefix line "### ".toList = true) := by
    rw [h]
    exact Bool.false_ne_true
  rw [parseLines, if_neg hn]
  unfold acceptedItem at hi
  rw [if_neg hn] at hi
  cases hr : linkRegex line with
  | none => rw [hr] at hi; exact Option.noConfusion hi
  | some g =>
    obtain ⟨m1, m2, m3⟩ := g
    rw [hr] at hi
    simp only at hi
    by_cases hp : stringsHasPrefix (stringsTrimSpace m2) githubPrefix = true
    · simp only [hp, if_true, Option.some.injEq] at hi
      subst hi
      simp [hp]
    · simp [hp] at hi

theorem parseLines_items (tbl : Char → Char) (cur : Str) (lines : List Str) :
    (parseLines tbl cur lines).map (fun p => (p.Name, p.Repository, p.Description)) =
      lines.filterMap acceptedItem := by
  induction lines generalizing cur with
  | nil => rfl
  | cons line rest ih =>
    cases hp : stringsHasPrefix line "### ".toList with
    | true =>
      rw [parseLines_cons_heading tbl cur line rest hp, ih,
        List.filterMap_cons_none (acceptedItem_heading line hp)]
    | false =>
      cases hi : acceptedItem line with
      | none => rw [parseLines_cons_skip tbl cur line rest hp hi, ih, List.filterMap_cons_none hi]
      | some item =>
        rw [parseLines_cons_item tbl cur line rest item hi, List.filterMap_cons_some hi,
          List.map_cons, ih]
        rfl

theorem lookup_eq_some_mem (l : List (Str × Str)) (a m : Str) (h : l.lookup a = some m) :
    (a, m) ∈ l := by
  induction l with
  | nil => simp [List.lookup] at h
  | cons e rest ih =>
    obtain ⟨k, v⟩ := e
    by_cases hk : a = k
    · subst hk
      simp only [List.lookup_cons_self, Option.some.injEq] at h
      subst h
      exact List.mem_cons_self _ _
    · have hb : (a == k) = false := beq_eq_false_iff_ne.2 hk
      rw [List.lookup_cons, hb] at h
      exact List.mem_cons_of_mem _ (ih h)

set_option maxRecDepth 100000 in
theorem categoryMap_values_canonical : ∀ e ∈ categoryMap, e.2 ∈ canonicalTags := by
  decide

theorem headingCategory_eq (cur line : Str) (h : stringsHasPrefix line "### ".toList = true) :
    headingCategory cur line = (recognizedHeading line).getD cur := by
  unfold headingCategory recognizedHeading
  rw [if_pos h]
  cases categoryRegex line with
  | none => rfl
  | some a =>
    show (match categoryMap.lookup a with
      | some mapped => mapped
      | none => cur) = (categoryMap.lookup a).getD cur
    cases categoryMap.lookup a with
    | none => rfl
    | some m => rfl

theorem recognizedHeading_canonical (line m : Str) (h : recognizedHeading line = some m) :
    m ∈ canonicalTags := by
  unfold recognizedHeading at h
  split at h
  · cases hr : categoryRegex line with
    | none => rw [hr] at h; exact Option.noConfusion h
    | some a =>
      rw [hr] at h
      exact categoryMap_values_canonical _ (lookup_eq_some_mem _ _ _ h)
  · exact Option.noConfusion h

theorem recognizedHeading_not_heading (line : Str)
    (h : stringsHasPrefix line "### ".toList = false) : recognizedHeading line = none := by
  unfold recognizedHeading
  rw [if_neg (by rw [h]; exact Bool.false_ne_true)]

theorem parseLines_canonical (tbl : Char → Char) (cur : Str) (lines : List Str)
    (hcur : cur ∈ canonicalTags) : ∀ p ∈ parseLines tbl cur lines, p.Category ∈ canonicalTags := by
  induction lines generalizing cur with
  | nil => intro p hp; simp [parseLines] at hp
  | cons line rest ih =>
    cases hp : stringsHasPrefix line "### ".toList with
    | true =>
      rw [parseLines_cons_heading tbl cur line rest hp, headingCategory_eq cur line hp]
      apply ih
      cases hr : recognizedHeading line with
      | none => exact hcur
      | some m => exact recognizedHeading_canonical line m hr
    | false =>
      cases hi : acceptedItem line with
      | none =>
        rw [parseLines_cons_skip tbl cur line rest hp hi]
        exact ih cur hcur
      | some item =>
        rw [parseLines_cons_item tbl cur line rest item hi]
        intro p hmem
        rcases List.mem_cons.1 hmem with rfl | hmem
        · exact hcur
        · exact ih cur hcur p hmem

/-- Every record returned by `parseScanned` has a category that is one of the nine
canonical tags. -/
theorem parseScanned_category_canonical (tbl : Char → Char) (lines : List Str) (p : Plugin)
    (hp : p ∈ parseScanned tbl lines) : p.Category ∈ canonicalTags :=
  parseLines_canonical tbl _ lines (by decide) p hp

theorem categoryFrom_cons (start line : Str) (rest : List Str) :
    categoryFrom start (line :: rest) =
      categoryFrom ((recognizedHeading line).getD start) rest := by
  unfold categoryFrom
  cases hr : recognizedHeading line with
  | none => rw [List.filterMap_cons_none hr]; rfl
  | some m =>
    rw [List.filterMap_cons_some hr, List.getLast?_cons]
    rfl

theorem categoryFrom_concat (start line : Str) (pre : List Str) :
    categoryFrom start (pre ++ [line]) =
      (recognizedHeading line).getD (categoryFrom start pre) := by
  induction pre generalizing start with
  | nil =>
    rw [List.nil_append, categoryFrom_cons]
    rfl
  | cons l pre ih => rw [List.cons_append, categoryFrom_cons, categoryFrom_cons, ih]

theorem parseLines_append (tbl : Char → Char) (cur : Str) (pre post : List Str) :
    parseLines tbl cur (pre ++ post) =
      parseLines tbl cur pre ++ parseLines tbl (categoryFrom cur pre) post := by
  induction pre generalizing cur with
  | nil => rfl
  | cons line rest ih =>
    rw [List.cons_append, categoryFrom_cons]
    cases hp : stringsHasPrefix line "### ".toList with
    | true =>
      rw [parseLines_cons_heading tbl cur line _ hp, parseLines_cons_heading tbl cur line _ hp,
        headingCategory_eq cur line hp, ih]
    | false =>
      rw [recognizedHeading_not_heading line hp]
      cases hi : acceptedItem line with
      | none =>
        rw [parseLines_cons_skip tbl cur line _ hp hi, parseLines_cons_skip tbl cur line _ hp hi,
          ih]
        rfl
      | some item =>
        rw [parseLines_cons_item tbl cur line _ item hi,
          parseLines_cons_item tbl cur line _ item hi, ih]
        rfl

theorem parseLines_constant (tbl : Char → Char) (cur : Str) (items : List Str)
    (h : ∀ l ∈ items, recognizedHeading l = none) :
    ∀ p ∈ parseLines tbl cur items, p.Category = cur := by
  induction items with
  | nil => intro p hp; simp [parseLines] at hp
  | cons line rest ih =>
    have hrest : ∀ l ∈ rest, recognizedHeading l = none :=
      fun l hl => h l (List.mem_cons_of_mem _ hl)
    cases hp : stringsHasPrefix line "### ".toList with
    | true =>
      rw [parseLines_cons_heading tbl cur line rest hp, headingCategory_eq cur line hp,
        h line (List.mem_cons_self _ _)]
      exact ih hrest
    | false =>
      cases hi : acceptedItem line with
      | none =>
        rw [parseLines_cons_skip tbl cur line rest hp hi]
        exact ih hrest
      | some item =>
        rw [parseLines_cons_item tbl cur line rest item hi]
        intro p hmem
        rcases List.mem_cons.1 hmem with rfl | hmem
        · rfl
        · exact ih hrest p hmem

theorem parseLines_sources (tbl : Char → Char) (rest pre : List Str) :
    List.Forall₂
      (fun p i => p.Category = categoryAfter ((pre ++ rest).take i) ∧
        ∃ line, (pre ++ rest)[i]? = some line ∧
          acceptedItem line = some (p.Name, p.Repository, p.Description))
      (parseLines tbl (categoryAfter pre) rest) (acceptedFrom pre.length rest) := by
  induction rest generalizing pre with
  | nil => exact List.Forall₂.nil
  | cons line rest ih =>
    have hih := ih (pre ++ [line])
    rw [List.append_assoc, List.singleton_append, List.length_append, List.length_singleton]
      at hih
    unfold categoryAfter at hih
    rw [categoryFrom_concat] at hih
    cases hp : stringsHasPrefix line "### ".toList with
    | true =>
      have hi := acceptedItem_heading line hp
      rw [parseLines_cons_heading tbl _ line rest hp, headingCategory_eq _ line hp]
      unfold acceptedFrom
      rw [hi]
      exact hih
    | false =>
      rw [recognizedHeading_not_heading line hp] at hih
      cases hi : acceptedItem line with
      | none =>
        rw [parseLines_cons_skip tbl _ line rest hp hi]
        unfold acceptedFrom
        rw [hi]
        exact hih
      | some item =>
        rw [parseLines_cons_item tbl _ line rest item hi]
        unfold acceptedFrom
        rw [hi]
        refine List.Forall₂.cons ⟨?_, line, ?_, ?_⟩ hih
        · rw [List.take_left']
          · rfl
          · rfl
        · rw [List.getElem?_append_right (Nat.le_refl _)]
          simp
        · rw [hi]
          rfl

/-- The records of `parseScanned` come, in order, from the accepted lines, and the
category of each is the map value of the anchor of the nearest preceding heading line whose
anchor is a key of `categoryMap`, `utility` when no such heading precedes; after a
recognized heading H1 and a heading H2 whose anchor is not in the map, the items that follow
carry the category of H1. -/
theorem parseScanned_category (tbl : Char → Char) (lines : List Str) :
    List.Forall₂
        (fun p i => p.Category = categoryAfter (lines.take i) ∧
          ∃ line, lines[i]? = some line ∧
            acceptedItem line = some (p.Name, p.Repository, p.Description))
        (parseScanned tbl lines) (acceptedIndices lines) ∧
      (∀ (pre items : List Str) (h1 h2 c : Str), recognizedHeading h1 = some c →
        stringsHasPrefix h2 "### ".toList = true → recognizedHeading h2 = none →
        (∀ l ∈ items, recognizedHeading l = none) →
        ∀ p ∈ (parseScanned tbl (pre ++ h1 :: h2 :: items)).drop (parseScanned tbl pre).length,
          p.Category = c) := by
  constructor
  · have h := parseLines_sources tbl lines []
    simpa only [List.nil_append, List.length_nil] using h
  · intro pre items h1 h2 c hc1 hp2 hc2 hitems
    have hp1 : stringsHasPrefix h1 "### ".toList = true := by
      cases hp : stringsHasPrefix h1 "### ".toList with
      | true => rfl
      | false =>
        rw [recognizedHeading_not_heading h1 hp] at hc1
        exact Option.noConfusion hc1
    unfold parseScanned
    rw [parseLines_append, List.drop_left, parseLines_cons_heading tbl _ h1 _ hp1,
      parseLines_cons_heading tbl _ h2 _ hp2, headingCategory_eq _ h1 hp1,
      headingCategory_eq _ h2 hp2, hc1, hc2]
    exact parseLines_constant tbl c items hitems

/-! ## `enrichPlugins` -/

theorem enrichFrom_length (tbl : Char → Char) (fetch : Nat → Str → Option GitHubRepo) (k : Nat)
    (ps : List Plugin) : (enrichFrom tbl fetch k ps).length = ps.length := by
  induction ps generalizing k with
  | nil => rfl
  | cons p ps ih => simp [enrichFrom, ih]

theorem enrichFrom_getElem? (tbl : Char → Char) (fetch : Nat → Str → Option GitHubRepo)
    (k i : Nat) (ps : List Plugin) :
    (enrichFrom tbl fetch k ps)[i]? =
      (ps[i]?).map (fun p => enrichOne tbl (fetch (k + i) (cleanRepoPath p.Repository)) p) := by
  induction ps generalizing k i with
  | nil => simp [enrichFrom]
  | cons p ps ih =>
    cases i with
    | zero => simp [enrichFrom]
    | succ i =>
      simp only [enrichFrom, List.getElem?_cons_succ, ih]
      rw [show k + 1 + i = k + (i + 1) by omega]

theorem parseLines_defaults (tbl : Char → Char) (cur : Str) (lines : List Str) :
    ∀ p ∈ parseLines tbl cur lines,
      p.Stars = 0 ∧ p.Language = [] ∧ p.License = [] ∧ p.UpdatedAt = 0 := by
  induction lines generalizing cur with
  | nil => intro p hp; simp [parseLines] at hp
  | cons line rest ih =>
    cases hp : stringsHasPrefix line "### ".toList with
    | true =>
      rw [parseLines_cons_heading tbl cur line rest hp]
      exact ih _
    | false =>
      cases hi : acceptedItem line with
      | none =>
        rw [parseLines_cons_skip tbl cur line rest hp hi]
        exact ih cur
      | some item =>
        rw [parseLines_cons_item tbl cur line rest item hi]
        intro p hmem
        rcases List.mem_cons.1 hmem with rfl | hmem
        · exact ⟨rfl, rfl, rfl, rfl⟩
        · exact ih cur p hmem

/-- C9, as stated, fails: an override record loaded with stars, language, license and update
time keeps them when its fetch fails; only install type and package are reset. -/
theorem enrichPlugins_failure_keeps_override_fields :
    (enrichPlugins id (fun _ _ => none) (loadCustomPlugins id [starredOverride])).map
        (fun p => (p.InstallType, p.Package, p.Stars, p.Language, p.License, p.UpdatedAt)) =
      [("manual".toList, [], 7, "Go".toList, "MIT".toList, 42)] ∧
      ¬ (∀ p ∈ enrichPlugins id (fun _ _ => none) (loadCustomPlugins id [starredOverride]),
        p.Stars = 0 ∧ p.Language = [] ∧ p.License = [] ∧ p.UpdatedAt = 0) := by
  constructor
  · rfl
  · intro h
    have h2 := (h _ (List.mem_singleton.2 rfl)).1
    exact absurd h2 (by decide)

/-! ## `detectInstallType` -/

/-- C10: `detectInstallType` depends on the language only through its lower-cased form and
dispatches: `python` to pip with the second path segment (empty when there is none),
`typescript` and `javascript` to npm with the path, `go` to go with
`github.com/<path>@latest`, anything else, the empty language included, to manual with an
empty package; language `Go` and path `foo/bar` give `github.com/foo/bar@latest`. -/
theorem detectInstallType_dispatch (tbl : Char → Char) (L P : Str) :
    (∀ L2 : Str, stringsToLower tbl L2 = stringsToLower tbl L →
        detectInstallType tbl L2 P = detectInstallType tbl L P) ∧
      (stringsToLower tbl L = "python".toList →
        detectInstallType tbl L P = ("pip".toList, ((stringsSplit '/' P)[1]?).getD [])) ∧
      (stringsToLower tbl L = "typescript".toList ∨ stringsToLower tbl L = "javascript".toList →
        detectInstallType tbl L P = ("npm".toList, P)) ∧
      (stringsToLower tbl L = "go".toList →
        detectInstallType tbl L P = ("go".toList, "github.com/".toList ++ P ++ "@latest".toList)) ∧
      (stringsToLower tbl L ≠ "python".toList → stringsToLower tbl L ≠ "typescript".toList →
        stringsToLower tbl L ≠ "javascript".toList → stringsToLower tbl L ≠ "go".toList →
        detectInstallType tbl L P = ("manual".toList, [])) ∧
      detectInstallType tbl [] P = ("manual".toList, []) ∧
      detectInstallType tbl "Go".toList "foo/bar".toList =
        ("go".toList, "github.com/foo/bar@latest".toList) := by
  refine ⟨?_, ?_, ?_, ?_, ?_, ?_, ?_⟩
  · intro L2 h
    unfold detectInstallType
    rw [h]
  · intro h
    unfold detectInstallType
    rw [if_pos h]
    cases hs : stringsSplit '/' P with
    | nil => rfl
    | cons a t =>
      cases t with
      | nil => rfl
      | cons b u => simp
  · intro h
    have hne : stringsToLower tbl L ≠ "python".toList := by
      rcases h with h | h <;> rw [h] <;> decide
    unfold detectInstallType
    rw [if_neg hne, if_pos h]
  · intro h
    have h1 : stringsToLower tbl L ≠ "python".toList := by rw [h]; decide
    have h2 : ¬ (stringsToLower tbl L = "typescript".toList ∨
        stringsToLower tbl L = "javascript".toList) := by rw [h]; decide
    unfold detectInstallType
    rw [if_neg h1, if_neg h2, if_pos h]
  · intro h1 h2 h3 h4
    have h23 : ¬ (stringsToLower tbl L = "typescript".toList ∨
        stringsToLower tbl L = "javascript".toList) := fun h => h.elim h2 h3
    unfold detectInstallType
    rw [if_neg h1, if_neg h23, if_neg h4]
  · rfl
  · rfl

theorem detectInstallType_dispatch_witness :
    stringsToLower id "Python".toList = "python".toList ∧
      detectInstallType id "Python".toList "foo/bar".toList = ("pip".toList, "bar".toList) := by
  have h : stringsToLower id "Python".toList = "python".toList := by decide
  refine ⟨h, ?_⟩
  rw [(detectInstallType_dispatch id "Python".toList "foo/bar".toList).2.1 h]
  decide

/-! ## The loop body of `enrichPlugins` -/

theorem enrichPlugins_getElem? (tbl : Char → Char) (fetch : Nat → Str → Option GitHubRepo)
    (plugins : List Plugin) (i : Nat) (p : Plugin) (hp : plugins[i]? = some p) :
    (enrichPlugins tbl fetch plugins)[i]? =
      some (enrichOne tbl (fetch i (cleanRepoPath p.Repository)) p) := by
  unfold enrichPlugins
  rw [enrichFrom_getElem?, hp, Nat.zero_add, Option.map_some']

theorem enrichOne_frame (tbl : Char → Char) (outcome : Option GitHubRepo) (p : Plugin) :
    (enrichOne tbl outcome p).ID = p.ID ∧ (enrichOne tbl outcome p).Name = p.Name ∧
      (enrichOne tbl outcome p).Description = p.Description ∧
      (enrichOne tbl outcome p).Category = p.Category ∧
      (enrichOne tbl outcome p).Tags = p.Tags ∧
      (enrichOne tbl outcome p).Repository = p.Repository ∧
      (enrichOne tbl outcome p).Author = p.Author ∧
      (enrichOne tbl outcome p).Verified = p.Verified ∧
      (enrichOne tbl outcome p).Official = p.Official := by
  cases outcome with
  | none => exact ⟨rfl, rfl, rfl, rfl, rfl, rfl, rfl, rfl, rfl⟩
  | some gh =>
    unfold enrichOne
    simp only
    split
    · exact ⟨rfl, rfl, rfl, rfl, rfl, rfl, rfl, rfl, rfl⟩
    · exact ⟨rfl, rfl, rfl, rfl, rfl, rfl, rfl, rfl, rfl⟩

theorem enrichOne_install_monorepo (tbl : Char → Char) (gh : GitHubRepo) (p : Plugin)
    (h : stringsContains (cleanRepoPath p.Repository) "modelcontextprotocol/servers".toList = true) :
    (enrichOne tbl (some gh) p).InstallType = "manual".toList ∧
      (enrichOne tbl (some gh) p).Package =
        if (detectInstallType tbl gh.Language (cleanRepoPath p.Repository)).2 = [] then
          "modelcontextprotocol/servers".toList
        else (detectInstallType tbl gh.Language (cleanRepoPath p.Repository)).2 := by
  unfold enrichOne
  simp only
  rw [if_pos h]
  exact ⟨rfl, rfl⟩

theorem enrichOne_install_other (tbl : Char → Char) (gh : GitHubRepo) (p : Plugin)
    (h : stringsContains (cleanRepoPath p.Repository) "modelcontextprotocol/servers".toList = false) :
    ((enrichOne tbl (some gh) p).InstallType, (enrichOne tbl (some gh) p).Package) =
      detectInstallType tbl gh.Language (cleanRepoPath p.Repository) := by
  unfold enrichOne
  simp only
  rw [if_neg (by rw [h]; exact Bool.false_ne_true)]

/-- C20: `enrichPlugins` keeps the number and the order of the records and leaves id, name,
description, category, tags, repository, author, verified and official of every record
unchanged; a record whose fetch fails differs from the original in no field other than
install type and package. -/
theorem enrichPlugins_frame (tbl : Char → Char) (fetch : Nat → Str → Option GitHubRepo)
    (plugins : List Plugin) :
    (enrichPlugins tbl fetch plugins).length = plugins.length ∧
      ∀ (i : Nat) (p : Plugin), plugins[i]? = some p →
        ∃ q, (enrichPlugins tbl fetch plugins)[i]? = some q ∧
          q.ID = p.ID ∧ q.Name = p.Name ∧ q.Description = p.Description ∧
          q.Category = p.Category ∧ q.Tags = p.Tags ∧ q.Repository = p.Repository ∧
          q.Author = p.Author ∧ q.Verified = p.Verified ∧ q.Official = p.Official ∧
          (fetch i (cleanRepoPath p.Repository) = none →
            { q with InstallType := p.InstallType, Package := p.Package } = p) := by
  refine ⟨enrichFrom_length tbl fetch 0 plugins, fun i p hp => ?_⟩
  obtain ⟨h1, h2, h3, h4, h5, h6, h7, h8, h9⟩ :=
    enrichOne_frame tbl (fetch i (cleanRepoPath p.Repository)) p
  refine ⟨_, enrichPlugins_getElem? tbl fetch plugins i p hp, h1, h2, h3, h4, h5, h6, h7, h8,
    h9, fun hfail => ?_⟩
  rw [hfail]
  rfl

theorem enrichPlugins_frame_witness :
    [starredOverride][0]? = some starredOverride ∧
      (fun (_ : Nat) (_ : Str) => (none : Option GitHubRepo)) 0
        (cleanRepoPath starredOverride.Repository) = none ∧
      ∃ q, (enrichPlugins id (fun _ _ => none) [starredOverride])[0]? = some q ∧
        q.Name = starredOverride.Name ∧
        { q with InstallType := starredOverride.InstallType,
                 Package := starredOverride.Package } = starredOverride := by
  obtain ⟨q, hq, _, h2, _, _, _, _, _, _, _, hfail⟩ :=
    (enrichPlugins_frame id (fun _ _ => none) [starredOverride]).2 0 starredOverride rfl
  exact ⟨rfl, rfl, q, hq, h2, hfail rfl⟩

/-- C11: a record whose normalized repository path is `modelcontextprotocol/servers` has
install type `manual` after `enrichPlugins` for every fetch outcome, and when the fetch
succeeds its package is the dispatch result if that is non-empty and
`modelcontextprotocol/servers` otherwise. -/
theorem enrichPlugins_monorepo (tbl : Char → Char) (fetch : Nat → Str → Option GitHubRepo)
    (plugins : List Plugin) (i : Nat) (p : Plugin) (hp : plugins[i]? = some p)
    (hpath : cleanRepoPath p.Repository = "modelcontextprotocol/servers".toList) :
    ∃ q, (enrichPlugins tbl fetch plugins)[i]? = some q ∧
      q.InstallType = "manual".toList ∧
      ∀ gh, fetch i (cleanRepoPath p.Repository) = some gh →
        q.Package =
          if (detectInstallType tbl gh.Language "modelcontextprotocol/servers".toList).2 = [] then
            "modelcontextprotocol/servers".toList
          else (detectInstallType tbl gh.Language "modelcontextprotocol/servers".toList).2 := by
  refine ⟨_, enrichPlugins_getElem? tbl fetch plugins i p hp, ?_, ?_⟩
  · cases hf : fetch i (cleanRepoPath p.Repository) with
    | none => rfl
    | some gh =>
      exact (enrichOne_install_monorepo tbl gh p (by rw [hpath]; decide)).1
  · intro gh hf
    rw [hf, (enrichOne_install_monorepo tbl gh p (by rw [hpath]; decide)).2, hpath]

theorem enrichPlugins_monorepo_witness :
    [monorepoPlugin][0]? = some monorepoPlugin ∧
      cleanRepoPath monorepoPlugin.Repository = "modelcontextprotocol/servers".toList ∧
      ∃ q, (enrichPlugins id (fun _ _ => some pythonRepo) [monorepoPlugin])[0]? = some q ∧
        q.InstallType = "manual".toList ∧ q.Package = "servers".toList := by
  have hpath : cleanRepoPath monorepoPlugin.Repository =
      "modelcontextprotocol/servers".toList := by decide
  obtain ⟨q, hq, h1, h2⟩ :=
    enrichPlugins_monorepo id (fun _ _ => some pythonRepo) [monorepoPlugin] 0 monorepoPlugin
      rfl hpath
  refine ⟨rfl, hpath, q, hq, h1, ?_⟩
  rw [h2 pythonRepo rfl]
  decide

/-- A record whose fetch succeeds with language `L` and whose normalized
path `P` does not contain `modelcontextprotocol/servers` gets exactly
`detectInstallType L P` as install type and package; language Python then yields `pip`. -/
theorem enrichPlugins_dispatch_outside_monorepo (tbl : Char → Char)
    (fetch : Nat → Str → Option GitHubRepo) (plugins : List Plugin) (i : Nat) (p : Plugin)
    (gh : GitHubRepo) (hp : plugins[i]? = some p)
    (hfetch : fetch i (cleanRepoPath p.Repository) = some gh)
    (hnot : stringsContains (cleanRepoPath p.Repository)
      "modelcontextprotocol/servers".toList = false) :
    ∃ q, (enrichPlugins tbl fetch plugins)[i]? = some q ∧
      (q.InstallType, q.Package) = detectInstallType tbl gh.Language (cleanRepoPath p.Repository) ∧
      (stringsToLower tbl gh.Language = "python".toList → q.InstallType = "pip".toList) := by
  have hq := enrichPlugins_getElem? tbl fetch plugins i p hp
  rw [hfetch] at hq
  have hpair := enrichOne_install_other tbl gh p hnot
  refine ⟨_, hq, hpair, fun hpy => ?_⟩
  have h1 := congrArg Prod.fst hpair
  simp only at h1
  rw [h1]
  unfold detectInstallType
  rw [if_pos hpy]

theorem enrichPlugins_dispatch_outside_monorepo_witness :
    [sampleExtracted][0]? = some sampleExtracted ∧
      stringsContains (cleanRepoPath sampleExtracted.Repository)
        "modelcontextprotocol/servers".toList = false ∧
      ∃ q, (enrichPlugins id (fun _ _ => some pythonRepo) [sampleExtracted])[0]? = some q ∧
        (q.InstallType, q.Package) = ("pip".toList, "foo".toList) := by
  have hnot : stringsContains (cleanRepoPath sampleExtracted.Repository)
      "modelcontextprotocol/servers".toList = false := by decide
  obtain ⟨q, hq, h1, _⟩ :=
    enrichPlugins_dispatch_outside_monorepo id (fun _ _ => some pythonRepo) [sampleExtracted] 0
      sampleExtracted pythonRepo rfl rfl hnot
  refine ⟨rfl, hnot, q, hq, ?_⟩
  rw [h1]
  decide

/-- C19 fails on the code: the special case of `enrichPlugins` is meant for records "from
modelcontextprotocol/servers", and the code tests whether the path contains that
identifier; the repository `modelcontextprotocol/servers-archived`, whose path differs from
`modelcontextprotocol/servers`, is forced to `manual` although its language dispatches to
`pip`. -/
theorem enrichPlugins_monorepo_substring :
    cleanRepoPath archivedPlugin.Repository ≠ "modelcontextprotocol/servers".toList ∧
      detectInstallType id pythonRepo.Language (cleanRepoPath archivedPlugin.Repository) =
        ("pip".toList, "servers-archived".toList) ∧
      (enrichPlugins id (fun _ _ => some pythonRepo) [archivedPlugin]).map
        (fun q => (q.InstallType, q.Package)) = [("manual".toList, "servers-archived".toList)] := by
  refine ⟨by decide, by decide, by decide⟩

/-! ## Provenance of the extracted records -/

theorem acceptedItem_some (line : Str) (item : Str × Str × Str)
    (h : acceptedItem line = some item) :
    ∃ label target desc : Str, linkRegex line = some (label, target, desc) ∧
      stringsHasPrefix (stringsTrimSpace target) githubPrefix = true ∧
      item = (stringsTrimSpace label, stringsTrimSpace target, stringsTrimSpace desc) := by
  unfold acceptedItem at h
  split at h
  · exact Option.noConfusion h
  · cases hr : linkRegex line with
    | none => rw [hr] at h; exact Option.noConfusion h
    | some g =>
      obtain ⟨label, target, desc⟩ := g
      rw [hr] at h
      simp only at h
      by_cases hp : stringsHasPrefix (stringsTrimSpace target) githubPrefix = true
      · rw [if_pos hp] at h
        exact ⟨label, target, desc, rfl, hp, (Option.some.inj h).symm⟩
      · rw [if_neg hp] at h
        exact Option.noConfusion h

theorem parseLines_mem (tbl : Char → Char) (cur : Str) (lines : List Str) :
    ∀ p ∈ parseLines tbl cur lines,
      ∃ (c line : Str) (item : Str × Str × Str), line ∈ lines ∧ acceptedItem line = some item ∧
        p = mkPlugin tbl c item.1 item.2.1 item.2.2 := by
  induction lines generalizing cur with
  | nil => intro p hp; simp [parseLines] at hp
  | cons line rest ih =>
    have hlift : ∀ (c0 : Str) (p : Plugin), p ∈ parseLines tbl c0 rest →
        ∃ (c l : Str) (item : Str × Str × Str), l ∈ line :: rest ∧ acceptedItem l = some item ∧
          p = mkPlugin tbl c item.1 item.2.1 item.2.2 := by
      intro c0 p hp
      obtain ⟨c, l, item, hl, hi, he⟩ := ih c0 p hp
      exact ⟨c, l, item, List.mem_cons_of_mem _ hl, hi, he⟩
    cases hp : stringsHasPrefix line "### ".toList with
    | true =>
      rw [parseLines_cons_heading tbl cur line rest hp]
      exact hlift _
    | false =>
      cases hi : acceptedItem line with
      | none =>
        rw [parseLines_cons_skip tbl cur line rest hp hi]
        exact hlift _
      | some item =>
        rw [parseLines_cons_item tbl cur line rest item hi]
        intro p hmem
        rcases List.mem_cons.1 hmem with rfl | hmem
        · exact ⟨cur, line, item, List.mem_cons_self _ _, hi, rfl⟩
        · exact hlift cur p hmem

theorem trim_eq_nil_iff (p : Char → Bool) (s : Str) :
    ((s.dropWhile p).reverse.dropWhile p).reverse = [] ↔ ∀ c ∈ s, p c = true := by
  rw [List.reverse_eq_nil_iff, List.dropWhile_eq_nil_iff]
  constructor
  · intro h
    have hnil : s.dropWhile p = [] := by
      cases hd : s.dropWhile p with
      | nil => rfl
      | cons a t =>
        have h1 := List.head?_dropWhile_not p s
        rw [hd] at h1 h
        simp only [List.head?_cons] at h1
        have h2 := h a (by simp)
        rw [h1] at h2
        exact Bool.noConfusion h2
    exact List.dropWhile_eq_nil_iff.1 hnil
  · intro h x hx
    rw [List.dropWhile_eq_nil_iff.2 h] at hx
    simp at hx

/-- A record of `parseScanned` has as author the first path segment of its
repository, and is official exactly when that author, lower-cased, contains `anthropic` or
contains `modelcontextprotocol`. -/
theorem parseScanned_official (tbl : Char → Char) (lines : List Str) (p : Plugin)
    (hp : p ∈ parseScanned tbl lines) :
    p.Author = extractAuthor p.Repository ∧
      (p.Official = true ↔
        stringsContains (stringsToLower tbl p.Author) "anthropic".toList = true ∨
        stringsContains (stringsToLower tbl p.Author) "modelcontextprotocol".toList = true) := by
  obtain ⟨c, line, item, _, _, rfl⟩ := parseLines_mem tbl _ lines p hp
  refine ⟨rfl, ?_⟩
  show (stringsContains (stringsToLower tbl (extractAuthor item.2.1)) "anthropic".toList ||
      stringsContains (stringsToLower tbl (extractAuthor item.2.1))
        "modelcontextprotocol".toList) = true ↔ _
  rw [Bool.or_eq_true]
  rfl

/-- The name of a record of `parseScanned` is the trimmed label of its
line, a label that is not empty; the name is non-empty exactly when the label holds a
character that is not white space. -/
theorem parseScanned_name (tbl : Char → Char) (lines : List Str) (p : Plugin)
    (hp : p ∈ parseScanned tbl lines) :
    ∃ line label target desc : Str, line ∈ lines ∧
      linkRegex line = some (label, target, desc) ∧ label ≠ [] ∧
      p.Name = stringsTrimSpace label ∧
      (p.Name ≠ [] ↔ ∃ c ∈ label, isSpace c = false) := by
  obtain ⟨c, line, item, hl, hi, rfl⟩ := parseLines_mem tbl _ lines p hp
  obtain ⟨label, target, desc, hr, _, rfl⟩ := acceptedItem_some line item hi
  obtain ⟨_, _, _, _, _, _, _, _, hne, _⟩ := linkRegex_sound line label target desc hr
  refine ⟨line, label, target, desc, hl, hr, hne, rfl, ?_⟩
  show stringsTrimSpace label ≠ [] ↔ _
  unfold stringsTrimSpace
  rw [Ne, trim_eq_nil_iff]
  constructor
  · intro h
    by_contra hcon
    apply h
    intro x hx
    cases hs : isSpace x with
    | true => rfl
    | false => exact absurd ⟨x, hx, hs⟩ hcon
  · rintro ⟨x, hx, hs⟩ h
    rw [h x hx] at hs
    exact Bool.noConfusion hs

/-! ## Membership in a merge -/

theorem nodup_repositories_mergePlugins (iter : List (Str × Plugin) → List (Str × Plugin))
    (hiter : IsMapIteration iter) (E C : List Plugin) :
    ((mergePlugins iter E C).map (fun p => p.Repository)).Nodup := by
  have hp : (mergePlugins iter E C).Perm ((pluginMap E C).map Prod.snd) :=
    (hiter (pluginMap E C)).map Prod.snd
  rw [(hp.map (fun p => p.Repository)).nodup_iff, keys_pluginMap]
  exact (mapInv_pluginMap E C).1

theorem mem_mergePlugins (iter : List (Str × Plugin) → List (Str × Plugin))
    (hiter : IsMapIteration iter) (E C : List Plugin) (x : Plugin)
    (hx : x ∈ mergePlugins iter E C) : x ∈ E ++ C := by
  have hf : x ∈ (mergePlugins iter E C).filter (fun p => decide (p.Repository = x.Repository)) :=
    List.mem_filter.2 ⟨hx, by simp⟩
  rw [filter_mergePlugins iter hiter] at hf
  cases hl : ((E ++ C).filter (fun p => decide (p.Repository = x.Repository))).getLast? with
  | none => rw [hl] at hf; simp at hf
  | some y =>
    rw [hl] at hf
    simp only [Option.toList_some, List.mem_singleton] at hf
    subst hf
    exact (List.mem_filter.1 (List.mem_of_getLast?_eq_some hl)).1

theorem filter_repository_of_nodup (l : List Plugin) (x : Plugin) (hx : x ∈ l)
    (hnd : (l.map (fun p => p.Repository)).Nodup) :
    l.filter (fun p => decide (p.Repository = x.Repository)) = [x] := by
  induction l with
  | nil => simp at hx
  | cons a t ih =>
    simp only [List.map_cons, List.nodup_cons] at hnd
    rcases List.mem_cons.1 hx with rfl | hx
    · have hnil : t.filter (fun p => decide (p.Repository = x.Repository)) = [] := by
        rw [List.filter_eq_nil_iff]
        intro p hp
        simp only [decide_eq_true_eq]
        intro h
        exact hnd.1 (List.mem_map.2 ⟨p, hp, h⟩)
      rw [List.filter_cons_of_pos (by simp), hnil]
    · have hne : ¬ a.Repository = x.Repository := by
        intro h
        exact hnd.1 (List.mem_map.2 ⟨x, hx, h.symm⟩)
      rw [List.filter_cons_of_neg (by simpa using hne)]
      exact ih hx hnd.2

theorem mem_mergePlugins_of_custom (iter : List (Str × Plugin) → List (Str × Plugin))
    (hiter : IsMapIteration iter) (E C : List Plugin) (x : Plugin) (hx : x ∈ C)
    (hnd : (C.map (fun p => p.Repository)).Nodup) : x ∈ mergePlugins iter E C := by
  have hf := filter_mergePlugins iter hiter E C x.Repository
  rw [List.filter_append, filter_repository_of_nodup C x hx hnd, List.getLast?_append] at hf
  simp only [List.getLast?_singleton, Option.or_some, Option.toList_some] at hf
  have hmem : x ∈ (mergePlugins iter E C).filter
      (fun p => decide (p.Repository = x.Repository)) := by
    rw [hf]
    exact List.mem_singleton.2 rfl
  exact (List.mem_filter.1 hmem).1

theorem parseScanned_identity (tbl : Char → Char) (lines : List Str) (p : Plugin)
    (hp : p ∈ parseScanned tbl lines) :
    p.ID = generateID tbl p.Name p.Repository ∧ p.Author = extractAuthor p.Repository := by
  obtain ⟨c, line, item, _, _, rfl⟩ := parseLines_mem tbl _ lines p hp
  exact ⟨rfl, rfl⟩

/-! ## The override records in a run of `main` -/

theorem loadCustomPlugins_repository (tbl : Char → Char) (decoded : List Plugin) :
    (loadCustomPlugins tbl decoded).map (fun p => p.Repository) =
      decoded.map (fun p => p.Repository) := by
  unfold loadCustomPlugins
  rw [List.map_map]
  apply List.map_congr_left
  intro p _
  simp only [Function.comp]
  split_ifs <;> rfl

theorem enrichFrom_repository (tbl : Char → Char) (fetch : Nat → Str → Option GitHubRepo)
    (k : Nat) (ps : List Plugin) :
    (enrichFrom tbl fetch k ps).map (fun p => p.Repository) = ps.map (fun p => p.Repository) := by
  induction ps generalizing k with
  | nil => rfl
  | cons p ps ih =>
    simp only [enrichFrom, List.map_cons, ih]
    rw [(enrichOne_frame tbl _ p).2.2.2.2.2.1]

theorem enrichPlugins_repository (tbl : Char → Char) (fetch : Nat → Str → Option GitHubRepo)
    (ps : List Plugin) :
    (enrichPlugins tbl fetch ps).map (fun p => p.Repository) = ps.map (fun p => p.Repository) :=
  enrichFrom_repository tbl fetch 0 ps

/-- In a run of `main` with an override set of pairwise distinct
repositories, the final record set contains for each override record `o` as loaded the
record the enricher makes of it: id, name, description, category, tags, repository, author,
verified and official are those of `o`; install type and package are recomputed (`manual`
and empty when the fetch fails, every other field then being that of `o`), and stars,
language and update time are the fetched ones when the fetch succeeds. -/
theorem mainSequence_override_records (tbl : Char → Char)
    (fetchCatalog fetchCustom : Nat → Str → Option GitHubRepo)
    (iter : List (Str × Plugin) → List (Str × Plugin)) (hiter : IsMapIteration iter)
    (srt : (Plugin → Plugin → Bool) → List Plugin → List Plugin) (hsrt : IsSliceSort srt)
    (lines : List Str) (decoded : List Plugin)
    (hnd : (decoded.map (fun p => p.Repository)).Nodup) (i : Nat) (o : Plugin)
    (ho : (loadCustomPlugins tbl decoded)[i]? = some o) :
    ∃ q, q ∈ mainSequence tbl fetchCatalog fetchCustom iter srt lines (some decoded) ∧
      q = enrichOne tbl (fetchCustom i (cleanRepoPath o.Repository)) o ∧
      q.ID = o.ID ∧ q.Name = o.Name ∧ q.Description = o.Description ∧
      q.Category = o.Category ∧ q.Tags = o.Tags ∧ q.Repository = o.Repository ∧
      q.Author = o.Author ∧ q.Verified = o.Verified ∧ q.Official = o.Official ∧
      (fetchCustom i (cleanRepoPath o.Repository) = none →
        q = { o with InstallType := "manual".toList, Package := [] }) ∧
      (∀ gh, fetchCustom i (cleanRepoPath o.Repository) = some gh →
        q.Stars = gh.StargazersCount ∧ q.Language = gh.Language ∧ q.UpdatedAt = gh.PushedAt) := by
  obtain ⟨h1, h2, h3, h4, h5, h6, h7, h8, h9⟩ :=
    enrichOne_frame tbl (fetchCustom i (cleanRepoPath o.Repository)) o
  refine ⟨_, ?_, rfl, h1, h2, h3, h4, h5, h6, h7, h8, h9, ?_, ?_⟩
  · have hget := enrichPlugins_getElem? tbl fetchCustom (loadCustomPlugins tbl decoded) i o ho
    have hmemC := List.getElem?_mem hget
    have hndC : ((enrichPlugins tbl fetchCustom (loadCustomPlugins tbl decoded)).map
        (fun p => p.Repository)).Nodup := by
      rw [enrichPlugins_repository, loadCustomPlugins_repository]
      exact hnd
    have hmerge := mem_mergePlugins_of_custom iter hiter
      (enrichPlugins tbl fetchCatalog (parseScanned tbl lines)) _ _ hmemC hndC
    have hperm := (hsrt pluginLess pluginLess_irrefl pluginLess_trans pluginLess_negTrans
      (mergePlugins iter (enrichPlugins tbl fetchCatalog (parseScanned tbl lines))
        (enrichPlugins tbl fetchCustom (loadCustomPlugins tbl decoded)))).1
    exact hperm.symm.subset hmerge
  · intro hfail
    rw [hfail]
    rfl
  · intro gh hgh
    rw [hgh]
    unfold enrichOne
    simp only
    split
    · exact ⟨rfl, rfl, rfl⟩
    · exact ⟨rfl, rfl, rfl⟩

/-! ## Running `main` again on its own output -/

theorem enrichFrom_const (tbl : Char → Char) (f : Str → Option GitHubRepo) (k : Nat)
    (ps : List Plugin) :
    enrichFrom tbl (fun _ path => f path) k ps =
      ps.map (fun p => enrichOne tbl (f (cleanRepoPath p.Repository)) p) := by
  induction ps generalizing k with
  | nil => rfl
  | cons p ps ih => simp only [enrichFrom, List.map_cons, ih]

theorem enrichOne_idem (tbl : Char → Char) (outcome : Option GitHubRepo) (p : Plugin) :
    enrichOne tbl outcome (enrichOne tbl outcome p) = enrichOne tbl outcome p := by
  cases outcome with
  | none => rfl
  | some gh =>
    by_cases h : stringsContains (cleanRepoPath p.Repository)
        "modelcontextprotocol/servers".toList = true
    · have e1 : enrichOne tbl (some gh) p =
          { p with
            Stars := gh.StargazersCount
            Language := gh.Language
            License := (match gh.License with
              | some spdx => spdx
              | none => p.License)
            UpdatedAt := gh.PushedAt
            InstallType := "manual".toList
            Package :=
              if (detectInstallType tbl gh.Language (cleanRepoPath p.Repository)).2 = [] then
                "modelcontextprotocol/servers".toList
              else (detectInstallType tbl gh.Language (cleanRepoPath p.Repository)).2 } := by
        unfold enrichOne
        simp only
        rw [if_pos h]
      rw [e1]
      unfold enrichOne
      simp only
      rw [if_pos h]
      cases gh.License <;> rfl
    · have e1 : enrichOne tbl (some gh) p =
          { p with
            Stars := gh.StargazersCount
            Language := gh.Language
            License := (match gh.License with
              | some spdx => spdx
              | none => p.License)
            UpdatedAt := gh.PushedAt
            InstallType := (detectInstallType tbl gh.Language (cleanRepoPath p.Repository)).1
            Package := (detectInstallType tbl gh.Language (cleanRepoPath p.Repository)).2 } := by
        unfold enrichOne
        simp only
        rw [if_neg h]
      rw [e1]
      unfold enrichOne
      simp only
      rw [if_neg h]
      cases gh.License <;> rfl

theorem loadCustomPlugins_fixed (tbl : Char → Char) (D : List Plugin)
    (h : ∀ q ∈ D, q.ID = generateID tbl q.Name q.Repository ∧
      q.Author = extractAuthor q.Repository) : loadCustomPlugins tbl D = D := by
  unfold loadCustomPlugins
  conv_rhs => rw [← List.map_id D]
  apply List.map_congr_left
  intro q hq
  obtain ⟨h1, h2⟩ := h q hq
  have e1 : (if q.ID = [] then { q with ID := generateID tbl q.Name q.Repository } else q) = q := by
    split_ifs with h0
    · rw [← h1]
    · rfl
  simp only [e1, id]
  split_ifs with h0
  · rw [← h2]
  · rfl

theorem perm_mergePlugins_self (iter : List (Str × Plugin) → List (Str × Plugin))
    (hiter : IsMapIteration iter) (E D : List Plugin) (hperm : D.Perm E)
    (hnd : (E.map (fun p => p.Repository)).Nodup) : (mergePlugins iter E D).Perm E := by
  have hndD : (D.map (fun p => p.Repository)).Nodup :=
    ((hperm.map (fun p => p.Repository)).nodup_iff).2 hnd
  rw [List.perm_ext_iff_of_nodup
    (List.Nodup.of_map _ (nodup_repositories_mergePlugins iter hiter E D))
    (List.Nodup.of_map _ hnd)]
  intro x
  constructor
  · intro hx
    rcases List.mem_append.1 (mem_mergePlugins iter hiter E D x hx) with h | h
    · exact h
    · exact hperm.subset h
  · intro hx
    exact mem_mergePlugins_of_custom iter hiter E D x (hperm.symm.subset hx) hndD

theorem sortSlice_perm_eq (srt : (Plugin → Plugin → Bool) → List Plugin → List Plugin)
    (hsrt : IsSliceSort srt) (l1 l2 : List Plugin) (hp : l1.Perm l2)
    (hkeys : ∀ x ∈ l2, ∀ y ∈ l2, x ≠ y →
      x.Official ≠ y.Official ∨ x.Stars ≠ y.Stars ∨ x.Name ≠ y.Name) :
    srt pluginLess l1 = srt pluginLess l2 := by
  have hc := hsrt pluginLess pluginLess_irrefl pluginLess_trans pluginLess_negTrans
  refine sorted_perm_unique pluginLess _ _
    (((hc l1).1.trans hp).trans (hc l2).1.symm) (hc l1).2 (hc l2).2 ?_
  intro x hx y hy hne
  exact pluginLess_total_on_keys x y
    (hkeys x ((hc l2).1.subset hx) y ((hc l2).1.subset hy) hne)

/-- With the metadata fetch a fixed function of the normalized path, for a
catalog whose extracted records have pairwise distinct repositories and whose enriched
records have pairwise distinct official flag, stars and name, a second run with the emitted
sequence `D` of a run without override file loaded as override set emits `D` again.  The
document written from `D` decodes to the records of `D`, so `D` itself is the decoded
override set. -/
theorem mainSequence_rerun_idempotent (tbl : Char → Char) (f : Str → Option GitHubRepo)
    (iter : List (Str × Plugin) → List (Str × Plugin)) (hiter : IsMapIteration iter)
    (srt : (Plugin → Plugin → Bool) → List Plugin → List Plugin) (hsrt : IsSliceSort srt)
    (lines : List Str)
    (hrepo : ((parseScanned tbl lines).map (fun p => p.Repository)).Nodup)
    (hkeys : ∀ x ∈ enrichPlugins tbl (fun _ path => f path) (parseScanned tbl lines),
      ∀ y ∈ enrichPlugins tbl (fun _ path => f path) (parseScanned tbl lines), x ≠ y →
        x.Official ≠ y.Official ∨ x.Stars ≠ y.Stars ∨ x.Name ≠ y.Name) :
    mainSequence tbl (fun _ path => f path) (fun _ path => f path) iter srt lines
        (some (mainSequence tbl (fun _ path => f path) (fun _ path => f path) iter srt lines none)) =
      mainSequence tbl (fun _ path => f path) (fun _ path => f path) iter srt lines none := by
  have hc := hsrt pluginLess pluginLess_irrefl pluginLess_trans pluginLess_negTrans
  have hE : enrichPlugins tbl (fun _ path => f path) (parseScanned tbl lines) =
      (parseScanned tbl lines).map
        (fun p => enrichOne tbl (f (cleanRepoPath p.Repository)) p) :=
    enrichFrom_const tbl f 0 _
  have hD : mainSequence tbl (fun _ path => f path) (fun _ path => f path) iter srt lines none =
      srt pluginLess (enrichPlugins tbl (fun _ path => f path) (parseScanned tbl lines)) := rfl
  have hrun2 : ∀ D : List Plugin,
      mainSequence tbl (fun _ path => f path) (fun _ path => f path) iter srt lines (some D) =
      srt pluginLess (mergePlugins iter
        (enrichPlugins tbl (fun _ path => f path) (parseScanned tbl lines))
        (enrichPlugins tbl (fun _ path => f path) (loadCustomPlugins tbl D))) := fun _ => rfl
  rw [hrun2, hD]
  generalize hEdef : enrichPlugins tbl (fun _ path => f path) (parseScanned tbl lines) = E
    at hE hkeys
  have hpermD : (srt pluginLess E).Perm E := (hc E).1
  have hprov : ∀ q ∈ srt pluginLess E, ∃ p ∈ parseScanned tbl lines,
      q = enrichOne tbl (f (cleanRepoPath p.Repository)) p := by
    intro q hq
    have hqE := hpermD.subset hq
    rw [hE] at hqE
    obtain ⟨p, hp, rfl⟩ := List.mem_map.1 hqE
    exact ⟨p, hp, rfl⟩
  have hload : loadCustomPlugins tbl (srt pluginLess E) = srt pluginLess E := by
    apply loadCustomPlugins_fixed
    intro q hq
    obtain ⟨p, hp, rfl⟩ := hprov q hq
    obtain ⟨h1, h2, _, _, _, h6, h7, _, _⟩ :=
      enrichOne_frame tbl (f (cleanRepoPath p.Repository)) p
    obtain ⟨i1, i2⟩ := parseScanned_identity tbl lines p hp
    rw [h1, h2, h6, h7]
    exact ⟨i1, i2⟩
  have henrich : enrichPlugins tbl (fun _ path => f path) (srt pluginLess E) =
      srt pluginLess E := by
    unfold enrichPlugins
    rw [enrichFrom_const]
    conv_rhs => rw [← List.map_id (srt pluginLess E)]
    apply List.map_congr_left
    intro q hq
    obtain ⟨p, hp, rfl⟩ := hprov q hq
    rw [(enrichOne_frame tbl (f (cleanRepoPath p.Repository)) p).2.2.2.2.2.1, enrichOne_idem]
    rfl
  rw [hload, henrich]
  have hndE : (E.map (fun p => p.Repository)).Nodup := by
    rw [← hEdef, enrichPlugins_repository]
    exact hrepo
  exact sortSlice_perm_eq srt hsrt _ _
    (perm_mergePlugins_self iter hiter E (srt pluginLess E) hpermD hndE) hkeys

/-! ## `cleanRepoPath` -/

/-- C12 fails on the code: in `acme/foo/blob/tree/README.md` the earliest marker is `/blob/`
at position 8, so the claim gives `acme/foo`; `cleanRepoPath` cuts at `/tree/` first, which
removes the closing slash of `/blob/`, and returns `acme/foo/blob`. -/
theorem cleanRepoPath_blob_tree_overlap :
    stringsTrimSuffix (stringsTrimPrefix blobTreeURL githubPrefix) "/".toList =
        "acme/foo/blob/tree/README.md".toList ∧
      stringsIndex "acme/foo/blob/tree/README.md".toList "/blob/".toList = some 8 ∧
      stringsIndex "acme/foo/blob/tree/README.md".toList "/tree/".toList = some 13 ∧
      cutAtEarliestMarker blobTreeURL = "acme/foo".toList ∧
      cleanRepoPath blobTreeURL = "acme/foo/blob".toList ∧
      cleanRepoPath blobTreeURL ≠ cutAtEarliestMarker blobTreeURL := by
  refine ⟨by decide, by decide, by decide, by decide, by decide, by decide⟩

theorem stringsIndex_cons (c : Char) (s sub : Str) :
    stringsIndex (c :: s) sub =
      if sub.isPrefixOf (c :: s) then some 0 else (stringsIndex s sub).map (fun i => i + 1) := by
  rw [stringsIndex.eq_def]

theorem stringsIndex_of_isPrefixOf (s sub : Str) (h : sub.isPrefixOf s = true) :
    stringsIndex s sub = some 0 := by
  rw [stringsIndex.eq_def, if_pos h]

theorem stringsIndex_nil (c : Char) (sub : Str) : stringsIndex [] (c :: sub) = none := by
  rw [stringsIndex.eq_def]
  simp [List.isPrefixOf]

theorem stringsIndex_skip (w t sub : Str) (hw : '/' ∉ w) :
    stringsIndex (w ++ t) ('/' :: sub) =
      (stringsIndex t ('/' :: sub)).map (fun i => i + w.length) := by
  induction w with
  | nil => simp
  | cons c w ih =>
    have hc : ('/' == c) = false := by
      rw [beq_eq_false_iff_ne]
      intro h
      exact hw (h ▸ List.mem_cons_self _ _)
    have hpre : ('/' :: sub).isPrefixOf (c :: (w ++ t)) = false := by
      simp [List.isPrefixOf, hc]
    rw [List.cons_append, stringsIndex_cons, hpre, ih (fun h => hw (List.mem_cons_of_mem _ h)),
      Option.map_map]
    simp only [Bool.false_eq_true, if_false, List.length_cons]
    congr 1

theorem isPrefixOf_segment (w name x : Str) (hn : '/' ∉ name) (hw : '/' ∉ w) (hne : name ≠ w) :
    (w ++ ['/']).isPrefixOf (name ++ '/' :: x) = false := by
  induction w generalizing name with
  | nil =>
    cases name with
    | nil => exact absurd rfl hne
    | cons a r =>
      have ha : ('/' == a) = false := by
        rw [beq_eq_false_iff_ne]
        intro h
        exact hn (h ▸ List.mem_cons_self _ _)
      simp [List.isPrefixOf, ha]
  | cons c w ih =>
    cases name with
    | nil =>
      have hc : (c == '/') = false := by
        rw [beq_eq_false_iff_ne]
        intro h
        exact hw (h ▸ List.mem_cons_self _ _)
      simp [List.isPrefixOf, hc]
    | cons a r =>
      by_cases hca : c = a
      · subst hca
        have hr : r ≠ w := fun h => hne (by rw [h])
        have := ih r (fun h => hn (List.mem_cons_of_mem _ h))
          (fun h => hw (List.mem_cons_of_mem _ h)) hr
        simp [List.isPrefixOf, this]
      · have hb : (c == a) = false := beq_eq_false_iff_ne.2 hca
        simp [List.isPrefixOf, hb]

theorem isPrefixOf_no_slash (w name : Str) (hn : '/' ∉ name) :
    (w ++ ['/']).isPrefixOf name = false := by
  induction w generalizing name with
  | nil =>
    cases name with
    | nil => rfl
    | cons a r =>
      have ha : ('/' == a) = false := by
        rw [beq_eq_false_iff_ne]
        intro h
        exact hn (h ▸ List.mem_cons_self _ _)
      simp [List.isPrefixOf, ha]
  | cons c w ih =>
    cases name with
    | nil => rfl
    | cons a r =>
      have := ih r (fun h => hn (List.mem_cons_of_mem _ h))
      simp [List.isPrefixOf, this]

theorem stringsIndex_two_segments (owner name w t : Str) (ho : '/' ∉ owner) (hn : '/' ∉ name)
    (hw : '/' ∉ w) (hne : name ≠ w) :
    stringsIndex (owner ++ '/' :: (name ++ '/' :: t)) ('/' :: (w ++ ['/'])) =
      (stringsIndex ('/' :: t) ('/' :: (w ++ ['/']))).map
        (fun i => i + (owner ++ '/' :: name).length) := by
  have hpre : ('/' :: (w ++ ['/'])).isPrefixOf ('/' :: (name ++ '/' :: t)) = false := by
    have := isPrefixOf_segment w name t hn hw hne
    simp [List.isPrefixOf, this]
  rw [stringsIndex_skip owner _ _ ho, stringsIndex_cons, hpre]
  simp only [Bool.false_eq_true, if_false]
  rw [stringsIndex_skip name _ _ hn, Option.map_map, Option.map_map]
  congr 1
  funext i
  simp only [Function.comp, List.length_append, List.length_cons]
  omega

theorem stringsIndex_owner_name (owner name w : Str) (ho : '/' ∉ owner) (hn : '/' ∉ name) :
    stringsIndex (owner ++ '/' :: name) ('/' :: (w ++ ['/'])) = none := by
  have hpre : ('/' :: (w ++ ['/'])).isPrefixOf ('/' :: name) = false := by
    have := isPrefixOf_no_slash w name hn
    simp [List.isPrefixOf, this]
  rw [stringsIndex_skip owner _ _ ho, stringsIndex_cons, hpre]
  simp only [Bool.false_eq_true, if_false]
  have h2 := stringsIndex_skip name [] (w ++ ['/']) hn
  rw [List.append_nil, stringsIndex_nil] at h2
  rw [h2]
  rfl

theorem stringsTrimPrefix_append (x : Str) :
    stringsTrimPrefix (githubPrefix ++ x) githubPrefix = x := by
  unfold stringsTrimPrefix stringsHasPrefix
  rw [if_pos (List.isPrefixOf_iff_prefix.2 (List.prefix_append _ _)), List.drop_left]

theorem isSuffixOf_slash (l : Str) :
    ['/'].isSuffixOf l = (l.getLast? == some '/') := by
  unfold List.isSuffixOf
  rw [List.getLast?_eq_head?_reverse]
  cases l.reverse with
  | nil => rfl
  | cons h t =>
    simp only [List.reverse_cons, List.reverse_nil, List.nil_append, List.isPrefixOf,
      Bool.and_true, List.head?_cons]
    by_cases hh : h = '/'
    · subst hh; rfl
    · have h1 : ('/' == h) = false := beq_eq_false_iff_ne.2 (fun e => hh e.symm)
      have h2 : (some h == some '/') = false := by
        rw [beq_eq_false_iff_ne]
        intro e
        exact hh (Option.some.inj e)
      rw [h1, h2]

theorem stringsTrimSuffix_append (a rest : Str) (hrest : rest ≠ []) :
    stringsTrimSuffix (a ++ rest) "/".toList = a ++ stringsTrimSuffix rest "/".toList := by
  have hlast : (a ++ rest).getLast? = rest.getLast? := by
    rw [List.getLast?_append]
    cases h : rest.getLast? with
    | none => exact absurd (List.getLast?_eq_none_iff.1 h) hrest
    | some c => rfl
  have hlen : 0 < rest.length := List.length_pos.2 hrest
  unfold stringsTrimSuffix
  show (if ['/'].isSuffixOf (a ++ rest) = true then _ else _) =
    a ++ (if ['/'].isSuffixOf rest = true then _ else _)
  rw [isSuffixOf_slash, isSuffixOf_slash, hlast]
  by_cases h : (rest.getLast? == some '/') = true
  · rw [if_pos h, if_pos h, show "/".toList.length = 1 from rfl,
      List.take_append_eq_append_take]
    have e1 : (a ++ rest).length - 1 - a.length = rest.length - 1 := by
      simp only [List.length_append]
      omega
    have e2 : a.length ≤ (a ++ rest).length - 1 := by
      simp only [List.length_append]
      omega
    rw [e1, List.take_of_length_le e2]
  · rw [if_neg h, if_neg h]

theorem stringsTrimSuffix_isPrefix (rest : Str) :
    stringsTrimSuffix rest "/".toList <+: rest := by
  unfold stringsTrimSuffix
  split
  · exact List.take_prefix _ _
  · exact List.prefix_refl _

theorem cleanRepoPath_steps (u p p1 r : Str)
    (h1 : stringsTrimSuffix (stringsTrimPrefix u githubPrefix) "/".toList = p)
    (h2 : (match stringsIndex p "/tree/".toList with
      | some idx => p.take idx
      | none => p) = p1)
    (h3 : (match stringsIndex p1 "/blob/".toList with
      | some idx => p1.take idx
      | none => p1) = r) : cleanRepoPath u = r := by
  rw [← h3, ← h2, ← h1]
  rfl

theorem take_owner_name (owner name t : Str) :
    (owner ++ '/' :: (name ++ t)).take (0 + (owner ++ '/' :: name).length) =
      owner ++ '/' :: name := by
  have e : owner ++ '/' :: (name ++ t) = (owner ++ '/' :: name) ++ t := by simp
  rw [e, Nat.zero_add, List.take_left]

theorem cut_at_marker (owner name w t : Str) (ho : '/' ∉ owner) (hn : '/' ∉ name)
    (hw : '/' ∉ w) (hne : name ≠ w) :
    (match stringsIndex (owner ++ '/' :: (name ++ '/' :: (w ++ '/' :: t)))
        ('/' :: (w ++ ['/'])) with
      | some idx => (owner ++ '/' :: (name ++ '/' :: (w ++ '/' :: t))).take idx
      | none => owner ++ '/' :: (name ++ '/' :: (w ++ '/' :: t))) = owner ++ '/' :: name := by
  have hpre : ('/' :: (w ++ ['/'])).isPrefixOf ('/' :: (w ++ '/' :: t)) = true := by
    rw [List.isPrefixOf_iff_prefix]
    exact ⟨t, by simp⟩
  rw [stringsIndex_two_segments owner name w _ ho hn hw hne,
    stringsIndex_of_isPrefixOf _ _ hpre]
  exact take_owner_name owner name _

theorem keep_without_marker (owner name w : Str) (ho : '/' ∉ owner) (hn : '/' ∉ name) :
    (match stringsIndex (owner ++ '/' :: name) ('/' :: (w ++ ['/'])) with
      | some idx => (owner ++ '/' :: name).take idx
      | none => owner ++ '/' :: name) = owner ++ '/' :: name := by
  rw [stringsIndex_owner_name owner name w ho hn]

theorem cut_tree_after_blob (owner name rest : Str) (ho : '/' ∉ owner) (hn : '/' ∉ name)
    (hne : name ≠ "tree".toList) (hrest : ¬ ("tree/".toList <+: rest)) :
    ∃ r : Str,
      (match stringsIndex (owner ++ '/' :: (name ++ '/' :: ("blob".toList ++ '/' :: rest)))
          "/tree/".toList with
        | some idx => (owner ++ '/' :: (name ++ '/' :: ("blob".toList ++ '/' :: rest))).take idx
        | none => owner ++ '/' :: (name ++ '/' :: ("blob".toList ++ '/' :: rest))) =
        owner ++ '/' :: (name ++ '/' :: ("blob".toList ++ '/' :: r)) := by
  have hidx : stringsIndex (owner ++ '/' :: (name ++ '/' :: ("blob".toList ++ '/' :: rest)))
      "/tree/".toList =
      (stringsIndex rest "/tree/".toList).map
        (fun i => i + (owner ++ '/' :: (name ++ '/' :: ("blob".toList ++ ['/']))).length) := by
    have h0 : "/tree/".toList = '/' :: ("tree".toList ++ ['/']) := rfl
    have hp1 : ('/' :: ("tree".toList ++ ['/'])).isPrefixOf
        ('/' :: ("blob".toList ++ '/' :: rest)) = false := rfl
    have hp2 : ('/' :: ("tree".toList ++ ['/'])).isPrefixOf ('/' :: rest) = false := by
      cases hb : ('/' :: ("tree".toList ++ ['/'])).isPrefixOf ('/' :: rest) with
      | false => rfl
      | true =>
        rw [List.isPrefixOf_iff_prefix] at hb
        exact absurd ((List.cons_prefix_cons.1 hb).2) hrest
    rw [h0, stringsIndex_two_segments owner name "tree".toList _ ho hn (by decide) hne,
      stringsIndex_cons, hp1]
    simp only [Bool.false_eq_true, if_false]
    rw [stringsIndex_skip "blob".toList _ _ (by decide), stringsIndex_cons, hp2]
    simp only [Bool.false_eq_true, if_false, Option.map_map]
    congr 1
    funext i
    simp only [Function.comp, List.length_append, List.length_cons, List.length_nil]
    have : "blob".toList.length = 4 := rfl
    omega
  rw [hidx]
  cases hk : stringsIndex rest "/tree/".toList with
  | none => exact ⟨rest, rfl⟩
  | some k =>
    refine ⟨rest.take k, ?_⟩
    simp only [Option.map_some']
    have e : owner ++ '/' :: (name ++ '/' :: ("blob".toList ++ '/' :: rest)) =
        (owner ++ '/' :: (name ++ '/' :: ("blob".toList ++ ['/']))) ++ rest := by simp
    rw [e, Nat.add_comm, List.take_append]
    simp

/-- C13, as amended: for an owner and a name without `/`, a name other than `tree` and a
non-empty `rest`, the URL `https://github.com/<owner>/<name>/tree/<rest>` is normalized to
`<owner>/<name>`; so is `https://github.com/<owner>/<name>/blob/<rest>` when moreover the
name is not `blob` and `rest` does not begin with `tree/`. -/
theorem cleanRepoPath_subdirectory (owner name rest : Str) (ho : '/' ∉ owner)
    (hn : '/' ∉ name) (hrest : rest ≠ []) (htree : name ≠ "tree".toList) :
    cleanRepoPath (githubPrefix ++ owner ++ "/".toList ++ name ++ "/tree/".toList ++ rest) =
        owner ++ "/".toList ++ name ∧
      (name ≠ "blob".toList → ¬ ("tree/".toList <+: rest) →
        cleanRepoPath (githubPrefix ++ owner ++ "/".toList ++ name ++ "/blob/".toList ++ rest) =
          owner ++ "/".toList ++ name) := by
  have hres : owner ++ "/".toList ++ name = owner ++ '/' :: name := by
    rw [List.append_assoc]
    rfl
  constructor
  · have hu : githubPrefix ++ owner ++ "/".toList ++ name ++ "/tree/".toList ++ rest =
        githubPrefix ++ ((owner ++ '/' :: (name ++ '/' :: ("tree".toList ++ ['/']))) ++ rest) := by
      simp only [List.append_assoc, List.cons_append, List.nil_append]
      rfl
    rw [hu, hres]
    refine cleanRepoPath_steps _
      (owner ++ '/' :: (name ++ '/' :: ("tree".toList ++ '/' ::
        stringsTrimSuffix rest "/".toList))) (owner ++ '/' :: name) _ ?_ ?_ ?_
    · rw [stringsTrimPrefix_append, stringsTrimSuffix_append _ _ hrest]
      simp
    · exact cut_at_marker owner name "tree".toList _ ho hn (by decide) htree
    · exact keep_without_marker owner name "blob".toList ho hn
  · intro hblob hnot
    have hu : githubPrefix ++ owner ++ "/".toList ++ name ++ "/blob/".toList ++ rest =
        githubPrefix ++ ((owner ++ '/' :: (name ++ '/' :: ("blob".toList ++ ['/']))) ++ rest) := by
      simp only [List.append_assoc, List.cons_append, List.nil_append]
      rfl
    have hnot2 : ¬ ("tree/".toList <+: stringsTrimSuffix rest "/".toList) :=
      fun h => hnot (h.trans (stringsTrimSuffix_isPrefix rest))
    obtain ⟨r, hr⟩ := cut_tree_after_blob owner name (stringsTrimSuffix rest "/".toList) ho hn
      htree hnot2
    rw [hu, hres]
    refine cleanRepoPath_steps _
      (owner ++ '/' :: (name ++ '/' :: ("blob".toList ++ '/' ::
        stringsTrimSuffix rest "/".toList)))
      (owner ++ '/' :: (name ++ '/' :: ("blob".toList ++ '/' :: r))) _ ?_ hr ?_
    · rw [stringsTrimPrefix_append, stringsTrimSuffix_append _ _ hrest]
      simp
    · exact cut_at_marker owner name "blob".toList _ ho hn (by decide) hblob

theorem cleanRepoPath_subdirectory_witness :
    '/' ∉ "acme".toList ∧ '/' ∉ "foo".toList ∧ "main/src".toList ≠ [] ∧
      "foo".toList ≠ "tree".toList ∧ "foo".toList ≠ "blob".toList ∧
      ¬ ("tree/".toList <+: "main/src".toList) ∧
      cleanRepoPath (githubPrefix ++ "acme".toList ++ "/".toList ++ "foo".toList ++
        "/tree/".toList ++ "main/src".toList) = "acme".toList ++ "/".toList ++ "foo".toList ∧
      cleanRepoPath (githubPrefix ++ "acme".toList ++ "/".toList ++ "foo".toList ++
        "/blob/".toList ++ "main/src".toList) = "acme".toList ++ "/".toList ++ "foo".toList := by
  have h1 : '/' ∉ "acme".toList := by decide
  have h2 : '/' ∉ "foo".toList := by decide
  have h3 : "main/src".toList ≠ [] := by decide
  have h4 : "foo".toList ≠ "tree".toList := by decide
  have h5 : "foo".toList ≠ "blob".toList := by decide
  have h6 : ¬ ("tree/".toList <+: "main/src".toList) := by
    rw [← List.isPrefixOf_iff_prefix]
    decide
  have h := cleanRepoPath_subdirectory "acme".toList "foo".toList "main/src".toList h1 h2 h3 h4
  exact ⟨h1, h2, h3, h4, h5, h6, h.1, h.2 h5 h6⟩

/-- C13, as stated, fails: with an empty `rest` the trailing slash is removed before the
marker is searched and `/tree` stays; a repository named `tree` is cut at its own name; and
`/blob/` followed by `tree/` is cut at `/tree/`, which leaves `/blob`. -/
theorem cleanRepoPath_subdirectory_failures :
    cleanRepoPath (githubPrefix ++ "acme".toList ++ "/".toList ++ "foo".toList ++
        "/tree/".toList ++ []) = "acme/foo/tree".toList ∧
      cleanRepoPath (githubPrefix ++ "acme".toList ++ "/".toList ++ "tree".toList ++
        "/tree/".toList ++ "main".toList) = "acme".toList ∧
      cleanRepoPath (githubPrefix ++ "acme".toList ++ "/".toList ++ "foo".toList ++
        "/blob/".toList ++ "tree/README.md".toList) = "acme/foo/blob".toList ∧
      "acme/foo/tree".toList ≠ "acme".toList ++ "/".toList ++ "foo".toList ∧
      "acme".toList ≠ "acme".toList ++ "/".toList ++ "tree".toList ∧
      "acme/foo/blob".toList ≠ "acme".toList ++ "/".toList ++ "foo".toList := by
  refine ⟨by decide, by decide, by decide, by decide, by decide, by decide⟩

/-! ## First occurrences -/

theorem stringsIndex_some (s sub : Str) (i : Nat) (h : stringsIndex s sub = some i) :
    sub <+: s.drop i ∧ ∀ j < i, ¬ sub <+: s.drop j := by
  induction s generalizing i with
  | nil =>
    rw [stringsIndex.eq_def] at h
    by_cases hp : sub.isPrefixOf [] = true
    · rw [if_pos hp] at h
      have hi : i = 0 := (Option.some.inj h).symm
      subst hi
      exact ⟨List.isPrefixOf_iff_prefix.1 hp, fun j hj => absurd hj (Nat.not_lt_zero j)⟩
    · rw [if_neg hp] at h
      exact Option.noConfusion h
  | cons c s ih =>
    rw [stringsIndex_cons] at h
    by_cases hp : sub.isPrefixOf (c :: s) = true
    · rw [if_pos hp] at h
      have hi : i = 0 := (Option.some.inj h).symm
      subst hi
      exact ⟨List.isPrefixOf_iff_prefix.1 hp, fun j hj => absurd hj (Nat.not_lt_zero j)⟩
    · rw [if_neg hp] at h
      cases hk : stringsIndex s sub with
      | none => rw [hk] at h; exact Option.noConfusion h
      | some k =>
        rw [hk] at h
        have hi : i = k + 1 := (Option.some.inj h).symm
        subst hi
        obtain ⟨h1, h2⟩ := ih k hk
        refine ⟨h1, fun j hj => ?_⟩
        cases j with
        | zero => exact fun hpre => hp (List.isPrefixOf_iff_prefix.2 hpre)
        | succ j => exact h2 j (by omega)

theorem stringsIndex_none (s sub : Str) (h : stringsIndex s sub = none) :
    ∀ j, ¬ sub <+: s.drop j := by
  induction s with
  | nil =>
    rw [stringsIndex.eq_def] at h
    by_cases hp : sub.isPrefixOf [] = true
    · rw [if_pos hp] at h
      exact Option.noConfusion h
    · intro j hpre
      rw [List.drop_nil] at hpre
      exact hp (List.isPrefixOf_iff_prefix.2 hpre)
  | cons c s ih =>
    rw [stringsIndex_cons] at h
    by_cases hp : sub.isPrefixOf (c :: s) = true
    · rw [if_pos hp] at h
      exact Option.noConfusion h
    · rw [if_neg hp] at h
      cases hk : stringsIndex s sub with
      | some k => rw [hk] at h; exact Option.noConfusion h
      | none =>
        intro j
        cases j with
        | zero => exact fun hpre => hp (List.isPrefixOf_iff_prefix.2 hpre)
        | succ j => exact ih hk j

theorem stringsIndex_of_least (s sub : Str) (i : Nat) (h1 : sub <+: s.drop i)
    (h2 : ∀ j < i, ¬ sub <+: s.drop j) : stringsIndex s sub = some i := by
  cases hk : stringsIndex s sub with
  | none => exact absurd h1 (stringsIndex_none s sub hk i)
  | some k =>
    obtain ⟨g1, g2⟩ := stringsIndex_some s sub k hk
    have : k = i := by
      rcases Nat.lt_trichotomy k i with hlt | heq | hgt
      · exact absurd g1 (h2 k hlt)
      · exact heq
      · exact absurd h1 (g2 i hgt)
    rw [this]

theorem stringsIndex_of_absent (s sub : Str) (h : ∀ j, ¬ sub <+: s.drop j) :
    stringsIndex s sub = none := by
  cases hk : stringsIndex s sub with
  | none => rfl
  | some k => exact absurd (stringsIndex_some s sub k hk).1 (h k)

theorem prefix_drop_take (s sub : Str) (n j : Nat) (hsub : sub ≠ []) :
    sub <+: (s.take n).drop j ↔ sub <+: s.drop j ∧ j + sub.length ≤ n := by
  have hlen : 0 < sub.length := List.length_pos.2 hsub
  rw [List.drop_take, List.prefix_take_iff]
  constructor
  · rintro ⟨h1, h2⟩
    exact ⟨h1, by omega⟩
  · rintro ⟨h1, h2⟩
    exact ⟨h1, by omega⟩

theorem stringsIndex_take_inside (s sub : Str) (n i : Nat) (hsub : sub ≠ [])
    (h : stringsIndex s sub = some i) (hin : i + sub.length ≤ n) :
    stringsIndex (s.take n) sub = some i := by
  obtain ⟨h1, h2⟩ := stringsIndex_some s sub i h
  apply stringsIndex_of_least
  · exact (prefix_drop_take s sub n i hsub).2 ⟨h1, hin⟩
  · intro j hj hpre
    exact h2 j hj ((prefix_drop_take s sub n j hsub).1 hpre).1

theorem stringsIndex_take_outside (s sub : Str) (n i : Nat) (hsub : sub ≠ [])
    (h : stringsIndex s sub = some i) (hout : n < i + sub.length) :
    stringsIndex (s.take n) sub = none := by
  obtain ⟨h1, h2⟩ := stringsIndex_some s sub i h
  apply stringsIndex_of_absent
  intro j hpre
  obtain ⟨g1, g2⟩ := (prefix_drop_take s sub n j hsub).1 hpre
  exact h2 j (by omega) g1

theorem stringsIndex_take_none (s sub : Str) (n : Nat) (hsub : sub ≠ [])
    (h : stringsIndex s sub = none) : stringsIndex (s.take n) sub = none := by
  apply stringsIndex_of_absent
  intro j hpre
  exact stringsIndex_none s sub h j ((prefix_drop_take s sub n j hsub).1 hpre).1

theorem tree_not_inside_blob (s : Str) (b k : Nat) (hb : "/blob/".toList <+: s.drop b)
    (hk : k ≤ 4) : ¬ "/tree/".toList <+: s.drop (b + k) := by
  obtain ⟨r, hr⟩ := hb
  rw [← List.drop_drop, ← hr]
  intro hpre
  have hfalse : "/tree/".toList.isPrefixOf (("/blob/".toList ++ r).drop k) = false := by
    rcases k with _ | _ | _ | _ | _ | k
    · rfl
    · rfl
    · rfl
    · rfl
    · rfl
    · omega
  rw [List.isPrefixOf_iff_prefix.2 hpre] at hfalse
  exact Bool.noConfusion hfalse

/-- Outside the overlap of the two markers, `cleanRepoPath` cuts at the earliest marker:
the two agree unless the first `/blob/` of the path is directly followed by `tree/`. -/
theorem cleanRepoPath_eq_cutAtEarliestMarker (u : Str)
    (hno : ∀ b, stringsIndex (stringsTrimSuffix (stringsTrimPrefix u githubPrefix) "/".toList)
        "/blob/".toList = some b →
      stringsIndex (stringsTrimSuffix (stringsTrimPrefix u githubPrefix) "/".toList)
        "/tree/".toList ≠ some (b + 5)) :
    cleanRepoPath u = cutAtEarliestMarker u := by
  unfold cutAtEarliestMarker earliestMarker
  simp only
  generalize hp : stringsTrimSuffix (stringsTrimPrefix u githubPrefix) "/".toList = p at hno
  have hB : "/blob/".toList ≠ [] := by decide
  cases ht : stringsIndex p "/tree/".toList with
  | none =>
    cases hb : stringsIndex p "/blob/".toList with
    | none =>
      refine cleanRepoPath_steps u p p p hp ?_ ?_
      · rw [ht]
      · rw [hb]
    | some b =>
      refine cleanRepoPath_steps u p p (p.take b) hp ?_ ?_
      · rw [ht]
      · rw [hb]
  | some t =>
    cases hb : stringsIndex p "/blob/".toList with
    | none =>
      refine cleanRepoPath_steps u p (p.take t) (p.take t) hp ?_ ?_
      · rw [ht]
      · rw [stringsIndex_take_none p _ t hB hb]
    | some b =>
      by_cases hin : b + 6 ≤ t
      · refine cleanRepoPath_steps u p (p.take t) (p.take (min t b)) hp ?_ ?_
        · rw [ht]
        · rw [stringsIndex_take_inside p _ t b hB hb hin]
          simp only
          rw [List.take_take, Nat.min_comm]
      · have htb : t ≤ b := by
          by_contra hlt
          have h1 := (stringsIndex_some p _ b hb).1
          have h2 := (stringsIndex_some p _ t ht).1
          have hk : ∃ k, t = b + k ∧ 1 ≤ k ∧ k ≤ 5 := ⟨t - b, by omega, by omega, by omega⟩
          obtain ⟨k, rfl, hk1, hk5⟩ := hk
          by_cases h5 : k = 5
          · subst h5
            exact hno b hb ht
          · exact tree_not_inside_blob p b k h1 (by omega) h2
        refine cleanRepoPath_steps u p (p.take t) (p.take (min t b)) hp ?_ ?_
        · rw [ht]
        · rw [stringsIndex_take_outside p _ t b hB hb
            (by have : "/blob/".toList.length = 6 := rfl; omega), Nat.min_eq_left htb]

/-- The result of `cleanRepoPath` contains neither marker. -/
theorem cleanRepoPath_no_marker (u : Str) :
    stringsContains (cleanRepoPath u) "/tree/".toList = false ∧
      stringsContains (cleanRepoPath u) "/blob/".toList = false := by
  have hT : "/tree/".toList ≠ [] := by decide
  have hB : "/blob/".toList ≠ [] := by decide
  have hcut : ∀ (s sub : Str), sub ≠ [] →
      stringsIndex (match stringsIndex s sub with
        | some idx => s.take idx
        | none => s) sub = none := by
    intro s sub hsub
    cases hk : stringsIndex s sub with
    | none => exact hk
    | some k =>
      exact stringsIndex_take_outside s sub k k hsub hk
        (by have := List.length_pos.2 hsub; omega)
  have hkeep : ∀ (s sub sub2 : Str), sub ≠ [] → stringsIndex s sub = none →
      stringsIndex (match stringsIndex s sub2 with
        | some idx => s.take idx
        | none => s) sub = none := by
    intro s sub sub2 hsub hs
    cases stringsIndex s sub2 with
    | none => exact hs
    | some k => exact stringsIndex_take_none s sub k hsub hs
  have hdef : cleanRepoPath u =
      (match stringsIndex
          (match stringsIndex (stringsTrimSuffix (stringsTrimPrefix u githubPrefix) "/".toList)
              "/tree/".toList with
            | some idx => (stringsTrimSuffix (stringsTrimPrefix u githubPrefix) "/".toList).take idx
            | none => stringsTrimSuffix (stringsTrimPrefix u githubPrefix) "/".toList)
          "/blob/".toList with
        | some idx =>
          (match stringsIndex (stringsTrimSuffix (stringsTrimPrefix u githubPrefix) "/".toList)
              "/tree/".toList with
            | some idx => (stringsTrimSuffix (stringsTrimPrefix u githubPrefix) "/".toList).take idx
            | none => stringsTrimSuffix (stringsTrimPrefix u githubPrefix) "/".toList).take idx
        | none =>
          (match stringsIndex (stringsTrimSuffix (stringsTrimPrefix u githubPrefix) "/".toList)
              "/tree/".toList with
            | some idx => (stringsTrimSuffix (stringsTrimPrefix u githubPrefix) "/".toList).take idx
            | none => stringsTrimSuffix (stringsTrimPrefix u githubPrefix) "/".toList)) := rfl
  unfold stringsContains
  rw [hdef]
  constructor
  · rw [hkeep _ _ _ hT (hcut _ _ hT)]
    rfl
  · rw [hcut _ _ hB]
    rfl

/-! ## The scanner -/

theorem rawLines_no_newline (text : Str) : ∀ l ∈ rawLines text, '\n' ∉ l := by
  induction text with
  | nil => intro l hl; simp [rawLines] at hl
  | cons c cs ih =>
    intro l hl
    unfold rawLines at hl
    by_cases hc : c = '\n'
    · rw [if_pos hc] at hl
      rcases List.mem_cons.1 hl with rfl | hl
      · simp
      · exact ih l hl
    · rw [if_neg hc] at hl
      cases hr : rawLines cs with
      | nil =>
        rw [hr] at hl
        simp only [List.mem_singleton] at hl
        subst hl
        intro hm
        rw [List.mem_singleton] at hm
        exact hc hm.symm
      | cons l0 ls =>
        rw [hr] at hl ih
        simp only at hl
        rcases List.mem_cons.1 hl with rfl | hl
        · intro hm
          rcases List.mem_cons.1 hm with h | h
          · exact hc h.symm
          · exact ih l0 (List.mem_cons_self _ _) h
        · exact ih l (List.mem_cons_of_mem _ hl)

theorem dropCR_no_newline (l : Str) (h : '\n' ∉ l) : '\n' ∉ dropCR l := by
  unfold dropCR
  split
  · exact fun hm => h (List.dropLast_subset l hm)
  · exact h

theorem catalogLines_no_newline (text : Str) : ∀ l ∈ catalogLines text, '\n' ∉ l := by
  intro l hl
  unfold catalogLines at hl
  obtain ⟨r, hr, rfl⟩ := List.mem_map.1 hl
  exact dropCR_no_newline r (rawLines_no_newline text r hr)

theorem parseMarkdown_eq_some (tbl : Char → Char) (text : Str) (recs : List Plugin) :
    parseMarkdown tbl text = some recs ↔
      (∀ l ∈ rawLines text, utf8Length l < maxScanTokenSize) ∧
        recs = parseScanned tbl (catalogLines text) := by
  unfold parseMarkdown scanLines catalogLines
  by_cases h : (rawLines text).all (fun l => decide (utf8Length l < maxScanTokenSize)) = true
  · rw [if_pos h]
    have h2 : ∀ l ∈ rawLines text, utf8Length l < maxScanTokenSize := by
      simpa using h
    simp only [Option.some.injEq]
    exact ⟨fun e => ⟨h2, e.symm⟩, fun e => e.2.symm⟩
  · rw [if_neg h]
    have h2 : ¬ ∀ l ∈ rawLines text, utf8Length l < maxScanTokenSize := by
      simpa using h
    constructor
    · intro e
      exact Option.noConfusion e
    · intro e
      exact absurd e.1 h2

theorem parseMarkdown_eq_none (tbl : Char → Char) (text : Str) :
    parseMarkdown tbl text = none ↔
      ∃ l ∈ rawLines text, maxScanTokenSize ≤ utf8Length l := by
  cases hp : parseMarkdown tbl text with
  | some recs =>
    have h := (parseMarkdown_eq_some tbl text recs).1 hp
    constructor
    · intro e
      exact Option.noConfusion e
    · rintro ⟨l, hl, hlen⟩
      have := h.1 l hl
      omega
  | none =>
    refine ⟨fun _ => ?_, fun _ => rfl⟩
    by_contra hcon
    have hall : ∀ l ∈ rawLines text, utf8Length l < maxScanTokenSize := by
      intro l hl
      by_contra hlt
      exact hcon ⟨l, hl, by omega⟩
    have := (parseMarkdown_eq_some tbl text (parseScanned tbl (catalogLines text))).2 ⟨hall, rfl⟩
    rw [hp] at this
    exact Option.noConfusion this

/-! ## The trailing text of a list item -/

theorem isRegexSpace_isSpace (c : Char) (h : isRegexSpace c = true) : isSpace c = true := by
  unfold isRegexSpace at h
  simp only [Bool.or_eq_true, beq_iff_eq] at h
  rcases h with (((h | h) | h) | h) | h <;> subst h <;> decide

theorem stringsTrimSpace_cons_space (c : Char) (s : Str) (h : isSpace c = true) :
    stringsTrimSpace (c :: s) = stringsTrimSpace s := by
  unfold stringsTrimSpace
  rw [List.dropWhile_cons_of_pos h]

theorem takeWhile_no_newline (s : Str) (h : '\n' ∉ s) :
    s.takeWhile (fun d => d != '\n') = s := by
  rw [List.takeWhile_eq_self_iff]
  intro x hx
  have : x ≠ '\n' := fun e => h (e ▸ hx)
  simpa using this

theorem matchDescription_trim (s : Str) (hn : '\n' ∉ s) (hne : s ≠ []) :
    ∃ d, matchDescription s = some d ∧ stringsTrimSpace d = stringsTrimSpace s := by
  induction s with
  | nil => exact absurd rfl hne
  | cons c cs ih =>
    have hc : c ≠ '\n' := fun e => hn (e ▸ List.mem_cons_self _ _)
    have hcs : '\n' ∉ cs := fun h => hn (List.mem_cons_of_mem _ h)
    unfold matchDescription
    by_cases hsp : isRegexSpace c = true
    · rw [if_pos hsp]
      cases cs with
      | nil =>
        refine ⟨[c], ?_, rfl⟩
        simp [matchDescription, hc]
      | cons e es =>
        obtain ⟨d, hd, ht⟩ := ih hcs (by simp)
        refine ⟨d, ?_, ?_⟩
        · rw [hd]
        · rw [ht, stringsTrimSpace_cons_space c _ (isRegexSpace_isSpace c hsp)]
    · rw [if_neg hsp, takeWhile_no_newline cs hcs]
      exact ⟨c :: cs, rfl, rfl⟩

theorem matchTail_grammar (s d : Str) (hn : '\n' ∉ s) (h : matchTail s = some d) :
    ∃ mid tail : Str, s = mid ++ '-' :: tail ∧ '-' ∉ mid ∧ tail ≠ [] ∧
      stringsTrimSpace d = stringsTrimSpace tail := by
  induction s with
  | nil => simp [matchTail] at h
  | cons c cs ih =>
    have hc : c ≠ '\n' := fun e => hn (e ▸ List.mem_cons_self _ _)
    have hcs : '\n' ∉ cs := fun h => hn (List.mem_cons_of_mem _ h)
    unfold matchTail at h
    by_cases hdash : c = '-'
    · rw [if_pos hdash] at h
      cases cs with
      | nil => simp [matchDescription, matchTail] at h
      | cons e es =>
        obtain ⟨d1, hd1, ht⟩ := matchDescription_trim (e :: es) hcs (by simp)
        rw [hd1] at h
        simp only [Option.some.injEq] at h
        subst h
        exact ⟨[], e :: es, by rw [hdash]; rfl, by simp, by simp, ht⟩
    · rw [if_neg hdash, if_neg hc] at h
      obtain ⟨mid, tail, h1, h2, h3, h4⟩ := ih hcs h
      refine ⟨c :: mid, tail, by rw [h1]; rfl, ?_, h3, h4⟩
      intro hm
      rcases List.mem_cons.1 hm with e | e
      · exact hdash e.symm
      · exact h2 e

theorem matchTail_grammar_complete (mid tail : Str) (hmid : '\n' ∉ mid) (htail : '\n' ∉ tail)
    (hdash : '-' ∉ mid) (hne : tail ≠ []) :
    ∃ d, matchTail (mid ++ '-' :: tail) = some d ∧
      stringsTrimSpace d = stringsTrimSpace tail := by
  induction mid with
  | nil =>
    obtain ⟨d, hd, ht⟩ := matchDescription_trim tail htail hne
    refine ⟨d, ?_, ht⟩
    simp only [List.nil_append]
    unfold matchTail
    rw [if_pos rfl, hd]
  | cons m mid ih =>
    have hm1 : m ≠ '-' := fun e => hdash (e ▸ List.mem_cons_self _ _)
    have hm2 : m ≠ '\n' := fun e => hmid (e ▸ List.mem_cons_self _ _)
    obtain ⟨d, hd, ht⟩ := ih (fun h => hmid (List.mem_cons_of_mem _ h))
      (fun h => hdash (List.mem_cons_of_mem _ h))
    refine ⟨d, ?_, ht⟩
    simp only [List.cons_append]
    unfold matchTail
    rw [if_neg hm1, if_neg hm2, hd]

theorem linkRegex_grammar (line label target desc : Str) (hn : '\n' ∉ line)
    (h : linkRegex line = some (label, target, desc)) :
    ∃ tail, IsListItem line label target tail ∧
      stringsTrimSpace desc = stringsTrimSpace tail := by
  unfold linkRegex at h
  cases h1 : expectRune '-' (line.dropWhile isRegexSpace) with
  | none => rw [h1] at h; simp at h
  | some s1 =>
    rw [h1] at h
    simp only at h
    cases h2 : expectRune '[' (s1.dropWhile isRegexSpace) with
    | none => rw [h2] at h; simp at h
    | some s2 =>
      rw [h2] at h
      simp only at h
      cases h3 : captureUntil ']' s2 with
      | none => rw [h3] at h; simp at h
      | some g3 =>
        obtain ⟨lab, s3⟩ := g3
        rw [h3] at h
        simp only at h
        cases h4 : expectRune '(' s3 with
        | none => rw [h4] at h; simp at h
        | some s4 =>
          rw [h4] at h
          simp only at h
          cases h5 : captureUntil ')' s4 with
          | none => rw [h5] at h; simp at h
          | some g5 =>
            obtain ⟨tgt, s5⟩ := g5
            rw [h5] at h
            simp only at h
            cases h6 : matchTail s5 with
            | none => rw [h6] at h; simp at h
            | some d =>
              rw [h6] at h
              simp only [Option.some.injEq, Prod.mk.injEq] at h
              obtain ⟨rfl, rfl, rfl⟩ := h
              rw [expectRune_eq_some] at h1 h2 h4
              obtain ⟨ws1, e1, hw1⟩ := dropWhile_space_eq_cons _ _ _ h1
              obtain ⟨ws2, e2, hw2⟩ := dropWhile_space_eq_cons _ _ _ h2
              obtain ⟨e3, hl1, hl2⟩ := captureUntil_some _ _ _ _ h3
              obtain ⟨e5, ht1, ht2⟩ := captureUntil_some _ _ _ _ h5
              have hline : line = ws1 ++ ('-' :: (ws2 ++ ('[' :: (lab ++
                  (']' :: '(' :: (tgt ++ (')' :: s5))))))) := by
                rw [e1, e2, e3, h4, e5]
              have hs5 : '\n' ∉ s5 := by
                intro hm
                apply hn
                rw [hline]
                simp [hm]
              obtain ⟨mid, tail, e6, hm, hne, htrim⟩ := matchTail_grammar s5 d hs5 h6
              refine ⟨tail, ⟨ws1, ws2, mid, ?_, hw1, hw2, hl1, hl2, ht1, ht2, hm, hne⟩, htrim⟩
              rw [hline, e6]

theorem linkRegex_grammar_complete (line label target tail : Str) (hn : '\n' ∉ line)
    (h : IsListItem line label target tail) :
    ∃ desc, linkRegex line = some (label, target, desc) ∧
      stringsTrimSpace desc = stringsTrimSpace tail := by
  obtain ⟨ws1, ws2, mid, e, hw1, hw2, hl1, hl2, ht1, ht2, hm, hne⟩ := h
  have hmid : '\n' ∉ mid := by
    intro hmem
    apply hn
    rw [e]
    simp [hmem]
  have htail : '\n' ∉ tail := by
    intro hmem
    apply hn
    rw [e]
    simp [hmem]
  obtain ⟨d, hd, htrim⟩ := matchTail_grammar_complete mid tail hmid htail hm hne
  refine ⟨d, ?_, htrim⟩
  subst e
  unfold linkRegex
  rw [dropWhile_space_append ws1 '-' _ hw1 (by decide)]
  simp only [expectRune, if_true]
  rw [dropWhile_space_append ws2 '[' _ hw2 (by decide)]
  simp only [expectRune, if_true]
  rw [captureUntil_complete ']' label _ hl1 hl2]
  simp only [expectRune, if_true]
  rw [captureUntil_complete ')' target _ ht1 ht2]
  simp only [hd]

theorem acceptedItem_iff (line : Str) (hn : '\n' ∉ line) (item : Str × Str × Str) :
    acceptedItem line = some item ↔
      stringsHasPrefix line "### ".toList = false ∧
        ∃ label target tail : Str, IsListItem line label target tail ∧
          stringsHasPrefix (stringsTrimSpace target) githubPrefix = true ∧
          item = (stringsTrimSpace label, stringsTrimSpace target, stringsTrimSpace tail) := by
  constructor
  · intro h
    have hp : stringsHasPrefix line "### ".toList = false := by
      cases hp : stringsHasPrefix line "### ".toList with
      | false => rfl
      | true => rw [acceptedItem_heading line hp] at h; exact Option.noConfusion h
    obtain ⟨label, target, desc, hr, hgh, hitem⟩ := acceptedItem_some line item h
    obtain ⟨tail, hg, htrim⟩ := linkRegex_grammar line label target desc hn hr
    exact ⟨hp, label, target, tail, hg, hgh, by rw [hitem, htrim]⟩
  · rintro ⟨hp, label, target, tail, hg, hgh, hitem⟩
    obtain ⟨desc, hr, htrim⟩ := linkRegex_grammar_complete line label target tail hn hg
    unfold acceptedItem
    rw [if_neg (by rw [hp]; exact Bool.false_ne_true), hr]
    simp only
    rw [if_pos hgh, hitem, htrim]

/-! ## Catalog texts -/

theorem rawLines_append_newline (l rest : Str) (hl : '\n' ∉ l) :
    rawLines (l ++ '\n' :: rest) = l :: rawLines rest := by
  induction l with
  | nil =>
    simp only [List.nil_append]
    rw [rawLines, if_pos rfl]
  | cons c l ih =>
    have hc : c ≠ '\n' := fun e => hl (e ▸ List.mem_cons_self _ _)
    simp only [List.cons_append]
    rw [rawLines, if_neg hc, ih (fun h => hl (List.mem_cons_of_mem _ h))]

theorem rawLines_catalogText (lines : List Str) (h : ∀ l ∈ lines, '\n' ∉ l) :
    rawLines (catalogText lines) = lines := by
  induction lines with
  | nil => rfl
  | cons l rest ih =>
    rw [catalogText, rawLines_append_newline l _ (h l (List.mem_cons_self _ _)),
      ih (fun x hx => h x (List.mem_cons_of_mem _ hx))]

theorem utf8Length_replicate (n : Nat) (c : Char) :
    utf8Length (List.replicate n c) = n * c.utf8Size := by
  unfold utf8Length
  rw [List.map_replicate, List.sum_replicate, smul_eq_mul]

theorem parseMarkdown_parseScanned (tbl : Char → Char) (text : Str) (recs : List Plugin)
    (h : parseMarkdown tbl text = some recs) : recs = parseScanned tbl (catalogLines text) :=
  ((parseMarkdown_eq_some tbl text recs).1 h).2

/-- C6, as amended: on a catalog text whose raw lines all have fewer than 65536 bytes,
`parseMarkdown` returns records, and their (name, repository, description) triples are, in
line order, the triples of the accepted lines of the text.  A line is accepted with a triple
exactly when it does not start with `### `, reads as a list item (optional white space, a
dash, `[label]`, `(target)`, then the first later dash followed by at least one character)
and its trimmed target starts with `https://github.com/`; the triple is then the trimmed
label, the trimmed target and the trimmed text after that dash. -/
theorem parseMarkdown_extracts (tbl : Char → Char) (text : Str)
    (hfit : ∀ l ∈ rawLines text, utf8Length l < maxScanTokenSize) :
    ∃ recs, parseMarkdown tbl text = some recs ∧
      recs.map (fun p => (p.Name, p.Repository, p.Description)) =
        (catalogLines text).filterMap acceptedItem ∧
      ∀ line ∈ catalogLines text, ∀ item : Str × Str × Str,
        acceptedItem line = some item ↔
          stringsHasPrefix line "### ".toList = false ∧
            ∃ label target tail : Str, IsListItem line label target tail ∧
              stringsHasPrefix (stringsTrimSpace target) githubPrefix = true ∧
              item = (stringsTrimSpace label, stringsTrimSpace target,
                stringsTrimSpace tail) := by
  refine ⟨parseScanned tbl (catalogLines text),
    (parseMarkdown_eq_some tbl text _).2 ⟨hfit, rfl⟩, parseLines_items tbl _ _, ?_⟩
  intro line hline item
  exact acceptedItem_iff line (catalogLines_no_newline text line hline) item

theorem parseMarkdown_extracts_witness :
    (∀ l ∈ rawLines (catalogText [twoDashLine, "# Catalog".toList, sampleLine]),
        utf8Length l < maxScanTokenSize) ∧
      parseMarkdown id (catalogText [twoDashLine, "# Catalog".toList, sampleLine]) =
        some [mkPlugin id "utility".toList "Foo Bar".toList
            "https://github.com/acme/foo".toList "A thing - more".toList,
          mkPlugin id "utility".toList "Foo Bar".toList
            "https://github.com/acme/foo".toList "A thing".toList] ∧
      IsListItem twoDashLine "Foo Bar".toList "https://github.com/acme/foo".toList
        " A thing - more".toList ∧
      ∃ recs, parseMarkdown id (catalogText [twoDashLine, "# Catalog".toList, sampleLine]) =
          some recs ∧
        recs.map (fun p => (p.Name, p.Repository, p.Description)) =
          (catalogLines (catalogText [twoDashLine, "# Catalog".toList,
            sampleLine])).filterMap acceptedItem ∧
        ∀ line ∈ catalogLines (catalogText [twoDashLine, "# Catalog".toList, sampleLine]),
          ∀ item : Str × Str × Str,
          acceptedItem line = some item ↔
            stringsHasPrefix line "### ".toList = false ∧
              ∃ label target tail : Str, IsListItem line label target tail ∧
                stringsHasPrefix (stringsTrimSpace target) githubPrefix = true ∧
                item = (stringsTrimSpace label, stringsTrimSpace target,
                  stringsTrimSpace tail) := by
  have hfit : ∀ l ∈ rawLines (catalogText [twoDashLine, "# Catalog".toList, sampleLine]),
      utf8Length l < maxScanTokenSize := by decide
  refine ⟨hfit, by decide, ⟨[], [' '], [' '], rfl, by decide, by decide, by decide, by decide,
    by decide, by decide, by decide, by decide⟩, parseMarkdown_extracts id _ hfit⟩

/-- C6, as stated, fails: a catalog text with an accepted line and a line of 65536 bytes
makes the scanner fail, and `parseMarkdown` returns the error and no record at all. -/
theorem parseMarkdown_line_too_long :
    acceptedItem sampleLine =
        some ("Foo Bar".toList, "https://github.com/acme/foo".toList, "A thing".toList) ∧
      rawLines (catalogText [sampleLine, longLine]) = [sampleLine, longLine] ∧
      utf8Length longLine = maxScanTokenSize ∧
      parseMarkdown id (catalogText [sampleLine, longLine]) = none := by
  have hlen : utf8Length longLine = maxScanTokenSize := by
    unfold longLine
    rw [utf8Length_replicate]
    rfl
  have hraw : rawLines (catalogText [sampleLine, longLine]) = [sampleLine, longLine] := by
    apply rawLines_catalogText
    intro l hl
    rcases List.mem_cons.1 hl with rfl | hl
    · decide
    · rw [List.mem_singleton] at hl
      subst hl
      intro hm
      have := List.eq_of_mem_replicate hm
      exact absurd this (by decide)
  refine ⟨by decide, hraw, hlen, ?_⟩
  rw [parseMarkdown_eq_none, hraw]
  exact ⟨longLine, by simp, by rw [hlen]⟩

/-- C7: every record that `parseMarkdown` returns for a catalog text has a category that is
one of the nine canonical tags. -/
theorem parseMarkdown_category_canonical (tbl : Char → Char) (text : Str)
    (recs : List Plugin) (h : parseMarkdown tbl text = some recs) (p : Plugin)
    (hp : p ∈ recs) : p.Category ∈ canonicalTags := by
  rw [parseMarkdown_parseScanned tbl text recs h] at hp
  exact parseScanned_category_canonical tbl _ p hp

theorem parseMarkdown_category_canonical_witness :
    parseMarkdown id (catalogText [sampleHeading, sampleLine]) =
        some [mkPlugin id "data".toList "Foo Bar".toList "https://github.com/acme/foo".toList
          "A thing".toList] ∧
      (mkPlugin id "data".toList "Foo Bar".toList "https://github.com/acme/foo".toList
        "A thing".toList).Category ∈ canonicalTags :=
  ⟨by decide, parseMarkdown_category_canonical id (catalogText [sampleHeading, sampleLine]) _
    (by decide) _ (List.mem_singleton.2 rfl)⟩

/-- C8: the records that `parseMarkdown` returns for a catalog text pair off, in order, with
the accepted lines of the text, and the category of each is the `categoryMap` value of the
nearest preceding heading line whose anchor is a key of the map, `utility` when there is
none; after a recognized heading `h1` followed by a heading `h2` whose anchor is not in the
map, the records of the lines after `h2` carry the category of `h1` until the next
recognized heading. -/
theorem parseMarkdown_category (tbl : Char → Char) (text : Str) (recs : List Plugin)
    (h : parseMarkdown tbl text = some recs) :
    List.Forall₂
        (fun p i => p.Category = categoryAfter ((catalogLines text).take i) ∧
          ∃ line, (catalogLines text)[i]? = some line ∧
            acceptedItem line = some (p.Name, p.Repository, p.Description))
        recs (acceptedIndices (catalogLines text)) ∧
      (∀ (pre items : List Str) (h1 h2 c : Str),
        catalogLines text = pre ++ h1 :: h2 :: items →
        recognizedHeading h1 = some c →
        stringsHasPrefix h2 "### ".toList = true → recognizedHeading h2 = none →
        (∀ l ∈ items, recognizedHeading l = none) →
        ∀ p ∈ recs.drop (pre.filterMap acceptedItem).length, p.Category = c) := by
  have e := parseMarkdown_parseScanned tbl text recs h
  subst e
  refine ⟨(parseScanned_category tbl (catalogLines text)).1, ?_⟩
  intro pre items h1 h2 c hsplit hc1 hp2 hc2 hitems
  have hlen : (pre.filterMap acceptedItem).length = (parseScanned tbl pre).length := by
    rw [← parseLines_items tbl "utility".toList pre, List.length_map]
    rfl
  rw [hlen, hsplit]
  exact (parseScanned_category tbl []).2 pre items h1 h2 c hc1 hp2 hc2 hitems

theorem parseMarkdown_category_witness :
    parseMarkdown id
        (catalogText [sampleLine, sampleHeading, sampleUnknownHeading, sampleLine]) =
        some [mkPlugin id "utility".toList "Foo Bar".toList
            "https://github.com/acme/foo".toList "A thing".toList,
          mkPlugin id "data".toList "Foo Bar".toList
            "https://github.com/acme/foo".toList "A thing".toList] ∧
      catalogLines (catalogText [sampleLine, sampleHeading, sampleUnknownHeading, sampleLine]) =
        [sampleLine] ++ sampleHeading :: sampleUnknownHeading :: [sampleLine] ∧
      recognizedHeading sampleHeading = some "data".toList ∧
      stringsHasPrefix sampleUnknownHeading "### ".toList = true ∧
      recognizedHeading sampleUnknownHeading = none ∧
      (∀ l ∈ [sampleLine], recognizedHeading l = none) ∧
      ∀ p ∈ [mkPlugin id "utility".toList "Foo Bar".toList
            "https://github.com/acme/foo".toList "A thing".toList,
          mkPlugin id "data".toList "Foo Bar".toList
            "https://github.com/acme/foo".toList "A thing".toList].drop
          ([sampleLine].filterMap acceptedItem).length, p.Category = "data".toList := by
  have h0 : parseMarkdown id
      (catalogText [sampleLine, sampleHeading, sampleUnknownHeading, sampleLine]) =
      some [mkPlugin id "utility".toList "Foo Bar".toList
          "https://github.com/acme/foo".toList "A thing".toList,
        mkPlugin id "data".toList "Foo Bar".toList
          "https://github.com/acme/foo".toList "A thing".toList] := by decide
  have hs : catalogLines
      (catalogText [sampleLine, sampleHeading, sampleUnknownHeading, sampleLine]) =
      [sampleLine] ++ sampleHeading :: sampleUnknownHeading :: [sampleLine] := by decide
  have h1 : recognizedHeading sampleHeading = some "data".toList := by decide
  have h2 : stringsHasPrefix sampleUnknownHeading "### ".toList = true := by decide
  have h3 : recognizedHeading sampleUnknownHeading = none := by decide
  have h4 : ∀ l ∈ [sampleLine], recognizedHeading l = none := by decide
  exact ⟨h0, hs, h1, h2, h3, h4,
    (parseMarkdown_category id _ _ h0).2 [sampleLine] [sampleLine] sampleHeading
      sampleUnknownHeading "data".toList hs h1 h2 h3 h4⟩

/-! ## Records of `parseMarkdown` -/

/-- C9, as amended: a record whose metadata fetch fails is still present at its position,
with install type `manual` and an empty package, and with every other field, stars,
language, license and update time included, as it was before the call; for the records
that `parseMarkdown` returns these four are the zero values. -/
theorem enrichPlugins_fetch_failure (tbl : Char → Char)
    (fetch : Nat → Str → Option GitHubRepo) (plugins : List Plugin) (i : Nat) (p : Plugin)
    (hp : plugins[i]? = some p) (hfail : fetch i (cleanRepoPath p.Repository) = none) :
    (enrichPlugins tbl fetch plugins).length = plugins.length ∧
      (enrichPlugins tbl fetch plugins)[i]? =
        some { p with InstallType := "manual".toList, Package := [] } ∧
      (∀ text : Str, parseMarkdown tbl text = some plugins →
        ∃ q, (enrichPlugins tbl fetch plugins)[i]? = some q ∧
          q.InstallType = "manual".toList ∧ q.Package = [] ∧ q.Stars = 0 ∧
          q.Language = [] ∧ q.License = [] ∧ q.UpdatedAt = 0) := by
  have hget : (enrichPlugins tbl fetch plugins)[i]? =
      some { p with InstallType := "manual".toList, Package := [] } := by
    unfold enrichPlugins
    rw [enrichFrom_getElem?, hp, Nat.zero_add, Option.map_some', hfail]
    rfl
  refine ⟨enrichFrom_length tbl fetch 0 plugins, hget, ?_⟩
  intro text htext
  have hmem : p ∈ parseScanned tbl (catalogLines text) := by
    rw [← parseMarkdown_parseScanned tbl text plugins htext]
    exact List.mem_iff_getElem?.2 ⟨i, hp⟩
  obtain ⟨h1, h2, h3, h4⟩ := parseLines_defaults tbl _ _ p hmem
  exact ⟨_, hget, rfl, rfl, h1, h2, h3, h4⟩

theorem enrichPlugins_fetch_failure_witness :
    parseMarkdown id (catalogText [sampleLine]) =
        some [mkPlugin id "utility".toList "Foo Bar".toList
          "https://github.com/acme/foo".toList "A thing".toList] ∧
      (enrichPlugins id (fun _ _ => none)
          [mkPlugin id "utility".toList "Foo Bar".toList
            "https://github.com/acme/foo".toList "A thing".toList])[0]? =
        some { mkPlugin id "utility".toList "Foo Bar".toList
          "https://github.com/acme/foo".toList "A thing".toList with
          InstallType := "manual".toList, Package := [] } ∧
      ∃ q, (enrichPlugins id (fun _ _ => none)
          [mkPlugin id "utility".toList "Foo Bar".toList
            "https://github.com/acme/foo".toList "A thing".toList])[0]? = some q ∧
        q.InstallType = "manual".toList ∧ q.Package = [] ∧ q.Stars = 0 ∧
        q.Language = [] ∧ q.License = [] ∧ q.UpdatedAt = 0 := by
  have h0 : parseMarkdown id (catalogText [sampleLine]) =
      some [mkPlugin id "utility".toList "Foo Bar".toList
        "https://github.com/acme/foo".toList "A thing".toList] := by decide
  have h := enrichPlugins_fetch_failure id (fun _ _ => none)
    [mkPlugin id "utility".toList "Foo Bar".toList "https://github.com/acme/foo".toList
      "A thing".toList] 0
    (mkPlugin id "utility".toList "Foo Bar".toList "https://github.com/acme/foo".toList
      "A thing".toList) rfl rfl
  exact ⟨h0, h.2.1, h.2.2 _ h0⟩

/-- C14, as amended: a record that `parseMarkdown` returns has as author the first path
segment of its repository, and is official exactly when that author, lower-cased, contains
`anthropic` or contains `modelcontextprotocol`. -/
theorem parseMarkdown_official (tbl : Char → Char) (text : Str) (recs : List Plugin)
    (h : parseMarkdown tbl text = some recs) (p : Plugin) (hp : p ∈ recs) :
    p.Author = extractAuthor p.Repository ∧
      (p.Official = true ↔
        stringsContains (stringsToLower tbl p.Author) "anthropic".toList = true ∨
        stringsContains (stringsToLower tbl p.Author) "modelcontextprotocol".toList = true) := by
  rw [parseMarkdown_parseScanned tbl text recs h] at hp
  exact parseScanned_official tbl _ p hp

theorem parseMarkdown_official_witness :
    parseMarkdown id (catalogText [anthropicsLine]) =
        some [mkPlugin id "utility".toList "Claude Tool".toList
          "https://github.com/anthropics/tool".toList "A tool".toList] ∧
      (mkPlugin id "utility".toList "Claude Tool".toList
        "https://github.com/anthropics/tool".toList "A tool".toList).Author =
        "anthropics".toList ∧
      ((mkPlugin id "utility".toList "Claude Tool".toList
          "https://github.com/anthropics/tool".toList "A tool".toList).Official = true ↔
        stringsContains (stringsToLower id (mkPlugin id "utility".toList "Claude Tool".toList
          "https://github.com/anthropics/tool".toList "A tool".toList).Author)
            "anthropic".toList = true ∨
        stringsContains (stringsToLower id (mkPlugin id "utility".toList "Claude Tool".toList
          "https://github.com/anthropics/tool".toList "A tool".toList).Author)
            "modelcontextprotocol".toList = true) := by
  have h0 : parseMarkdown id (catalogText [anthropicsLine]) =
      some [mkPlugin id "utility".toList "Claude Tool".toList
        "https://github.com/anthropics/tool".toList "A tool".toList] := by decide
  have h := parseMarkdown_official id (catalogText [anthropicsLine]) _ h0 _
    (List.mem_singleton.2 rfl)
  exact ⟨h0, h.1.trans (by decide), h.2⟩

/-- C14, as stated, fails: the author `anthropics` is neither `anthropic` nor
`modelcontextprotocol`, and its record is official. -/
theorem parseMarkdown_official_substring :
    (parseMarkdown id (catalogText [anthropicsLine])).map
        (List.map (fun p => (p.Author, stringsToLower id p.Author, p.Official))) =
      some [("anthropics".toList, "anthropics".toList, true)] ∧
      "anthropics".toList ≠ "anthropic".toList ∧
      "anthropics".toList ≠ "modelcontextprotocol".toList := by
  refine ⟨by decide, by decide, by decide⟩

/-- C16, as amended: the name of a record that `parseMarkdown` returns is the trimmed label
of its line, a label that is not empty; the name is non-empty exactly when the label holds a
character that is not white space. -/
theorem parseMarkdown_name (tbl : Char → Char) (text : Str) (recs : List Plugin)
    (h : parseMarkdown tbl text = some recs) (p : Plugin) (hp : p ∈ recs) :
    ∃ line label target desc : Str, line ∈ catalogLines text ∧
      linkRegex line = some (label, target, desc) ∧ label ≠ [] ∧
      p.Name = stringsTrimSpace label ∧
      (p.Name ≠ [] ↔ ∃ c ∈ label, isSpace c = false) := by
  rw [parseMarkdown_parseScanned tbl text recs h] at hp
  exact parseScanned_name tbl _ p hp

theorem parseMarkdown_name_witness :
    parseMarkdown id (catalogText [sampleLine]) =
        some [mkPlugin id "utility".toList "Foo Bar".toList
          "https://github.com/acme/foo".toList "A thing".toList] ∧
      ∃ line label target desc : Str, line ∈ catalogLines (catalogText [sampleLine]) ∧
        linkRegex line = some (label, target, desc) ∧ label ≠ [] ∧
        "Foo Bar".toList = stringsTrimSpace label ∧
        ("Foo Bar".toList ≠ [] ↔ ∃ c ∈ label, isSpace c = false) := by
  have h0 : parseMarkdown id (catalogText [sampleLine]) =
      some [mkPlugin id "utility".toList "Foo Bar".toList
        "https://github.com/acme/foo".toList "A thing".toList] := by decide
  exact ⟨h0, parseMarkdown_name id (catalogText [sampleLine]) _ h0
    (mkPlugin id "utility".toList "Foo Bar".toList "https://github.com/acme/foo".toList
      "A thing".toList) (List.mem_singleton.2 rfl)⟩

/-- C16, as stated, fails: a label made of white space is accepted by the pattern and
trimmed to the empty name. -/
theorem parseMarkdown_empty_name :
    linkRegex blankLabelLine =
        some (" ".toList, "https://github.com/acme/foo".toList, "A thing".toList) ∧
      (parseMarkdown id (catalogText [blankLabelLine])).map
          (List.map (fun p => (p.Name, p.Repository))) =
        some [([], "https://github.com/acme/foo".toList)] := by
  refine ⟨by decide, by decide⟩

/-! ## The run of `main` on a catalog text -/

theorem main_absent (tbl : Char → Char) (fetchCatalog fetchCustom : Nat → Str → Option GitHubRepo)
    (iter : List (Str × Plugin) → List (Str × Plugin))
    (srt : (Plugin → Plugin → Bool) → List Plugin → List Plugin)
    (text : Str) (recs : List Plugin) (h : parseMarkdown tbl text = some recs) :
    main tbl fetchCatalog fetchCustom iter srt text CustomPluginsFile.absent =
      some (mainSequence tbl fetchCatalog fetchCustom iter srt (catalogLines text) none) := by
  have e := parseMarkdown_parseScanned tbl text recs h
  subst e
  unfold main
  rw [h]
  rfl

theorem main_decoded (tbl : Char → Char)
    (fetchCatalog fetchCustom : Nat → Str → Option GitHubRepo)
    (iter : List (Str × Plugin) → List (Str × Plugin))
    (srt : (Plugin → Plugin → Bool) → List Plugin → List Plugin)
    (text : Str) (recs : List Plugin) (h : parseMarkdown tbl text = some recs)
    (decoded : List Plugin) :
    main tbl fetchCatalog fetchCustom iter srt text (CustomPluginsFile.decoded decoded) =
      some (mainSequence tbl fetchCatalog fetchCustom iter srt (catalogLines text)
        (some decoded)) := by
  have e := parseMarkdown_parseScanned tbl text recs h
  subst e
  unfold main
  rw [h]
  rfl

/-- A run of `main` on a catalog that `parseMarkdown` rejects exits without output. -/
theorem main_parse_error (tbl : Char → Char)
    (fetchCatalog fetchCustom : Nat → Str → Option GitHubRepo)
    (iter : List (Str × Plugin) → List (Str × Plugin))
    (srt : (Plugin → Plugin → Bool) → List Plugin → List Plugin)
    (text : Str) (custom : CustomPluginsFile) (h : parseMarkdown tbl text = none) :
    main tbl fetchCatalog fetchCustom iter srt text custom = none := by
  unfold main
  rw [h]

theorem parseMarkdown_longLine (tbl : Char → Char) (lines : List Str)
    (h : ∀ l ∈ lines, '\n' ∉ l) :
    parseMarkdown tbl (catalogText (lines ++ [longLine])) = none := by
  have hlong : '\n' ∉ longLine := by
    intro hm
    exact absurd (List.eq_of_mem_replicate hm) (by decide)
  have hraw : rawLines (catalogText (lines ++ [longLine])) = lines ++ [longLine] := by
    apply rawLines_catalogText
    intro l hl
    rcases List.mem_append.1 hl with hl | hl
    · exact h l hl
    · rw [List.mem_singleton] at hl
      subst hl
      exact hlong
  rw [parseMarkdown_eq_none, hraw]
  refine ⟨longLine, by simp, ?_⟩
  unfold longLine
  rw [utf8Length_replicate]
  exact Nat.le_refl _

/-- C15, as amended: the records of a merge have pairwise distinct ids whenever any two
input records with different repositories have different ids; the id of a record that
`parseMarkdown` returns is `generateID` of its name alone. -/
theorem mergePlugins_ids (tbl : Char → Char) (iter : List (Str × Plugin) → List (Str × Plugin))
    (hiter : IsMapIteration iter) (E C : List Plugin)
    (hid : ∀ a ∈ E ++ C, ∀ b ∈ E ++ C, a.Repository ≠ b.Repository → a.ID ≠ b.ID) :
    ((mergePlugins iter E C).map (fun p => p.ID)).Nodup ∧
      ∀ (text : Str) (recs : List Plugin), parseMarkdown tbl text = some recs →
        ∀ p ∈ recs, p.ID = generateID tbl p.Name [] := by
  constructor
  · have hnd := nodup_repositories_mergePlugins iter hiter E C
    have hall : ∀ x ∈ mergePlugins iter E C, x ∈ E ++ C :=
      fun x hx => mem_mergePlugins iter hiter E C x hx
    generalize mergePlugins iter E C = M at hnd hall
    induction M with
    | nil => exact List.nodup_nil
    | cons a t ih =>
      simp only [List.map_cons, List.nodup_cons] at hnd ⊢
      refine ⟨?_, ih hnd.2 (fun x hx => hall x (List.mem_cons_of_mem _ hx))⟩
      intro hmem
      obtain ⟨b, hb, hbid⟩ := List.mem_map.1 hmem
      have hrepo : a.Repository ≠ b.Repository := by
        intro h
        exact hnd.1 (List.mem_map.2 ⟨b, hb, h.symm⟩)
      exact hid a (hall a (List.mem_cons_self _ _)) b (hall b (List.mem_cons_of_mem _ hb)) hrepo
        hbid.symm
  · intro text recs h p hp
    rw [parseMarkdown_parseScanned tbl text recs h] at hp
    exact (parseScanned_identity tbl _ p hp).1

theorem mergePlugins_ids_witness :
    IsMapIteration id ∧
      (∀ a ∈ [sampleExtracted] ++ [starredOverride], ∀ b ∈ [sampleExtracted] ++ [starredOverride],
        a.Repository ≠ b.Repository → a.ID ≠ b.ID) ∧
      ((mergePlugins id [sampleExtracted] [starredOverride]).map (fun p => p.ID)).Nodup := by
  have hi : IsMapIteration id := fun m => List.Perm.refl m
  have hid : ∀ a ∈ [sampleExtracted] ++ [starredOverride],
      ∀ b ∈ [sampleExtracted] ++ [starredOverride],
      a.Repository ≠ b.Repository → a.ID ≠ b.ID := by decide
  exact ⟨hi, hid, (mergePlugins_ids id id hi [sampleExtracted] [starredOverride] hid).1⟩

/-- C15, as stated, fails: two catalogue entries with the same name and different
repositories both survive the merge and carry the same id. -/
theorem mergePlugins_duplicate_ids :
    (main id (fun _ _ => none) (fun _ _ => none) id insertionSortLessFunc
        (catalogText sameNameLines) (CustomPluginsFile.decoded [])).map
        (List.map (fun p => (p.ID, p.Repository))) =
      some [("github".toList, "https://github.com/a/github".toList),
        ("github".toList, "https://github.com/b/github".toList)] ∧
      ¬ (["github".toList, "github".toList] : List Str).Nodup := by
  refine ⟨by decide, by decide⟩

/-- C17, as amended: with the metadata fetch a fixed function of the normalized path, for a
catalog that `parseMarkdown` accepts, whose extracted records have pairwise distinct
repositories and whose enriched records have pairwise distinct official flag, stars and
name, a run without override file emits a sequence `D`, and a second run with `D` loaded as
override set emits `D` again.  The document written from `D` decodes to the records of `D`,
so `D` itself is the decoded override set. -/
theorem main_rerun_idempotent (tbl : Char → Char) (f : Str → Option GitHubRepo)
    (iter : List (Str × Plugin) → List (Str × Plugin)) (hiter : IsMapIteration iter)
    (srt : (Plugin → Plugin → Bool) → List Plugin → List Plugin) (hsrt : IsSliceSort srt)
    (text : Str) (recs : List Plugin) (hparse : parseMarkdown tbl text = some recs)
    (hrepo : (recs.map (fun p => p.Repository)).Nodup)
    (hkeys : ∀ x ∈ enrichPlugins tbl (fun _ path => f path) recs,
      ∀ y ∈ enrichPlugins tbl (fun _ path => f path) recs, x ≠ y →
        x.Official ≠ y.Official ∨ x.Stars ≠ y.Stars ∨ x.Name ≠ y.Name) :
    ∃ D, main tbl (fun _ path => f path) (fun _ path => f path) iter srt text
          CustomPluginsFile.absent = some D ∧
      main tbl (fun _ path => f path) (fun _ path => f path) iter srt text
          (CustomPluginsFile.decoded D) = some D := by
  have e := parseMarkdown_parseScanned tbl text recs hparse
  subst e
  refine ⟨_, main_absent tbl _ _ iter srt text _ hparse, ?_⟩
  rw [main_decoded tbl _ _ iter srt text _ hparse]
  exact congrArg some
    (mainSequence_rerun_idempotent tbl f iter hiter srt hsrt (catalogLines text) hrepo hkeys)

theorem main_rerun_idempotent_witness :
    IsMapIteration List.reverse ∧ IsSliceSort insertionSortLessFunc ∧
      parseMarkdown id (catalogText [sampleLine, anthropicsLine]) =
        some [mkPlugin id "utility".toList "Foo Bar".toList
            "https://github.com/acme/foo".toList "A thing".toList,
          mkPlugin id "utility".toList "Claude Tool".toList
            "https://github.com/anthropics/tool".toList "A tool".toList] ∧
      ∃ D, main id (fun _ _ => none) (fun _ _ => none) List.reverse insertionSortLessFunc
            (catalogText [sampleLine, anthropicsLine]) CustomPluginsFile.absent = some D ∧
        main id (fun _ _ => none) (fun _ _ => none) List.reverse insertionSortLessFunc
            (catalogText [sampleLine, anthropicsLine]) (CustomPluginsFile.decoded D) =
          some D := by
  have hi : IsMapIteration List.reverse := fun m => List.reverse_perm m
  have h0 : parseMarkdown id (catalogText [sampleLine, anthropicsLine]) =
      some [mkPlugin id "utility".toList "Foo Bar".toList
          "https://github.com/acme/foo".toList "A thing".toList,
        mkPlugin id "utility".toList "Claude Tool".toList
          "https://github.com/anthropics/tool".toList "A tool".toList] := by decide
  exact ⟨hi, insertionSortLessFunc_isSliceSort, h0,
    main_rerun_idempotent id (fun _ => none) List.reverse hi insertionSortLessFunc
      insertionSortLessFunc_isSliceSort (catalogText [sampleLine, anthropicsLine]) _ h0
      (by decide) (by decide)⟩

/-- C17, as stated, fails: a catalog that lists one repository twice is emitted with both
records by a run without override file, and the second run, which merges by repository,
emits one. -/
theorem main_rerun_drops_duplicates :
    main id (fun _ _ => none) (fun _ _ => none) id insertionSortLessFunc
        (catalogText [sampleLine, sampleLine]) CustomPluginsFile.absent =
      some [{ mkPlugin id "utility".toList "Foo Bar".toList
            "https://github.com/acme/foo".toList "A thing".toList with
            InstallType := "manual".toList },
          { mkPlugin id "utility".toList "Foo Bar".toList
            "https://github.com/acme/foo".toList "A thing".toList with
            InstallType := "manual".toList }] ∧
      main id (fun _ _ => none) (fun _ _ => none) id insertionSortLessFunc
        (catalogText [sampleLine, sampleLine])
        (CustomPluginsFile.decoded
          [{ mkPlugin id "utility".toList "Foo Bar".toList
            "https://github.com/acme/foo".toList "A thing".toList with
            InstallType := "manual".toList },
          { mkPlugin id "utility".toList "Foo Bar".toList
            "https://github.com/acme/foo".toList "A thing".toList with
            InstallType := "manual".toList }]) =
      some [{ mkPlugin id "utility".toList "Foo Bar".toList
            "https://github.com/acme/foo".toList "A thing".toList with
            InstallType := "manual".toList }] := by
  refine ⟨by decide, by decide⟩

/-- C18, as amended: in a run of `main` on a catalog that `parseMarkdown` accepts, with an
override set of pairwise distinct repositories, the run emits a final record set, and it
contains for each override record `o` as loaded the record the enricher makes of it: id,
name, description, category, tags, repository, author, verified and official are those of
`o`; install type and package are recomputed (`manual` and empty when the fetch fails, every
other field then being that of `o`), and stars, language and update time are the fetched
ones when the fetch succeeds. -/
theorem main_override_records (tbl : Char → Char)
    (fetchCatalog fetchCustom : Nat → Str → Option GitHubRepo)
    (iter : List (Str × Plugin) → List (Str × Plugin)) (hiter : IsMapIteration iter)
    (srt : (Plugin → Plugin → Bool) → List Plugin → List Plugin) (hsrt : IsSliceSort srt)
    (text : Str) (recs : List Plugin) (hparse : parseMarkdown tbl text = some recs)
    (decoded : List Plugin)
    (hnd : (decoded.map (fun p => p.Repository)).Nodup) (i : Nat) (o : Plugin)
    (ho : (loadCustomPlugins tbl decoded)[i]? = some o) :
    ∃ final, main tbl fetchCatalog fetchCustom iter srt text
        (CustomPluginsFile.decoded decoded) = some final ∧
      ∃ q, q ∈ final ∧
        q = enrichOne tbl (fetchCustom i (cleanRepoPath o.Repository)) o ∧
        q.ID = o.ID ∧ q.Name = o.Name ∧ q.Description = o.Description ∧
        q.Category = o.Category ∧ q.Tags = o.Tags ∧ q.Repository = o.Repository ∧
        q.Author = o.Author ∧ q.Verified = o.Verified ∧ q.Official = o.Official ∧
        (fetchCustom i (cleanRepoPath o.Repository) = none →
          q = { o with InstallType := "manual".toList, Package := [] }) ∧
        (∀ gh, fetchCustom i (cleanRepoPath o.Repository) = some gh →
          q.Stars = gh.StargazersCount ∧ q.Language = gh.Language ∧
            q.UpdatedAt = gh.PushedAt) :=
  ⟨_, main_decoded tbl fetchCatalog fetchCustom iter srt text recs hparse decoded,
    mainSequence_override_records tbl fetchCatalog fetchCustom iter hiter srt hsrt
      (catalogLines text) decoded hnd i o ho⟩

theorem main_override_records_witness :
    IsMapIteration id ∧ IsSliceSort insertionSortLessFunc ∧
      parseMarkdown id (catalogText [sampleLine]) =
        some [mkPlugin id "utility".toList "Foo Bar".toList
          "https://github.com/acme/foo".toList "A thing".toList] ∧
      ([starredOverride].map (fun p => p.Repository)).Nodup ∧
      (loadCustomPlugins id [starredOverride])[0]? =
        some { starredOverride with Author := "acme".toList } ∧
      ∃ final, main id (fun _ _ => none) (fun _ _ => some pythonRepo) id insertionSortLessFunc
          (catalogText [sampleLine]) (CustomPluginsFile.decoded [starredOverride]) =
          some final ∧
        ∃ q, q ∈ final ∧ q.Name = "Local Tool".toList ∧ q.Stars = 12 := by
  have hi : IsMapIteration id := fun m => List.Perm.refl m
  have h0 : parseMarkdown id (catalogText [sampleLine]) =
      some [mkPlugin id "utility".toList "Foo Bar".toList
        "https://github.com/acme/foo".toList "A thing".toList] := by decide
  have hnd : ([starredOverride].map (fun p => p.Repository)).Nodup := by decide
  have ho : (loadCustomPlugins id [starredOverride])[0]? =
      some { starredOverride with Author := "acme".toList } := by decide
  obtain ⟨final, hfinal, q, hq, _, _, h2, _, _, _, _, _, _, _, _, hs⟩ :=
    main_override_records id (fun _ _ => none) (fun _ _ => some pythonRepo) id hi
      insertionSortLessFunc insertionSortLessFunc_isSliceSort (catalogText [sampleLine]) _ h0
      [starredOverride] hnd 0 _ ho
  exact ⟨hi, insertionSortLessFunc_isSliceSort, h0, hnd, ho, final, hfinal, q, hq, h2,
    (hs pythonRepo rfl).1⟩

/-- C18, as stated, fails: `main` enriches the override records before the merge, so an
override record loaded with install type `go` and a package comes out as `manual` with an
empty package when its fetch fails, and the record as loaded is not in the final set; and on
a catalog with a line of 65536 bytes `main` exits at the parse error and emits no record
set. -/
theorem main_override_enriched :
    loadCustomPlugins id [starredOverride] =
        [{ starredOverride with Author := "acme".toList }] ∧
      main id (fun _ _ => none) (fun _ _ => none) id insertionSortLessFunc
          (catalogText [sampleLine]) (CustomPluginsFile.decoded [starredOverride]) =
        some [{ starredOverride with
            Author := "acme".toList, InstallType := "manual".toList, Package := [] },
          { mkPlugin id "utility".toList "Foo Bar".toList "https://github.com/acme/foo".toList
            "A thing".toList with InstallType := "manual".toList }] ∧
      { starredOverride with Author := "acme".toList } ∉
        [{ starredOverride with
            Author := "acme".toList, InstallType := "manual".toList, Package := [] },
          { mkPlugin id "utility".toList "Foo Bar".toList "https://github.com/acme/foo".toList
            "A thing".toList with InstallType := "manual".toList }] ∧
      main id (fun _ _ => none) (fun _ _ => none) id insertionSortLessFunc
          (catalogText ([sampleLine] ++ [longLine]))
          (CustomPluginsFile.decoded [starredOverride]) = none := by
  refine ⟨by decide, by decide, by decide, ?_⟩
  exact main_parse_error id _ _ id _ _ _ (parseMarkdown_longLine id [sampleLine] (by decide))

/-! ## Records tied in the ranking -/

/-- C5 fails on the code: two different records with the same official flag, stars and name
are ordered by the comparator in neither direction, so the emitted sequence follows the
order in which they reach the sort, and after `mergePlugins` that is the iteration order of
the map.  A run of `main` on a catalog with two entries named `GitHub`, an empty override
set and every fetch failing emits the two records in either order, depending on the map
iteration alone; the sort "for consistent output" does not make the output consistent. -/
theorem generateJSONFile_order_dependent :
    tiedFirst ≠ tiedSecond ∧
      pluginLess tiedFirst tiedSecond = false ∧ pluginLess tiedSecond tiedFirst = false ∧
      [tiedFirst, tiedSecond].Perm [tiedSecond, tiedFirst] ∧
      generateJSONFile insertionSortLessFunc [tiedFirst, tiedSecond] ≠
        generateJSONFile insertionSortLessFunc [tiedSecond, tiedFirst] ∧
      generateJSONFile insertionSortLessFunc (mergePlugins id [tiedFirst, tiedSecond] []) ≠
        generateJSONFile insertionSortLessFunc
          (mergePlugins List.reverse [tiedFirst, tiedSecond] []) ∧
      IsMapIteration id ∧ IsMapIteration List.reverse ∧
      (main id (fun _ _ => none) (fun _ _ => none) id insertionSortLessFunc
          (catalogText sameNameLines) (CustomPluginsFile.decoded [])).map
          (List.map (fun p => (p.Name, p.Repository, p.Description))) =
        some [("GitHub".toList, "https://github.com/a/github".toList, "First".toList),
          ("GitHub".toList, "https://github.com/b/github".toList, "Second".toList)] ∧
      (main id (fun _ _ => none) (fun _ _ => none) List.reverse insertionSortLessFunc
          (catalogText sameNameLines) (CustomPluginsFile.decoded [])).map
          (List.map (fun p => (p.Name, p.Repository, p.Description))) =
        some [("GitHub".toList, "https://github.com/b/github".toList, "Second".toList),
          ("GitHub".toList, "https://github.com/a/github".toList, "First".toList)] := by
  refine ⟨by decide, by decide, by decide, List.Perm.swap _ _ _, by decide, by decide,
    fun m => List.Perm.refl m, fun m => List.reverse_perm m, by decide, by decide⟩

end ParseRegistry
